import Mathlib

/-!
Verification development for the convector path tracer core.

The Rust sources under `src/` are shallowly embedded below.  IEEE-754
single-precision numbers are modelled as exact rationals (`ℚ`); machine
infinities that arise in the AABB slab test are modelled by the extended
rationals `WithBot (WithTop ℚ)`.  Code that can panic (Rust `assert!`,
`unwrap`) is modelled in the `Except String` monad.  Modules of the
repository that are not present under `src/` (aabb.rs, triangle.rs,
vector3.rs, random.rs, scene.rs, parts of simd.rs) are modelled from the
specification; each such definition carries a doc comment starting with
`Modelled from the spec:`.
-/

set_option maxHeartbeats 1000000
set_option maxRecDepth 1000000

/-- Axis enumeration of vector3.rs.  Modelled from the spec: scalar vectors
have three f32 coordinates with an axis enumeration X, Y, Z. -/
inductive Axis where
  | X : Axis
  | Y : Axis
  | Z : Axis
deriving DecidableEq, Repr

/-- Modelled from the spec: a scalar 3D vector (`SVector3` in vector3.rs,
which is not under src/): three coordinates with accessors. -/
structure SVector3 where
  x : ℚ
  y : ℚ
  z : ℚ
deriving DecidableEq, Repr

namespace SVector3

def getCoord (v : SVector3) : Axis → ℚ
  | Axis.X => v.x
  | Axis.Y => v.y
  | Axis.Z => v.z

def add (a b : SVector3) : SVector3 := ⟨a.x + b.x, a.y + b.y, a.z + b.z⟩

def sub (a b : SVector3) : SVector3 := ⟨a.x - b.x, a.y - b.y, a.z - b.z⟩

def smul (q : ℚ) (a : SVector3) : SVector3 := ⟨q * a.x, q * a.y, q * a.z⟩

def dot (a b : SVector3) : ℚ := a.x * b.x + a.y * b.y + a.z * b.z

def cross (a b : SVector3) : SVector3 :=
  ⟨a.y * b.z - a.z * b.y, a.z * b.x - a.x * b.z, a.x * b.y - a.y * b.x⟩

/-- Componentwise minimum, as used by the AABB closure operations. -/
def minv (a b : SVector3) : SVector3 := ⟨min a.x b.x, min a.y b.y, min a.z b.z⟩

/-- Componentwise maximum, as used by the AABB closure operations. -/
def maxv (a b : SVector3) : SVector3 := ⟨max a.x b.x, max a.y b.y, max a.z b.z⟩

end SVector3

/-- Modelled from the spec: an axis-aligned bounding box (aabb.rs is not
under src/): minimum corner `origin` and extent `size`; `far = origin + size`. -/
structure Aabb where
  origin : SVector3
  size : SVector3
deriving DecidableEq, Repr

namespace Aabb

def far (b : Aabb) : SVector3 := b.origin.add b.size

/-- Modelled from the spec: `Aabb::zero`, the empty box at the origin. -/
def zero : Aabb := ⟨⟨0, 0, 0⟩, ⟨0, 0, 0⟩⟩

/-- Modelled from the spec: surface area 2(sx sy + sy sz + sz sx). -/
def area (b : Aabb) : ℚ :=
  2 * (b.size.x * b.size.y + b.size.y * b.size.z + b.size.z * b.size.x)

/-- The box spanned by a min corner and a max corner. -/
def ofCorners (lo hi : SVector3) : Aabb := ⟨lo, hi.sub lo⟩

/-- Modelled from the spec: `enclose_points` returns the smallest box
containing every input point.  The Rust iterator version is total only on
nonempty input; the model returns `Aabb.zero` on the empty list. -/
def enclosePoints (ps : List SVector3) : Aabb :=
  match ps with
  | [] => Aabb.zero
  | p :: rest =>
    ofCorners (rest.foldl (fun lo q => lo.minv q) p) (rest.foldl (fun hi q => hi.maxv q) p)

/-- The smallest box containing two boxes. -/
def enclose2 (a b : Aabb) : Aabb :=
  ofCorners (a.origin.minv b.origin) ((a.far).maxv (b.far))

/-- Modelled from the spec: `enclose_aabbs` returns the smallest box
containing every input box; `Aabb.zero` on the empty list (unreachable in
the Rust code, which only calls it on nonempty collections). -/
def encloseAabbs (bs : List Aabb) : Aabb :=
  match bs with
  | [] => Aabb.zero
  | b :: rest => rest.foldl enclose2 b

/-- Membership of a point in a box, coordinatewise. -/
def containsPoint (b : Aabb) (p : SVector3) : Prop :=
  b.origin.x ≤ p.x ∧ p.x ≤ b.far.x ∧
  b.origin.y ≤ p.y ∧ p.y ≤ b.far.y ∧
  b.origin.z ≤ p.z ∧ p.z ≤ b.far.z

instance (b : Aabb) (p : SVector3) : Decidable (b.containsPoint p) := by
  unfold containsPoint; infer_instance

/-- Box `a` is contained in box `b`, expressed on corners. -/
def sub (a b : Aabb) : Prop :=
  b.origin.x ≤ a.origin.x ∧ a.far.x ≤ b.far.x ∧
  b.origin.y ≤ a.origin.y ∧ a.far.y ≤ b.far.y ∧
  b.origin.z ≤ a.origin.z ∧ a.far.z ≤ b.far.z

instance (a b : Aabb) : Decidable (a.sub b) := by
  unfold sub; infer_instance

end Aabb

/-- Extended rationals modelling f32 values including the two infinities
produced by the slab test on axis-parallel rays. -/
abbrev EQ : Type := WithBot (WithTop ℚ)

/-- The finite extended rational corresponding to a rational. -/
def qe (q : ℚ) : EQ := ((q : WithTop ℚ) : WithBot (WithTop ℚ))

/-- Negative infinity of the extended rationals. -/
def eqBot : EQ := (⊥ : WithBot (WithTop ℚ))

/-- Positive infinity of the extended rationals. -/
def eqTop : EQ := ((⊤ : WithTop ℚ) : WithBot (WithTop ℚ))

/-- One axis of the slab test.  Modelled from the spec: on an axis with
nonzero direction the slab contributes the two crossing parameters in
sorted order; on an axis-parallel ray it contributes (-inf, +inf) when the
origin lies within the slab (the f32 code produces infinities through
`recip`) and a miss otherwise. -/
def axisSlab (lo hi o d : ℚ) : EQ × EQ :=
  if d = 0 then
    (if lo ≤ o ∧ o ≤ hi then (eqBot, eqTop) else (eqTop, eqBot))
  else
    (qe (min ((lo - o) / d) ((hi - o) / d)), qe (max ((lo - o) / d) ((hi - o) / d)))

/-- Result of the slab test for a single lane: near-slab entry distance and
hit flag.  Modelled from the spec: `t_near = max_axis(min(t0, t1))`,
`t_far = min_axis(max(t0, t1))`, hit iff `t_near ≤ t_far` and `t_far ≥ 0`. -/
def slabLane (b : Aabb) (o d : SVector3) : EQ × Bool :=
  let sx := axisSlab b.origin.x b.far.x o.x d.x
  let sy := axisSlab b.origin.y b.far.y o.y d.y
  let sz := axisSlab b.origin.z b.far.z o.z d.z
  let tnear := max sx.1 (max sy.1 sz.1)
  let tfar := min sx.2 (min sy.2 sz.2)
  (tnear, decide (tnear ≤ tfar ∧ qe 0 ≤ tfar))

/-- An 8-lane packet of f32 values (simd.rs `Mf32`), one rational per lane. -/
def Mf32 : Type := Fin 8 → ℚ

/-- An 8-lane packet of 32-bit words, used for lanes whose value is a bit
pattern rather than a number (masks and packed materials).  The Rust code
stores these in `Mf32`/`Mi32` registers; the model keeps the u32 view. -/
def MBits : Type := Fin 8 → ℕ

namespace Mf32

def broadcast (q : ℚ) : Mf32 := fun _ => q

def zero : Mf32 := broadcast 0

def one : Mf32 := broadcast 1

/-- Modelled from the spec: `Mf32::epsilon()` (not under src/); ray.rs uses
the value 1.0e-5 for the self-intersection offset. -/
def epsilon : Mf32 := broadcast (1 / 100000)

def add (a b : Mf32) : Mf32 := fun k => a k + b k

def subM (a b : Mf32) : Mf32 := fun k => a k - b k

def mul (a b : Mf32) : Mf32 := fun k => a k * b k

def mulAdd (a factor term : Mf32) : Mf32 := fun k => a k * factor k + term k

/-- Modelled from the spec: the `recip`/`recip_fast` approximations are
modelled as exact reciprocals (the approximation error is a numerical
property outside the exact-arithmetic model). -/
def recip (a : Mf32) : Mf32 := fun k => (a k)⁻¹

/-- Sign bit of a bit-pattern lane. -/
def signBit (w : ℕ) : Bool := w.testBit 31

/-- Modelled from the spec: lanewise blend; picks `b` where the mask sign
bit is set, else `a` (simd.rs `pick`, via `blendv`). -/
def pick (a b : Mf32) (mask : MBits) : Mf32 :=
  fun k => if signBit (mask k) then b k else a k

/-- Modelled from the spec: `geq` comparison mask, true on lanes where
`a ≥ b` (unordered compares do not arise in the exact model). -/
def geq (a b : Mf32) : Fin 8 → Bool := fun k => decide (b k ≤ a k)

/-- Modelled from the spec: `all_sign_bits_negative` reduction on a packed
mask: true when every lane's sign bit is set. -/
def allSignBitsNegative (m : MBits) : Bool := decide (∀ k : Fin 8, signBit (m k))

end Mf32

/-- Lanewise bitwise or of two bit-pattern packets (simd.rs `BitOr`). -/
def MBits.lor (a b : MBits) : MBits := fun k => Nat.lor (a k) (b k)

/-- An 8-lane packet of 3D vectors (vector3.rs `MVector3`, modelled from
the spec: three packet scalars, one per coordinate). -/
structure MVector3 where
  x : Mf32
  y : Mf32
  z : Mf32

namespace MVector3

def lane (v : MVector3) (k : Fin 8) : SVector3 := ⟨v.x k, v.y k, v.z k⟩

def broadcast (s : SVector3) : MVector3 :=
  ⟨Mf32.broadcast s.x, Mf32.broadcast s.y, Mf32.broadcast s.z⟩

def zero : MVector3 := broadcast ⟨0, 0, 0⟩

def mulAdd (a : MVector3) (f : Mf32) (term : MVector3) : MVector3 :=
  ⟨a.x.mulAdd f term.x, a.y.mulAdd f term.y, a.z.mulAdd f term.z⟩

def mulCoords (a b : MVector3) : MVector3 :=
  ⟨a.x.mul b.x, a.y.mul b.y, a.z.mul b.z⟩

def smul (a : MVector3) (f : Mf32) : MVector3 :=
  ⟨a.x.mul f, a.y.mul f, a.z.mul f⟩

def dot (a b : MVector3) : Mf32 :=
  fun k => a.x k * b.x k + a.y k * b.y k + a.z k * b.z k

def pick (a b : MVector3) (mask : MBits) : MVector3 :=
  ⟨a.x.pick b.x mask, a.y.pick b.y mask, a.z.pick b.z mask⟩

def mulAddQ (a : MVector3) (f : ℚ) (term : MVector3) : MVector3 :=
  a.mulAdd (Mf32.broadcast f) term

end MVector3

/-- A packet ray (ray.rs; src/ray.rs holds an earlier `OctaRay` revision of
the same structure, the `active` lane packet is modelled from the spec:
sign bit set means the lane is terminated). -/
structure MRay where
  origin : MVector3
  direction : MVector3
  active : MBits

/-- A packet intersection record as used by bvh.rs: position, normal and
distance (src/ray.rs holds the earlier `OctaIntersection` revision with the
same three fields). -/
structure MIntersection where
  position : MVector3
  normal : MVector3
  distance : Mf32

/-- Per-lane view of an intersection record. -/
structure LaneRec where
  pos : SVector3
  nrm : SVector3
  dist : ℚ
deriving DecidableEq, Repr

def MIntersection.lane (i : MIntersection) (k : Fin 8) : LaneRec :=
  ⟨i.position.lane k, i.normal.lane k, i.distance k⟩

/-- A triangle (triangle.rs is not under src/; modelled from the spec:
three vertices; the material index does not participate in the bvh.rs
intersection record and is omitted). -/
structure Triangle where
  v0 : SVector3
  v1 : SVector3
  v2 : SVector3
deriving DecidableEq, Repr

namespace Triangle

/-- Modelled from the spec: barycenter (v0 + v1 + v2) / 3. -/
def barycenter (t : Triangle) : SVector3 :=
  SVector3.smul (1 / 3) ((t.v0.add t.v1).add t.v2)

/-- Modelled from the spec: the face normal computed from vertex order.
Normalization is a positive scalar factor that exact arithmetic cannot
express (square root); the model keeps the unnormalized cross product. -/
def normalOf (t : Triangle) : SVector3 :=
  (t.v1.sub t.v0).cross (t.v2.sub t.v0)

/-- Modelled from the spec: the Moller-Trumbore candidate for one lane.
Returns the candidate distance and intersection record when the ray (o, d)
meets the triangle plane inside its edges (0 ≤ u, 0 ≤ v, u + v ≤ 1) and in
front of the origin (0 < t); `none` otherwise, in particular for
degenerate (zero-determinant) configurations. -/
def candidate (t : Triangle) (o d : SVector3) : Option (ℚ × LaneRec) :=
  let e1 := t.v1.sub t.v0
  let e2 := t.v2.sub t.v0
  let pvec := d.cross e2
  let det := e1.dot pvec
  if det = 0 then none
  else
    let tvec := o.sub t.v0
    let u := (tvec.dot pvec) / det
    let qvec := tvec.cross e1
    let v := (d.dot qvec) / det
    let dist := (e2.dot qvec) / det
    if 0 ≤ u ∧ 0 ≤ v ∧ u + v ≤ 1 ∧ 0 < dist then
      some (dist, ⟨o.add (SVector3.smul dist d), t.normalOf, dist⟩)
    else none

/-- One lane of `Triangle::intersect`: replace the running record when the
candidate is valid and strictly closer. -/
def intersectLane (t : Triangle) (o d : SVector3) (rec : LaneRec) : LaneRec :=
  match t.candidate o d with
  | some (dist, cand) => if dist < rec.dist then cand else rec
  | none => rec

/-- Modelled from the spec: `Triangle::intersect` on a packet ray; each
lane is updated independently through masked `pick`s. -/
def intersect (t : Triangle) (ray : MRay) (isect : MIntersection) : MIntersection :=
  { position :=
      ⟨fun k => (t.intersectLane (ray.origin.lane k) (ray.direction.lane k) (isect.lane k)).pos.x,
       fun k => (t.intersectLane (ray.origin.lane k) (ray.direction.lane k) (isect.lane k)).pos.y,
       fun k => (t.intersectLane (ray.origin.lane k) (ray.direction.lane k) (isect.lane k)).pos.z⟩,
    normal :=
      ⟨fun k => (t.intersectLane (ray.origin.lane k) (ray.direction.lane k) (isect.lane k)).nrm.x,
       fun k => (t.intersectLane (ray.origin.lane k) (ray.direction.lane k) (isect.lane k)).nrm.y,
       fun k => (t.intersectLane (ray.origin.lane k) (ray.direction.lane k) (isect.lane k)).nrm.z⟩,
    distance :=
      fun k => (t.intersectLane (ray.origin.lane k) (ray.direction.lane k) (isect.lane k)).dist }

end Triangle

/-- Result of intersecting a packet ray with a box (aabb.rs is not under
src/): the near-slab entry distance and hit mask per lane.  Modelled from
the spec (section 4.2). -/
structure AabbIsect where
  tnear : Fin 8 → EQ
  mask : Fin 8 → Bool

namespace Aabb

/-- Modelled from the spec: `Aabb::intersect` on a packet ray, lanewise
slab test. -/
def intersect (b : Aabb) (ray : MRay) : AabbIsect :=
  { tnear := fun k => (slabLane b (ray.origin.lane k) (ray.direction.lane k)).1,
    mask := fun k => (slabLane b (ray.origin.lane k) (ray.direction.lane k)).2 }

end Aabb

namespace AabbIsect

/-- Modelled from the spec: true when at least one lane hit the box. -/
def anyHit (ai : AabbIsect) : Bool := decide (∃ k : Fin 8, ai.mask k = true)

/-- Modelled from the spec: `is_further_away_than(d)` is true when every
lane's near distance exceeds that lane's current best distance. -/
def isFurtherAwayThan (ai : AabbIsect) (d : Mf32) : Bool :=
  decide (∀ k : Fin 8, qe (d k) < ai.tnear k)

end AabbIsect

/-- One node of the crystallized BVH (bvh.rs `BvhNode`): for leaf nodes
`index` is the first triangle and `len` the triangle count; for internal
nodes `index` is the first child (second child at `index + 1`) and
`len` is zero. -/
structure BvhNode where
  aabb : Aabb
  index : ℕ
  len : ℕ
deriving DecidableEq, Repr

namespace BvhNode

/-- bvh.rs `BvhNode::new`: a zeroed node, to be filled later. -/
def new : BvhNode := ⟨Aabb.zero, 0, 0⟩

end BvhNode

/-- The crystallized bounding volume hierarchy (bvh.rs `Bvh`). -/
structure Bvh where
  nodes : List BvhNode
  triangles : List Triangle
deriving Repr

/-- The triangle loop of a leaf in bvh.rs `intersect_nearest`: fold
`Triangle::intersect` over `triangles[index .. index + len)`.  Out-of-range
slots (unreachable by construction, `get_unchecked` in the Rust code) read
a degenerate dummy triangle which never intersects. -/
def leafFold (tris : List Triangle) (ray : MRay) (index len : ℕ) (isect : MIntersection) : MIntersection :=
  (List.range' index len).foldl
    (fun i j => (tris.getD j ⟨⟨0,0,0⟩, ⟨0,0,0⟩, ⟨0,0,0⟩⟩).intersect ray i) isect

/-- The traversal loop of bvh.rs `intersect_nearest`.  The stack holds
pairs of an AABB intersection and the node it belongs to, head = top.  The
`fuel` argument bounds the number of loop iterations; the Rust loop needs
no such bound because each node is pushed at most once, and the top-level
wrapper passes fuel exceeding that bound. -/
def bvhGo (bvh : Bvh) (ray : MRay) : ℕ → List (AabbIsect × BvhNode) → MIntersection → MIntersection
  | 0, _, isect => isect
  | _ + 1, [], isect => isect
  | fuel + 1, (aabbIsect, node) :: rest, isect =>
    if aabbIsect.isFurtherAwayThan isect.distance then
      bvhGo bvh ray fuel rest isect
    else if node.len = 0 then
      let child0 := bvh.nodes.getD node.index BvhNode.new
      let child1 := bvh.nodes.getD (node.index + 1) BvhNode.new
      let childIsect0 := child0.aabb.intersect ray
      let childIsect1 := child1.aabb.intersect ray
      let stack0 := if childIsect0.anyHit then (childIsect0, child0) :: rest else rest
      let stack1 := if childIsect1.anyHit then (childIsect1, child1) :: stack0 else stack0
      bvhGo bvh ray fuel stack1 isect
    else
      bvhGo bvh ray fuel rest (leafFold bvh.triangles ray node.index node.len isect)

namespace Bvh

/-- bvh.rs `Bvh::intersect_nearest`: test the two roots, then run the
stack loop.  The fuel `2 * triangles.length + 2` strictly exceeds the
number of loop iterations of any well-formed BVH (each subtree of n
triangles holds at most 2n - 1 nodes and every node is popped at most
once). -/
def intersectNearest (bvh : Bvh) (ray : MRay) (isect : MIntersection) : MIntersection :=
  let root0 := bvh.nodes.getD 0 BvhNode.new
  let root1 := bvh.nodes.getD 1 BvhNode.new
  let rootIsect0 := root0.aabb.intersect ray
  let rootIsect1 := root1.aabb.intersect ray
  let stack0 : List (AabbIsect × BvhNode) :=
    if rootIsect0.anyHit then [(rootIsect0, root0)] else []
  let stack1 :=
    if rootIsect1.anyHit then (rootIsect1, root1) :: stack0 else stack0
  bvhGo bvh ray (2 * bvh.triangles.length + 2) stack1 isect

/-- bvh.rs `Bvh::intersect_any`: run `intersect_nearest` from an initial
record at distance `max_dist`; return the mask of lanes whose final
distance is at least `max_dist - epsilon`. -/
def intersectAny (bvh : Bvh) (ray : MRay) (maxDist : Mf32) : Fin 8 → Bool :=
  let isect : MIntersection :=
    { position := ray.direction.mulAdd maxDist ray.origin,
      normal := ray.direction,
      distance := maxDist }
  let result := bvh.intersectNearest ray isect
  result.distance.geq (maxDist.subM Mf32.epsilon)

end Bvh

/-- The brute-force reference: fold `Triangle::intersect` over an entire
triangle list, starting from a given intersection record. -/
def bruteForce (tris : List Triangle) (ray : MRay) (isect : MIntersection) : MIntersection :=
  tris.foldl (fun i t => t.intersect ray i) isect

/-- bvh.rs `TriangleRef`: reference to a triangle used during BVH
construction. -/
structure TriangleRef where
  aabb : Aabb
  barycenter : SVector3
  index : ℕ
deriving DecidableEq, Repr

namespace TriangleRef

/-- bvh.rs `TriangleRef::from_triangle`. -/
def fromTriangle (index : ℕ) (t : Triangle) : TriangleRef :=
  { aabb := Aabb.enclosePoints [t.v0, t.v1, t.v2],
    barycenter := t.barycenter,
    index := index }

end TriangleRef

/-- bvh.rs `Bin`: one bin of the 64-bin sweep (the borrowed references are
modelled by value). -/
structure Bin where
  triangles : List TriangleRef
  aabb : Option Aabb
deriving Repr

namespace Bin

/-- bvh.rs `Bin::new`. -/
def new : Bin := ⟨[], none⟩

/-- bvh.rs `Bin::push`. -/
def push (b : Bin) (tri : TriangleRef) : Bin :=
  { triangles := b.triangles ++ [tri],
    aabb := match b.aabb with
      | some a => some (Aabb.enclose2 a tri.aabb)
      | none => some tri.aabb }

end Bin

/-- The split-search heuristic interface of bvh.rs (`trait Heuristic`). -/
structure Heuristic where
  aabbCost : Aabb → Aabb → ℕ → ℚ
  trisCost : ℕ → ℚ

/-- bvh.rs `InterimNode`: a node used during BVH construction.  Recursive
through its child list, hence an inductive type with projections. -/
inductive InterimNode where
  | mk (outerAabb : Aabb) (innerAabb : Aabb)
       (children : List InterimNode) (triangles : List TriangleRef) : InterimNode

namespace InterimNode

def outerAabb : InterimNode → Aabb
  | mk o _ _ _ => o

def innerAabb : InterimNode → Aabb
  | mk _ i _ _ => i

def children : InterimNode → List InterimNode
  | mk _ _ c _ => c

def triangles : InterimNode → List TriangleRef
  | mk _ _ _ t => t

/-- bvh.rs `InterimNode::from_triangle_refs`. -/
def fromTriangleRefs (trirefs : List TriangleRef) : InterimNode :=
  mk (Aabb.encloseAabbs (trirefs.map TriangleRef.aabb))
     (Aabb.enclosePoints (trirefs.map TriangleRef.barycenter))
     [] trirefs

/-- bvh.rs `InterimNode::inner_aabb_origin_and_size`. -/
def innerOriginAndSize (t : InterimNode) (axis : Axis) : ℚ × ℚ :=
  let mn := t.innerAabb.origin.getCoord axis
  let mx := t.innerAabb.far.getCoord axis
  (mn, mx - mn)

/-- The bin index computed by bvh.rs `bin_triangles` for one triangle:
`((bins.len() as f32) * (coord - min) / size).floor() as usize`, clamped
into range.  In exact arithmetic 0/0 is 0, matching the f32 NaN-to-0
`as usize` conversion, and a negative value converts to 0. -/
def binIndex (nbins : ℕ) (mn size coord : ℚ) : ℕ :=
  let raw := (⌊(nbins : ℚ) * (coord - mn) / size⌋).toNat
  if raw < nbins then raw else nbins - 1

/-- bvh.rs `InterimNode::bin_triangles` (the non-uniformity warning print
is dropped; it does not affect the data). -/
def binTriangles (t : InterimNode) (bins : List Bin) (axis : Axis) : List Bin :=
  let p := t.innerOriginAndSize axis
  t.triangles.foldl
    (fun bs tri =>
      let idx := binIndex bs.length p.1 p.2 (tri.barycenter.getCoord axis)
      bs.set idx ((bs.getD idx Bin.new).push tri))
    bins

/-- bvh.rs `InterimNode::enclose_bins`. -/
def encloseBins (bins : List Bin) : Aabb :=
  Aabb.encloseAabbs
    (((bins.filter (fun b => !b.triangles.isEmpty)).map Bin.aabb).map (fun a => a.getD Aabb.zero))

/-- bvh.rs `InterimNode::are_bins_valid`: more than one non-empty bin. -/
def areBinsValid (bins : List Bin) : Bool :=
  1 < (bins.filter (fun b => !b.triangles.isEmpty)).length

/-- Index of the first non-empty bin (bvh.rs uses `position(..).unwrap()`;
callers guarantee existence, the model returns the list length if absent). -/
def firstNonEmptyBin (bins : List Bin) : ℕ :=
  bins.findIdx (fun b => !b.triangles.isEmpty)

/-- Index of the last non-empty bin (bvh.rs `rposition(..).unwrap()`). -/
def lastNonEmptyBin (bins : List Bin) : ℕ :=
  bins.length - 1 - bins.reverse.findIdx (fun b => !b.triangles.isEmpty)

/-- bvh.rs `InterimNode::find_cheapest_split`, embedded exactly as the
source: for each candidate boundary both `left_count` and `right_count`
are computed from `left_bins` (bvh.rs line 177 sums over `left_bins`), and
the cheapest candidate (first on ties) is returned. -/
def findCheapestSplit (t : InterimNode) (h : Heuristic) (bins : List Bin) : ℕ × ℚ :=
  let first := firstNonEmptyBin bins + 1
  let last := lastNonEmptyBin bins
  let step := fun (st : ℕ × ℚ × Bool) (i : ℕ) =>
    let leftBins := bins.take i
    let leftAabb := encloseBins leftBins
    let leftCount := (leftBins.map (fun b => b.triangles.length)).sum
    let rightBins := bins.drop i
    let rightAabb := encloseBins rightBins
    let rightCount := (leftBins.map (fun b => b.triangles.length)).sum
    let leftCost := h.aabbCost t.outerAabb leftAabb leftCount
    let rightCost := h.aabbCost t.outerAabb rightAabb rightCount
    let cost := leftCost + rightCost
    if cost < st.2.1 ∨ st.2.2 then (i, cost, false) else st
  let res := (List.range' first (last - first)).foldl step (0, 0, true)
  (res.1, res.2.1)

/-- The split search as the spec describes it: identical to
`findCheapestSplit` except that the right child cost is evaluated with the
triangle count of the right bins. -/
def findCheapestSplitSpec (t : InterimNode) (h : Heuristic) (bins : List Bin) : ℕ × ℚ :=
  let first := firstNonEmptyBin bins + 1
  let last := lastNonEmptyBin bins
  let step := fun (st : ℕ × ℚ × Bool) (i : ℕ) =>
    let leftBins := bins.take i
    let leftAabb := encloseBins leftBins
    let leftCount := (leftBins.map (fun b => b.triangles.length)).sum
    let rightBins := bins.drop i
    let rightAabb := encloseBins rightBins
    let rightCount := (rightBins.map (fun b => b.triangles.length)).sum
    let leftCost := h.aabbCost t.outerAabb leftAabb leftCount
    let rightCost := h.aabbCost t.outerAabb rightAabb rightCount
    let cost := leftCost + rightCost
    if cost < st.2.1 ∨ st.2.2 then (i, cost, false) else st
  let res := (List.range' first (last - first)).foldl step (0, 0, true)
  (res.1, res.2.1)

/-- The axis sweep of bvh.rs `InterimNode::split`: bins each axis, keeps
the cheapest valid split (strict improvement, axis order X, Y, Z).
Returns `none` when no axis produced a valid binning (`is_first` stays
true, on which the source asserts). -/
def splitChoice (t : InterimNode) (h : Heuristic) : Option (Axis × ℚ × ℚ) :=
  let step := fun (st : Option (Axis × ℚ × ℚ)) (axis : Axis) =>
    let bins := binTriangles t ((List.range 64).map (fun _ => Bin.new)) axis
    if areBinsValid bins then
      let ic := findCheapestSplit t h bins
      let keep := match st with
        | none => true
        | some best => decide (ic.2 < best.2.2)
      if keep then
        let p := t.innerOriginAndSize axis
        some (axis, p.1 + p.2 / 64 * (ic.1 : ℚ), ic.2)
      else st
    else st
  [Axis.X, Axis.Y, Axis.Z].foldl step none

/-- bvh.rs `InterimNode::split`: split the node if beneficial.  The
`assert!(!is_first)` of the source is the error case; the debug prints for
an empty partition side are dropped (the partition itself is kept). -/
def split (t : InterimNode) (h : Heuristic) : Except String InterimNode :=
  if t.triangles.length ≤ 1 then Except.ok t
  else
    match splitChoice t h with
    | none => Except.error "assertion failed: !is_first"
    | some (axis, splitAt, bestCost) =>
      let noSplitCost := h.trisCost t.triangles.length
      if noSplitCost < bestCost then Except.ok t
      else
        let pred := fun (tri : TriangleRef) => decide (tri.barycenter.getCoord axis ≤ splitAt)
        let leftTris := t.triangles.filter pred
        let rightTris := t.triangles.filter (fun tri => !pred tri)
        let leftNode := fromTriangleRefs leftTris
        let rightNode := fromTriangleRefs rightTris
        Except.ok (mk t.outerAabb t.innerAabb [leftNode, rightNode] [])

/-- bvh.rs `InterimNode::split_recursive`, with fuel bounding the
recursion depth (the source recursion terminates because every proper
split strictly shrinks both sides; the top-level caller passes fuel
exceeding the possible depth). -/
def splitRecursive (h : Heuristic) : ℕ → InterimNode → Except String InterimNode
  | 0, _ => Except.error "fuel exhausted in split_recursive"
  | fuel + 1, t => do
    let t1 ← split t h
    let cs ← t1.children.mapM (splitRecursive h fuel)
    Except.ok (mk t1.outerAabb t1.innerAabb cs t1.triangles)

/-- bvh.rs `InterimNode::crystallize`: pack the interim tree into the node
and triangle buffers.  The Rust assertions become errors; `into` is the
slot being filled. -/
def crystallize (src : List Triangle) :
    InterimNode → List BvhNode → List Triangle → ℕ →
    Except String (List BvhNode × List Triangle)
  | InterimNode.mk outer _inner cs tris, nodes, sorted, into => do
    if nodes.length % 2 ≠ 0 then
      Except.error "assertion failed: nodes.len() % 2 == 0" else
    let cur0 := nodes.getD into BvhNode.new
    let nodes1 := nodes.set into ⟨outer, cur0.index, cur0.len⟩
    if tris.isEmpty then
      match cs with
      | [l, r] =>
        let childIndex := nodes1.length
        let nodes2 := nodes1 ++ [BvhNode.new, BvhNode.new]
        let s1 ← crystallize src l nodes2 sorted childIndex
        let s2 ← crystallize src r s1.1 s1.2 (childIndex + 1)
        let cur := s2.1.getD into BvhNode.new
        Except.ok (s2.1.set into ⟨cur.aabb, childIndex, 0⟩, s2.2)
      | _ => Except.error "assertion failed: 2 == self.children.len()"
    else
      if cs.length ≠ 0 then
        Except.error "assertion failed: 0 == self.children.len()" else
      let cur := nodes1.getD into BvhNode.new
      let nodes2 := nodes1.set into ⟨cur.aabb, sorted.length, tris.length⟩
      let sorted2 := sorted ++ tris.map (fun ref => src.getD ref.index ⟨⟨0,0,0⟩, ⟨0,0,0⟩, ⟨0,0,0⟩⟩)
      Except.ok (nodes2, sorted2)

end InterimNode

/-- Modelled from the spec: the f32 `log2`, exact on the powers of two at
which this development evaluates it (for other positive integers it is
the floor of the base-2 logarithm; f32 log2 of a non-power of two is
irrational and outside the exact-arithmetic model). -/
def log2Q (q : ℚ) : ℚ := (Nat.log2 q.num.toNat : ℚ)

/-- Modelled from the spec: the f32 `powf`, exact for integer exponents
(the only exponents arising here, since `log2Q` returns integers). -/
def powQ (b e : ℚ) : ℚ := b ^ ⌊e⌋

/-- bvh.rs `TreeSurfaceAreaHeuristic` as a `Heuristic` instance. -/
def treeSah (aabbIntersectionCost triangleIntersectionCost intersectionProbability : ℚ) : Heuristic :=
  { aabbCost := fun parentAabb aabb numTris =>
      let acAp := aabb.area / parentAabb.area
      let p := intersectionProbability
      let n : ℚ := (numTris : ℚ)
      let m := log2Q n
      let aabbTerm := 1 + acAp * (2 * p - n * powQ p m) / (p - 2 * p * p)
      let triTerm := n * powQ p (m - 1) * acAp
      aabbTerm * aabbIntersectionCost + triTerm * triangleIntersectionCost,
    trisCost := fun numTris => (numTris : ℚ) * triangleIntersectionCost }

namespace Bvh

/-- bvh.rs `Bvh::build`, also returning the interim root for the
invariant statements.  Prints and statistics are dropped; the Rust
assertion that the root has split becomes an error. -/
def buildI (sourceTriangles : List Triangle) : Except String (InterimNode × Bvh) := do
  let trirefs := (List.range sourceTriangles.length).zip sourceTriangles |>.map
    (fun p => TriangleRef.fromTriangle p.1 p.2)
  let root := InterimNode.fromTriangleRefs trirefs
  let heuristic := treeSah 40 120 (1 / 10)
  let root1 ← InterimNode.splitRecursive heuristic (sourceTriangles.length + 1) root
  match root1.children with
  | [l, r] => do
    let s1 ← InterimNode.crystallize sourceTriangles l [BvhNode.new, BvhNode.new] [] 0
    let s2 ← InterimNode.crystallize sourceTriangles r s1.1 s1.2 1
    Except.ok (root1, ⟨s2.1, s2.2⟩)
  | _ => Except.error "assertion failed: 2 == root.children.len()"

/-- bvh.rs `Bvh::build`. -/
def build (sourceTriangles : List Triangle) : Except String Bvh :=
  (buildI sourceTriangles).map (fun p => p.2)

end Bvh

/-- An 8-lane packet of 32-bit integers (simd.rs `Mi32`, whose definition
is not under src/): modelled as unsigned 32-bit words, one per lane. -/
def Mi32 : Type := Fin 8 → ℕ

namespace Mi32

def zero : Mi32 := fun _ => 0

def broadcast (n : ℕ) : Mi32 := fun _ => n

def land (a b : Mi32) : Mi32 := fun k => Nat.land (a k) (b k)

def lorM (a b : Mi32) : Mi32 := fun k => Nat.lor (a k) (b k)

/-- Lanewise left shift (the `map(|x| x << s)` idiom of renderer.rs),
wrapping at 32 bits. -/
def shl (a : Mi32) (s : ℕ) : Mi32 := fun k => (a k * 2 ^ s) % 2 ^ 32

end Mi32

/-- Truncation toward zero of a rational, the f32-to-i32 conversion mode. -/
def truncQ (q : ℚ) : ℤ := if 0 ≤ q then ⌊q⌋ else -⌊-q⌋

/-- The unsigned 32-bit word holding the two-complement pattern of an
integer. -/
def toU32 (z : ℤ) : ℕ := (z % (2 ^ 32 : ℤ)).toNat

/-- Modelled from the spec: `Mf32::into_mi32` (not under src/), the
truncating f32-to-i32 conversion, with two-complement wrap on the
out-of-range values the hardware saturates. -/
def Mf32.intoMi32 (a : Mf32) : Mi32 := fun k => toU32 (truncQ (a k))

/-- Modelled from the spec: `clamp_one` clamps each lane into [0, 1]. -/
def Mf32.clampOne (a : Mf32) : Mf32 := fun k => min 1 (max 0 (a k))

def MVector3.clampOne (v : MVector3) : MVector3 := ⟨v.x.clampOne, v.y.clampOne, v.z.clampOne⟩

def MVector3.addV (a b : MVector3) : MVector3 := ⟨a.x.add b.x, a.y.add b.y, a.z.add b.z⟩

/-- Modelled from the spec: `MMaterial::get_texture` extracts the texture
index (bits 24-26 of the material word) into an integer lane packet. -/
def MBits.getTexture (m : MBits) : Mi32 := fun k => (m k / 2 ^ 24) % 8

/-- The intersection record of the render path (the current ray.rs
revision, not under src/): position, normal, distance, packed material and
texture coordinates.  Modelled from the spec (section 3). -/
structure PathIsect where
  position : MVector3
  normal : MVector3
  distance : Mf32
  material : MBits
  texCoords : Mf32 × Mf32

/-- Modelled from the spec: the per-tile PRNG state (random.rs is not
under src/). -/
structure Rng where
  state : ℕ
deriving DecidableEq, Repr

/-- Modelled from the spec: `Rng::with_seed(x, y, frame)` derives the
state from the tile coordinates and frame number only. -/
def Rng.withSeed (x y frame : ℕ) : Rng :=
  ⟨x * 73856093 + y * 19349663 + frame * 83492791⟩

def Rng.next (g : Rng) : Rng := ⟨g.state + 1⟩

/-- Modelled from the spec: the numeric kernels of the missing modules
(random.rs sample streams, the vector3.rs hemisphere rotation, the
renderer's Fresnel factor) are irrational-valued in the source (square
roots, trigonometry) and are abstracted as parameters of the model; every
theorem below holds for all instantiations. -/
structure RandModel where
  unit : ℕ → Mf32
  hemi : ℕ → MVector3
  rotate : MVector3 → MVector3 → MVector3
  fresnelFn : MVector3 → MVector3 → Mf32

/-- Modelled from the spec: `rng.sample_unit()`, one packet draw advancing
the state. -/
def Rng.sampleUnit (R : RandModel) (g : Rng) : Mf32 × Rng := (R.unit g.state, g.next)

/-- Modelled from the spec: `rng.sample_hemisphere_vector()`. -/
def Rng.sampleHemisphere (R : RandModel) (g : Rng) : MVector3 × Rng := (R.hemi g.state, g.next)

/-- The IEEE-754 single nearest to pi, as an exact rational: the value of
`std::f32::consts::PI`. -/
def piF32 : ℚ := 13176795 / 4194304

/-- The scene interface consumed by renderer.rs (scene.rs is not under
src/).  Modelled from the spec: a camera ray generator, the nearest- hit
query of the render path and the debug intersection counters. -/
structure Scene where
  camGetRay : Mf32 → Mf32 → Mf32 → MRay
  intersectNearestP : MRay → PathIsect
  intersectDebug : MRay → ℕ × ℕ

/-- material.rs `continue_path_brdf`: cosine-weighted diffuse bounce.
Returns the new ray, the probability density and the color modulation,
threading the PRNG. -/
def continuePathBrdf (R : RandModel) (isect : PathIsect) (g : Rng) :
    (MRay × Mf32 × MVector3) × Rng :=
  let s := Rng.sampleHemisphere R g
  let dirZ := s.1
  let direction := R.rotate dirZ isect.normal
  let origin := direction.mulAdd Mf32.epsilon isect.position
  let newRay : MRay := ⟨origin, direction, fun _ => 0⟩
  let pd := dirZ.z.mul (Mf32.broadcast (1 / piF32))
  let modulation := (Mf32.broadcast (1 / 2 / piF32)).mul dirZ.z
  ((newRay, pd, ⟨modulation, modulation, modulation⟩), s.2)

/-- material.rs `continue_path` (lines 207-237): compute the continuation
ray and the color modulation.  Lanes whose incoming ray is inactive or
whose intersected material is emissive (sign bit of the packed material)
keep their previous origin and direction, stay inactive, and receive the
white modulation. -/
def continuePath (R : RandModel) (_scene : Scene) (ray : MRay) (isect : PathIsect) (g : Rng) :
    (MRay × MVector3) × Rng :=
  let active := ray.active.lor isect.material
  let b := continuePathBrdf R isect g
  let brdfRay := b.1.1
  let brdfPd := b.1.2.1
  let brdfMod := b.1.2.2
  let colorMod := brdfMod.smul brdfPd.recip
  let newRay : MRay :=
    { origin := brdfRay.origin.pick ray.origin active,
      direction := brdfRay.direction.pick ray.direction active,
      active := active }
  let white : MVector3 := ⟨Mf32.one, Mf32.one, Mf32.one⟩
  let colorMod2 := colorMod.pick white active
  ((newRay, colorMod2), b.2)

/-- material.rs `sky_intensity`. -/
def skyIntensity (rayDirection : MVector3) : MVector3 :=
  let up : MVector3 := ⟨Mf32.zero, Mf32.zero, Mf32.one⟩
  let half := Mf32.broadcast (1 / 2)
  let d := (rayDirection.dot up).mulAdd half half
  let r := d
  let g := d.mul d
  let b := d.mul (d.mul d)
  (MVector3.mk r g b).mulAdd half ⟨half, half, half⟩

/-- Modelled from the spec: the renderer's `continue_path` entry (the
six-argument revision called by renderer.rs, whose source is not under
src/): the ray and modulation of material.rs `continue_path`, plus a
Fresnel factor; on the first bounce the Fresnel factor does not enter the
color modulation (it is applied later on the G-buffer consumer side). -/
def continuePathFull (R : RandModel) (_material : MBits) (scene : Scene) (ray : MRay)
    (isect : PathIsect) (g : Rng) (isFirst : Bool) :
    (MRay × MVector3 × Mf32) × Rng :=
  let c := continuePath R scene ray isect g
  let fr := R.fresnelFn ray.direction isect.normal
  let colorMod := if isFirst then c.1.2 else (c.1.2).smul fr
  ((c.1.1, colorMod, fr), c.2)

/-- renderer.rs `Renderer`. -/
structure Renderer where
  scene : Scene
  width : ℕ
  height : ℕ
  enableDebugView : Bool
  time : ℚ
  timeDelta : ℚ

/-- renderer.rs `MPixelData`. -/
structure MPixelData where
  color : MVector3
  texIndex : Mi32
  texCoords : Mf32 × Mf32
  fresnel : Mf32

/-- renderer.rs `RenderBuffer::new`: asserts `width & 15 == 0` and
`height & 15 == 0`, then allocates width * height / 8 packets.  The model
returns the element count. -/
def renderBufferNew (width height : ℕ) : Except String ℕ :=
  if width % 16 ≠ 0 then Except.error "assertion failed: width & 15 == 0"
  else if height % 16 ≠ 0 then Except.error "assertion failed: height & 15 == 0"
  else Except.ok (width * height / 8)

/-- A `Fin 8` index from a natural number (for the lane shuffles of
renderer.rs). -/
def fin8 (n : ℕ) : Fin 8 := ⟨n % 8, Nat.mod_lt n (by decide)⟩

/-- Sequential generation of a list with PRNG threading (the
`generate_slice8(|i| ... rng ...)` idiom of renderer.rs, whose closures
draw from the generator in index order). -/
def threadGen {α : Type} (f : ℕ → Rng → α × Rng) : List ℕ → Rng → List α × Rng
  | [], g => ([], g)
  | i :: rest, g =>
    let a := f i g
    let r := threadGen f rest a.2
    (a.1 :: r.1, r.2)

namespace Renderer

/-- renderer.rs `get_pixel_coords_16x4`: the eight lane packets of pixel
coordinates for a 16x4 block, with the one-pixel anti-alias jitter (eight
draws for x, then eight for y). -/
def getPixelCoords16x4 (r : Renderer) (R : RandModel) (x y : ℕ) (g : Rng) :
    ((Fin 8 → Mf32) × (Fin 8 → Mf32)) × Rng :=
  let scaleQ : ℚ := 2 / (r.width : ℚ)
  let scale := Mf32.broadcast scaleQ
  let scaleMul : Fin 8 → ℚ := fun k => ([2, 4, 8, 12, 0, 0, 0, 0].getD k.val 0 : ℚ) * scaleQ
  let offX : Mf32 := fun k => ((k.val % 4 : ℕ) : ℚ)
  let offY : Mf32 := fun k => if k.val < 4 then 0 else 1
  let baseX := scale.mul (offX.add (Mf32.broadcast ((x : ℚ) - (r.width : ℚ) / 2)))
  let baseY := scale.mul (offY.add (Mf32.broadcast ((y : ℚ) - (r.height : ℚ) / 2)))
  let xs : Fin 8 → Mf32 := fun i =>
    baseX.add (Mf32.broadcast ([0, 0, scaleMul 1, scaleMul 1, scaleMul 2, scaleMul 2,
                                scaleMul 3, scaleMul 3].getD i.val 0))
  let ys : Fin 8 → Mf32 := fun i =>
    baseY.add (Mf32.broadcast (if i.val % 2 = 1 then scaleMul 0 else 0))
  let xd := threadGen (fun i g1 =>
    let s := Rng.sampleUnit R g1
    (s.1.mulAdd scale (xs (fin8 i)), s.2)) [0, 1, 2, 3, 4, 5, 6, 7] g
  let yd := threadGen (fun i g1 =>
    let s := Rng.sampleUnit R g1
    (s.1.mulAdd scale (ys (fin8 i)), s.2)) [0, 1, 2, 3, 4, 5, 6, 7] xd.2
  ((fun i => xd.1.getD i.val Mf32.zero, fun i => yd.1.getD i.val Mf32.zero), yd.2)

/-- The state of the bounce loop of renderer.rs `render_pixels`. -/
structure PixelLoopState where
  ray : MRay
  color : MVector3
  hitEmissive : MBits
  texIndex : Mi32
  texCoords : Mf32 × Mf32
  fresnel : Mf32
  rng : Rng

/-- The bounce loop of renderer.rs `render_pixels`, iterating bounce
indices `is` (the source runs `0..max_bounces` with an early break once
every lane has hit an emissive material). -/
def renderPixelsLoop (r : Renderer) (R : RandModel) : List ℕ → PixelLoopState → PixelLoopState
  | [], st => st
  | i :: rest, st =>
    let isect := r.scene.intersectNearestP st.ray
    let st1 := { st with hitEmissive := isect.material }
    if Mf32.allSignBitsNegative isect.material then st1
    else
      let c := continuePathFull R isect.material r.scene st.ray isect st.rng (i = 0)
      let newRay := c.1.1
      let colorMod := c.1.2.1
      let fr := c.1.2.2
      let st2 :=
        { st1 with
          ray := newRay,
          color := st1.color.mulCoords colorMod,
          rng := c.2 }
      let st3 :=
        if i = 0 then
          { st2 with
            texIndex := MBits.getTexture isect.material,
            texCoords := isect.texCoords,
            fresnel := fr }
        else st2
      renderPixelsLoop r R rest st3

/-- renderer.rs `render_pixels`. -/
def renderPixels (r : Renderer) (R : RandModel) (x y : Mf32) (g : Rng) : MPixelData × Rng :=
  let s := Rng.sampleUnit R g
  let ray := r.scene.camGetRay x y s.1
  let st0 : PixelLoopState :=
    { ray := ray,
      color := ⟨Mf32.one, Mf32.one, Mf32.one⟩,
      hitEmissive := fun _ => 0,
      texIndex := Mi32.zero,
      texCoords := (Mf32.zero, Mf32.zero),
      fresnel := Mf32.zero,
      rng := s.2 }
  let st := renderPixelsLoop r R [0, 1, 2, 3, 4] st0
  let emission := skyIntensity st.ray.direction
  let color1 := st.color.mulCoords emission
  let color2 := MVector3.zero.pick color1 st.hitEmissive
  ({ color := color2,
     texIndex := st.texIndex,
     texCoords := st.texCoords,
     fresnel := st.fresnel }, st.rng)

/-- renderer.rs `render_pixels_debug` (the f32 log2 brightness compression
is modelled through `log2Q`). -/
def renderPixelsDebug (r : Renderer) (x y : Mf32) : MPixelData :=
  let ray := r.scene.camGetRay x y Mf32.zero
  let counts := r.scene.intersectDebug ray
  let g := Mf32.broadcast (log2Q (counts.1 : ℚ) * (1 / 10))
  let b := Mf32.broadcast (log2Q (counts.2 : ℚ) * (1 / 10))
  { color := ⟨Mf32.zero, g, b⟩,
    texIndex := Mi32.zero,
    texCoords := (Mf32.zero, Mf32.zero),
    fresnel := Mf32.zero }

/-- renderer.rs `render_block_16x4`. -/
def renderBlock16x4 (r : Renderer) (R : RandModel) (x y : ℕ) (g : Rng) :
    (Fin 8 → MPixelData) × Rng :=
  let pc := r.getPixelCoords16x4 R x y g
  let xs := pc.1.1
  let ys := pc.1.2
  if r.enableDebugView then
    (fun i => r.renderPixelsDebug (xs i) (ys i), pc.2)
  else
    let d := threadGen (fun i g1 => r.renderPixels R (xs (fin8 i)) (ys (fin8 i)) g1)
      [0, 1, 2, 3, 4, 5, 6, 7] pc.2
    (fun i =>
      d.1.getD i.val
        { color := MVector3.zero, texIndex := Mi32.zero,
          texCoords := (Mf32.zero, Mf32.zero), fresnel := Mf32.zero }, d.2)

/-- renderer.rs `store_mi32_16x4`: shuffle the eight packets of a 16x4
block into four rows of the bitmap. -/
def storeMi32_16x4 (r : Renderer) (target : List Mi32) (x y : ℕ) (data : Fin 8 → Mi32) :
    List Mi32 :=
  let mkLine0 : Mi32 → Mi32 → Mi32 := fun left right =>
    fun k => if k.val < 4 then left (fin8 k.val) else right (fin8 (k.val - 4))
  let mkLine1 : Mi32 → Mi32 → Mi32 := fun left right =>
    fun k => if k.val < 4 then left (fin8 (k.val + 4)) else right (fin8 k.val)
  let idxLine0 := (y * r.width + 0 * r.width + x) / 8
  let idxLine1 := (y * r.width + 1 * r.width + x) / 8
  let idxLine2 := (y * r.width + 2 * r.width + x) / 8
  let idxLine3 := (y * r.width + 3 * r.width + x) / 8
  let t0 := target.set (idxLine0 + 0) (mkLine0 (data 0) (data 2))
  let t1 := t0.set (idxLine0 + 1) (mkLine0 (data 4) (data 6))
  let t2 := t1.set (idxLine1 + 0) (mkLine1 (data 0) (data 2))
  let t3 := t2.set (idxLine1 + 1) (mkLine1 (data 4) (data 6))
  let t4 := t3.set (idxLine2 + 0) (mkLine0 (data 1) (data 3))
  let t5 := t4.set (idxLine2 + 1) (mkLine0 (data 5) (data 7))
  let t6 := t5.set (idxLine3 + 0) (mkLine1 (data 1) (data 3))
  t6.set (idxLine3 + 1) (mkLine1 (data 5) (data 7))

/-- The RGBA packing of one pixel packet in renderer.rs
`store_pixels_color_16x4`: brighten by 2, clamp to [0, 1], scale to 255. -/
def colorPack (d : MPixelData) : Mi32 :=
  let range := Mf32.broadcast 255
  let rgb255 := ((d.color.smul (Mf32.broadcast 2)).clampOne).smul range
  let rr := rgb255.x.intoMi32
  let gg := (rgb255.y.intoMi32).shl 8
  let bb := (rgb255.z.intoMi32).shl 16
  (rr.lorM gg).lorM bb

/-- renderer.rs `store_pixels_color_16x4`. -/
def storePixelsColor16x4 (r : Renderer) (bitmap : List Mi32) (x y : ℕ)
    (data : Fin 8 → MPixelData) : List Mi32 :=
  r.storeMi32_16x4 bitmap x y (fun i => colorPack (data i))

/-- The G-buffer packing of one pixel packet in renderer.rs
`store_pixels_gbuffer_16x4` (lines 265-283): texture coordinates are
scaled to 255 and wrapped with a 0xff mask, the Fresnel factor is scaled
to 255 and shifted (without a mask), and the texture index is shifted into
the high byte. -/
def gbufferPack (d : MPixelData) : Mi32 :=
  let range := Mf32.broadcast 255
  let texX := d.texCoords.1.mul range
  let texY := d.texCoords.2.mul range
  let fresnel := d.fresnel.mul range
  let wrap := Mi32.broadcast 255
  let rr := (texX.intoMi32).land wrap
  let gg := ((texY.intoMi32).land wrap).shl 8
  let bb := (fresnel.intoMi32).shl 16
  let aa := d.texIndex.shl 24
  (rr.lorM gg).lorM (bb.lorM aa)

/-- renderer.rs `store_pixels_gbuffer_16x4`. -/
def storePixelsGbuffer16x4 (r : Renderer) (gbuffer : List Mi32) (x y : ℕ)
    (data : Fin 8 → MPixelData) : List Mi32 :=
  r.storeMi32_16x4 gbuffer x y (fun i => gbufferPack (data i))

/-- renderer.rs `render_patch_u8`: render a square patch of the frame into
the 8-bit bitmap and the G-buffer.  The per-patch PRNG is created from
(x, y, frame_number) only. -/
def renderPatchU8 (r : Renderer) (R : RandModel) (bitmap gbuffer : List Mi32)
    (patchWidth x y frameNumber : ℕ) : Except String (List Mi32 × List Mi32) :=
  if patchWidth % 16 ≠ 0 then
    Except.error "assertion failed: patch_width & 15 == 0"
  else
    let w := patchWidth / 16
    let h := patchWidth / 4
    let g0 := Rng.withSeed x y frameNumber
    let res := (List.range w).foldl
      (fun (st : List Mi32 × List Mi32 × Rng) i =>
        (List.range h).foldl
          (fun (st2 : List Mi32 × List Mi32 × Rng) j =>
            let xb := x + i * 16
            let yb := y + j * 4
            let blk := r.renderBlock16x4 R xb yb st2.2.2
            let bm := r.storePixelsColor16x4 st2.1 xb yb blk.1
            let gb := r.storePixelsGbuffer16x4 st2.2.1 xb yb blk.1
            (bm, gb, blk.2))
          st)
      (bitmap, gbuffer, g0)
    Except.ok (res.1, res.2.1)

/-- renderer.rs `accumulate_patch_f32`: add the frame's color packets into
the HDR tile buffer and fill the G-buffer for the current frame. -/
def accumulatePatchF32 (r : Renderer) (R : RandModel) (hdrBuffer : List (Fin 8 → MVector3))
    (gbuffer : List Mi32) (patchWidth x y frameNumber : ℕ) :
    Except String (List (Fin 8 → MVector3) × List Mi32) :=
  if patchWidth % 16 ≠ 0 then
    Except.error "assertion failed: patch_width & 15 == 0"
  else
    let w := patchWidth / 16
    let h := patchWidth / 4
    let g0 := Rng.withSeed x y frameNumber
    let res := (List.range w).foldl
      (fun (st : List (Fin 8 → MVector3) × List Mi32 × Rng) i =>
        (List.range h).foldl
          (fun (st2 : List (Fin 8 → MVector3) × List Mi32 × Rng) j =>
            let xb := x + i * 16
            let yb := y + j * 4
            let blk := r.renderBlock16x4 R xb yb st2.2.2
            let index := (y / 4 + j) * (r.width / 16) + (x / 16 + i)
            let current := st2.1.getD index (fun _ => MVector3.zero)
            let hdr := st2.1.set index (fun k => (current k).addV (blk.1 k).color)
            let gb := r.storePixelsGbuffer16x4 st2.2.1 xb yb blk.1
            (hdr, gb, blk.2))
          st)
      (hdrBuffer, gbuffer, g0)
    Except.ok (res.1, res.2.1)

end Renderer

/-- The bounce recursion of renderer.rs `render_pixels`, restricted to the
(ray, color, rng) state: each step intersects the scene and multiplies the
accumulated color by the modulation of material.rs `continue_path`. -/
def iterBounce (R : RandModel) (scene : Scene) : ℕ → MRay × MVector3 × Rng → MRay × MVector3 × Rng
  | 0, st => st
  | n + 1, st =>
    let isect := scene.intersectNearestP st.1
    let c := continuePath R scene st.1 isect st.2.2
    iterBounce R scene n (c.1.1, (st.2.1).mulCoords c.1.2, c.2)

/-- A placeholder triangle for out-of-range reads (never intersected in
well-formed runs). -/
def dummyTri : Triangle := ⟨⟨0, 0, 0⟩, ⟨0, 0, 0⟩, ⟨0, 0, 0⟩⟩

/-- The triangles referenced by a contiguous index range of the buffer,
as read by the leaf loop. -/
def rangeTriangles (tris : List Triangle) (lo hi : ℕ) : List Triangle :=
  (List.range' lo (hi - lo)).map (fun j => tris.getD j dummyTri)

/-- Per-lane fold of `Triangle::intersect` over a triangle list. -/
def laneFold (L : List Triangle) (o d : SVector3) (rec : LaneRec) : LaneRec :=
  L.foldl (fun r t => t.intersectLane o d r) rec

/-- The distance component of one lane update. -/
def distUpd (t : Triangle) (o d : SVector3) (a : ℚ) : ℚ :=
  match t.candidate o d with
  | some c => if c.1 < a then c.1 else a
  | none => a

/-- The distance component of the per-lane fold. -/
def laneDist (L : List Triangle) (o d : SVector3) (a : ℚ) : ℚ :=
  L.foldl (fun acc t => distUpd t o d acc) a

/-- Fold of the per-range lane distances over a stack's ghost ranges,
head range first, as the traversal processes them. -/
def stackFoldDist (tris : List Triangle) (ghost : List (ℕ × ℕ)) (o d : SVector3) (a : ℚ) : ℚ :=
  ghost.foldl (fun acc g => laneDist (rangeTriangles tris g.1 g.2) o d acc) a

/-- No two distinct entries of the list produce candidate hits at the same
distance for the lane ray (o, d). -/
def candNeB (o d : SVector3) (t1 t2 : Triangle) : Bool :=
  match t1.candidate o d, t2.candidate o d with
  | some a, some b => decide (a.1 ≠ b.1)
  | _, _ => true

/-- Pairwise distinctness of candidate hit distances along a triangle
list, for one lane ray. -/
def DistinctHits (L : List Triangle) (o d : SVector3) : Prop :=
  List.Pairwise (fun t1 t2 => candNeB o d t1 t2 = true) L

instance (L : List Triangle) (o d : SVector3) : Decidable (DistinctHits L o d) :=
  inferInstanceAs (Decidable (List.Pairwise _ L))

/-- A degenerate interim node: a leaf holding no triangles (produced only
by a degenerate partition; `crystallize` rejects it). -/
def InterimNode.emptyLeaf (t : InterimNode) : Prop :=
  t.triangles = [] ∧ t.children = []

/-- A triangle reference is well formed when its box contains the three
vertices of the source triangle it refers to. -/
def RefWf (src : List Triangle) (ref : TriangleRef) : Prop :=
  ref.aabb.containsPoint (src.getD ref.index dummyTri).v0 ∧
  ref.aabb.containsPoint (src.getD ref.index dummyTri).v1 ∧
  ref.aabb.containsPoint (src.getD ref.index dummyTri).v2

/-- Correspondence between the crystallized arrays and the interim tree:
`Crys t nodes tris S sz i lo hi` states that slot `i` of the node array
represents interim node `t`, that the slots of the whole subtree form the
set `S` (with `sz` nodes), and that the subtree's triangles occupy the
buffer range [lo, hi).  An internal slot stores its two children at the
adjacent pair (index, index + 1) with an even index; a leaf's range
triangles lie inside its box, and a child box lies inside its parent's. -/
inductive Crys : InterimNode → List BvhNode → List Triangle → Set ℕ → ℕ → ℕ → ℕ → ℕ → Prop
  | leaf (t : InterimNode) (nodes : List BvhNode) (tris : List Triangle) (i lo : ℕ) :
      t.children = [] →
      t.triangles ≠ [] →
      nodes.get? i = some ⟨t.outerAabb, lo, t.triangles.length⟩ →
      (∀ j, lo ≤ j → j < lo + t.triangles.length →
        ∃ tri, tris.get? j = some tri ∧
          t.outerAabb.containsPoint tri.v0 ∧ t.outerAabb.containsPoint tri.v1 ∧
          t.outerAabb.containsPoint tri.v2) →
      Crys t nodes tris {i} 1 i lo (lo + t.triangles.length)
  | node (t l r : InterimNode) (nodes : List BvhNode) (tris : List Triangle)
      (Sl Sr : Set ℕ) (szl szr i c lo mid hi : ℕ) :
      t.children = [l, r] →
      nodes.get? i = some ⟨t.outerAabb, c, 0⟩ →
      Even c →
      l.outerAabb.sub t.outerAabb →
      r.outerAabb.sub t.outerAabb →
      Crys l nodes tris Sl szl c lo mid →
      Crys r nodes tris Sr szr (c + 1) mid hi →
      Crys t nodes tris ({i} ∪ Sl ∪ Sr) (szl + szr + 1) i lo hi

mutual

/-- The refs stored throughout a subtree of interim nodes. -/
def subtreeRefs : InterimNode → List TriangleRef
  | InterimNode.mk _ _ cs tris => tris ++ subtreeRefsL cs

/-- The refs stored throughout a forest of interim nodes. -/
def subtreeRefsL : List InterimNode → List TriangleRef
  | [] => []
  | c :: cs => subtreeRefs c ++ subtreeRefsL cs

end

/-- The construction invariant of the interim tree: every ref's box
contains its triangle's vertices and is contained in the node's outer box;
an internal node holds no triangles of its own and its children boxes are
inside its own box (unless a child is the degenerate empty leaf, which
`crystallize` later rejects). -/
inductive ITInv (src : List Triangle) : InterimNode → Prop
  | leaf (t : InterimNode) :
      t.children = [] →
      (∀ ref ∈ t.triangles, RefWf src ref ∧ ref.aabb.sub t.outerAabb) →
      ITInv src t
  | node (t l r : InterimNode) :
      t.children = [l, r] →
      t.triangles = [] →
      ITInv src l →
      ITInv src r →
      (l.emptyLeaf ∨ l.outerAabb.sub t.outerAabb) →
      (r.emptyLeaf ∨ r.outerAabb.sub t.outerAabb) →
      ITInv src t

/-- The heuristic instance used by `Bvh::build`. -/
def sahStd : Heuristic := treeSah 40 120 (1 / 10)

/-- A unit-sized triangle near the origin in the z = 1 plane. -/
def t1c4 : Triangle := ⟨⟨0, 0, 1⟩, ⟨1, 0, 1⟩, ⟨0, 1, 1⟩⟩

/-- A unit-sized triangle near x = 10 in the z = 1 plane. -/
def t2c4 : Triangle := ⟨⟨9, 0, 1⟩, ⟨10, 0, 1⟩, ⟨10, 1, 1⟩⟩

/-- The interim root over the two unit triangles: its best split cost
equals its no-split cost exactly (both 240). -/
def rootC4 : InterimNode :=
  InterimNode.fromTriangleRefs
    [TriangleRef.fromTriangle 0 t1c4, TriangleRef.fromTriangle 1 t2c4]

/-- Two large overlapping triangles (the split is more expensive than not
splitting). -/
def nodeOv : InterimNode :=
  InterimNode.fromTriangleRefs
    [TriangleRef.fromTriangle 0 ⟨⟨-1, -1, 1⟩, ⟨3, -1, 1⟩, ⟨-1, 3, 1⟩⟩,
     TriangleRef.fromTriangle 1 ⟨⟨1, 1, 1⟩, ⟨1, -2, 1⟩, ⟨-2, 1, 1⟩⟩]

/-- Three triangles whose binning splits as two against one. -/
def nodeC3 : InterimNode :=
  InterimNode.fromTriangleRefs
    [TriangleRef.fromTriangle 0 ⟨⟨0, 0, 1⟩, ⟨1, 0, 1⟩, ⟨0, 1, 1⟩⟩,
     TriangleRef.fromTriangle 1 ⟨⟨1, 0, 1⟩, ⟨2, 0, 1⟩, ⟨1, 1, 1⟩⟩,
     TriangleRef.fromTriangle 2 ⟨⟨9, 0, 1⟩, ⟨10, 0, 1⟩, ⟨10, 1, 1⟩⟩]

/-- The 64 bins of `nodeC3` along the X axis. -/
def binsC3 : List Bin :=
  InterimNode.binTriangles nodeC3 ((List.range 64).map (fun _ => Bin.new)) Axis.X

/-- The thin-sliver half width used by the tie scene. -/
def hN : ℚ := 1 / 128

/-- A thin needle triangle along the x axis whose long edge passes through
(0, 0, 1); its face normal points toward +z. -/
def triA : Triangle := ⟨⟨-10, 0, 1⟩, ⟨10, 0, 1⟩, ⟨10, hN, 1⟩⟩

/-- A thin needle triangle along the y axis whose long edge passes through
(0, 0, 1); its face normal points toward -z.  A ray through the crossing
point hits both needles at the same distance with opposite normals. -/
def triB : Triangle := ⟨⟨0, -10, 1⟩, ⟨-hN, 10, 1⟩, ⟨0, 10, 1⟩⟩

/-- A packet ray through the crossing point of the two needles. -/
def ray0 : MRay :=
  { origin := MVector3.broadcast ⟨0, 0, 0⟩,
    direction := MVector3.broadcast ⟨0, 0, 1⟩,
    active := fun _ => 0 }

/-- An initial intersection record far away. -/
def isect0 : MIntersection :=
  { position := MVector3.broadcast ⟨0, 0, 0⟩,
    normal := MVector3.broadcast ⟨0, 0, 0⟩,
    distance := Mf32.broadcast 1000 }

/-- The BVH built over the two needles (with its interim root). -/
def c1Built : InterimNode × Bvh :=
  match Bvh.buildI [triA, triB] with
  | Except.ok p => p
  | Except.error _ => (InterimNode.mk Aabb.zero Aabb.zero [] [], ⟨[], []⟩)

/-- A pixel packet whose Fresnel lane value is 2 (out of range). -/
def dC8 : MPixelData :=
  { color := MVector3.zero,
    texIndex := Mi32.zero,
    texCoords := (Mf32.zero, Mf32.zero),
    fresnel := Mf32.broadcast 2 }

/-- A trivial instantiation of the abstract sampling kernels, for
witnesses. -/
def trivialRand : RandModel :=
  { unit := fun _ => Mf32.zero,
    hemi := fun _ => MVector3.zero,
    rotate := fun a _ => a,
    fresnelFn := fun _ _ => Mf32.zero }

/-- A trivial render-path intersection record, for witnesses. -/
def trivialIsectP : PathIsect :=
  { position := MVector3.zero,
    normal := MVector3.zero,
    distance := Mf32.zero,
    material := fun _ => 0,
    texCoords := (Mf32.zero, Mf32.zero) }

/-- A trivial scene, for witnesses. -/
def trivialScene : Scene :=
  { camGetRay := fun _ _ _ => ray0,
    intersectNearestP := fun _ => trivialIsectP,
    intersectDebug := fun _ => (1, 1) }

/-- A packet ray with every lane terminated (sign bit set). -/
def rayInactive : MRay :=
  { origin := MVector3.zero,
    direction := MVector3.zero,
    active := fun _ => 2 ^ 31 }

/-- A traversal stack entry `e` matched with a ghost descriptor
`((lo, hi), sz)`: the entry's node is stored at some slot that roots a
crystallized subtree of `sz` nodes over the buffer range [lo, hi), and the
entry's AABB intersection is that node's box tested against the ray. -/
def EntryOk (bvh : Bvh) (ray : MRay) (e : AabbIsect × BvhNode) (g : (ℕ × ℕ) × ℕ) : Prop :=
  ∃ t S i, Crys t bvh.nodes bvh.triangles S g.2 i g.1.1 g.1.2 ∧
    bvh.nodes.get? i = some e.2 ∧ e.1 = e.2.aabb.intersect ray

/-- Total node count of the subtrees referenced by a ghost stack: an upper
bound on the remaining traversal pops. -/
def ghostFuel (ghost : List ((ℕ × ℕ) × ℕ)) : ℕ := (ghost.map (fun g => g.2)).sum

/-! Theorems.  Claim theorems are named `cN_...`; all other lemmas are
shared helpers. -/

/-- C7 counterexample: `RenderBuffer::new` panics at width 16 and
height 4, although 16 is a multiple of 16 and 4 is a multiple of 4; the
code asserts `height & 15 == 0`, so the height requirement is 16, not 4. -/
theorem c7_counterexample :
    renderBufferNew 16 4 = Except.error "assertion failed: height & 15 == 0" := rfl

/-- C7 (amended): `RenderBuffer::new(width, height)` does not panic for
any width and height that are both multiples of 16 (the source asserts
`width & 15 == 0` and `height & 15 == 0`), returning a buffer of
width * height / 8 packed pixels. -/
theorem c7_renderBufferNew_ok (w h : ℕ) (hw : w % 16 = 0) (hh : h % 16 = 0) :
    renderBufferNew w h = Except.ok (w * h / 8) := by
  unfold renderBufferNew
  rw [if_neg (by omega), if_neg (by omega)]

/-- Witness for C7 at width 16, height 32. -/
theorem c7_witness :
    16 % 16 = 0 ∧ 32 % 16 = 0 ∧ renderBufferNew 16 32 = Except.ok 64 :=
  ⟨rfl, rfl, c7_renderBufferNew_ok 16 32 rfl rfl⟩

/-- C8 counterexample: a Fresnel lane value of 2 produces the G-buffer
word 510 * 2^16: the blue byte is 254 rather than the clamped 255, and the
high (alpha) byte becomes 1, spilling into the texture-index channel. -/
theorem c8_counterexample :
    Renderer.gbufferPack dC8 (fin8 0) = 33423360 ∧
    Renderer.gbufferPack dC8 (fin8 0) / 2 ^ 24 ≠ dC8.texIndex (fin8 0) % 256 ∧
    (Renderer.gbufferPack dC8 (fin8 0) / 2 ^ 16) % 256 ≠ 255 := by
  with_unfolding_all decide


/-- Or of disjoint bit ranges is addition (wrapper around
`Nat.mul_add_lt_is_or`). -/
theorem lor_disjoint_add (s a b : ℕ) (hb : b < 2 ^ s) :
    Nat.lor b (a * 2 ^ s) = a * 2 ^ s + b := by
  have h := Nat.mul_add_lt_is_or hb a
  calc Nat.lor b (a * 2 ^ s) = b ||| (a * 2 ^ s) := rfl
    _ = (a * 2 ^ s) ||| b := Nat.lor_comm _ _
    _ = (2 ^ s * a) ||| b := by rw [Nat.mul_comm]
    _ = 2 ^ s * a + b := h.symm
    _ = a * 2 ^ s + b := by rw [Nat.mul_comm]

/-- A bitwise and with the byte mask 255 is reduction modulo 256. -/
theorem land_mask255 (x : ℕ) : Nat.land x 255 = x % 256 := by
  have h := Nat.and_pow_two_sub_one_eq_mod x 8
  calc Nat.land x 255 = x &&& 255 := rfl
    _ = x &&& 2 ^ 8 - 1 := by norm_num
    _ = x % 2 ^ 8 := h
    _ = x % 256 := by norm_num

/-- C8 (amended): for in-range inputs (texture coordinates in [0, 1),
Fresnel in [0, 1], texture index below 8) the G-buffer pixel of
`store_pixels_gbuffer_16x4` packs red = floor(U * 255) (wrapped), green =
floor(V * 255) (wrapped), blue = floor(Fresnel * 255) -- truncated, with
no clamping -- and alpha = the texture index shifted into the high byte.
A Fresnel value above 1 is not clamped: its scaled value spills into the
alpha byte (see the counterexample). -/
theorem c8_gbuffer_packing (d : MPixelData) (k : Fin 8)
    (hu0 : 0 ≤ d.texCoords.1 k) (hu1 : d.texCoords.1 k < 1)
    (hv0 : 0 ≤ d.texCoords.2 k) (hv1 : d.texCoords.2 k < 1)
    (hf0 : 0 ≤ d.fresnel k) (hf1 : d.fresnel k ≤ 1)
    (ht : d.texIndex k < 8) :
    Renderer.gbufferPack d k =
      (⌊d.texCoords.1 k * 255⌋).toNat + (⌊d.texCoords.2 k * 255⌋).toNat * 2 ^ 8 +
      (⌊d.fresnel k * 255⌋).toNat * 2 ^ 16 + d.texIndex k * 2 ^ 24 := by
  have floorFact : ∀ q : ℚ, 0 ≤ q → q ≤ 255 →
      toU32 (truncQ q) = (⌊q⌋).toNat ∧ (⌊q⌋).toNat ≤ 255 := by
    intro q hq0 hq1
    have h0 : (0 : ℤ) ≤ ⌊q⌋ := Int.floor_nonneg.mpr hq0
    have h255 : ⌊q⌋ ≤ 255 := by
      have h := Int.floor_le_floor hq1
      simpa using h
    refine ⟨?_, by omega⟩
    unfold toU32 truncQ
    rw [if_pos hq0, Int.emod_eq_of_lt h0 (by omega)]
  have hu := floorFact (d.texCoords.1 k * 255) (by positivity) (by nlinarith)
  have hv := floorFact (d.texCoords.2 k * 255) (by positivity) (by nlinarith)
  have hf := floorFact (d.fresnel k * 255) (by positivity) (by nlinarith)
  have huLt : (⌊d.texCoords.1 k * 255⌋).toNat < 256 := by
    have h255 : ⌊d.texCoords.1 k * 255⌋ < 255 := Int.floor_lt.mpr (by push_cast; nlinarith)
    have h0 : (0 : ℤ) ≤ ⌊d.texCoords.1 k * 255⌋ := Int.floor_nonneg.mpr (by positivity)
    omega
  have hvLt : (⌊d.texCoords.2 k * 255⌋).toNat < 256 := by
    have h255 : ⌊d.texCoords.2 k * 255⌋ < 255 := Int.floor_lt.mpr (by push_cast; nlinarith)
    have h0 : (0 : ℤ) ≤ ⌊d.texCoords.2 k * 255⌋ := Int.floor_nonneg.mpr (by positivity)
    omega
  unfold Renderer.gbufferPack
  simp only [Mi32.land, Mi32.lorM, Mi32.shl, Mi32.broadcast, Mf32.mul, Mf32.intoMi32,
    Mf32.broadcast]
  rw [hu.1, hv.1, hf.1]
  set U := (⌊d.texCoords.1 k * 255⌋).toNat with hU
  set V := (⌊d.texCoords.2 k * 255⌋).toNat with hV
  set F := (⌊d.fresnel k * 255⌋).toNat with hF
  set T := d.texIndex k with hT
  have hFle : F ≤ 255 := hf.2
  rw [land_mask255, land_mask255, Nat.mod_eq_of_lt huLt, Nat.mod_eq_of_lt hvLt]
  have hVs : V * 2 ^ 8 % 2 ^ 32 = V * 2 ^ 8 := Nat.mod_eq_of_lt (by omega)
  have hFs : F * 2 ^ 16 % 2 ^ 32 = F * 2 ^ 16 := Nat.mod_eq_of_lt (by omega)
  have hTs : T * 2 ^ 24 % 2 ^ 32 = T * 2 ^ 24 := Nat.mod_eq_of_lt (by omega)
  rw [hVs, hFs, hTs]
  have step1 : Nat.lor U (V * 2 ^ 8) = V * 2 ^ 8 + U := lor_disjoint_add 8 V U (by omega)
  have step2 : Nat.lor (F * 2 ^ 16) (T * 2 ^ 24) = T * 2 ^ 24 + F * 2 ^ 16 :=
    lor_disjoint_add 24 T (F * 2 ^ 16) (by omega)
  rw [step1, step2]
  have hsum : T * 2 ^ 24 + F * 2 ^ 16 = (T * 2 ^ 8 + F) * 2 ^ 16 := by ring
  rw [hsum, lor_disjoint_add 16 (T * 2 ^ 8 + F) (V * 2 ^ 8 + U) (by omega)]
  ring

/-- Witness for C8 at a concrete in-range pixel packet. -/
theorem c8_witness :
    Renderer.gbufferPack
      { color := MVector3.zero, texIndex := fun _ => 5,
        texCoords := (Mf32.broadcast (1 / 2), Mf32.broadcast (1 / 4)),
        fresnel := Mf32.broadcast 1 } (fin8 0) =
      127 + 63 * 2 ^ 8 + 255 * 2 ^ 16 + 5 * 2 ^ 24 := by
  have h := c8_gbuffer_packing
    { color := MVector3.zero, texIndex := fun _ => 5,
      texCoords := (Mf32.broadcast (1 / 2), Mf32.broadcast (1 / 4)),
      fresnel := Mf32.broadcast 1 } (fin8 0)
    (by norm_num [Mf32.broadcast]) (by norm_num [Mf32.broadcast])
    (by norm_num [Mf32.broadcast]) (by norm_num [Mf32.broadcast])
    (by norm_num [Mf32.broadcast]) (by norm_num [Mf32.broadcast])
    (by norm_num)
  rw [h]
  norm_num [Mf32.broadcast]
  decide

/-- C9: rendering a tile is deterministic in the tile coordinates, the
patch width and the frame number: two renderers sharing the same scene,
viewport and debug flag (but arbitrary, possibly different, clock state)
write identical bitmap, G-buffer and HDR contents for the same
(patch_width, x, y, frame), because the per-tile PRNG is created by
`Rng::with_seed(x, y, frame)` from those values alone. -/
theorem c9_tile_determinism (R : RandModel) (scene : Scene) (w h : ℕ) (dbg : Bool)
    (t1 td1 t2 td2 : ℚ) (bitmap gbuffer : List Mi32) (hdr : List (Fin 8 → MVector3))
    (pw x y frame : ℕ) :
    Renderer.renderPatchU8 ⟨scene, w, h, dbg, t1, td1⟩ R bitmap gbuffer pw x y frame =
      Renderer.renderPatchU8 ⟨scene, w, h, dbg, t2, td2⟩ R bitmap gbuffer pw x y frame ∧
    Renderer.accumulatePatchF32 ⟨scene, w, h, dbg, t1, td1⟩ R hdr gbuffer pw x y frame =
      Renderer.accumulatePatchF32 ⟨scene, w, h, dbg, t2, td2⟩ R hdr gbuffer pw x y frame :=
  ⟨rfl, rfl⟩

/-- The sign bit of a bitwise or is the or of the sign bits. -/
theorem signBit_lor (a b : ℕ) :
    Mf32.signBit (Nat.lor a b) = (Mf32.signBit a || Mf32.signBit b) := by
  unfold Mf32.signBit
  have h : Nat.lor a b = a ||| b := rfl
  rw [h, Nat.testBit_lor]

/-- An inactive lane receives the white modulation from `continue_path`
and the returned ray stays inactive on that lane. -/
theorem continuePath_inactive (R : RandModel) (scene : Scene) (ray : MRay)
    (isect : PathIsect) (g : Rng) (k : Fin 8)
    (h : Mf32.signBit (ray.active k) = true ∨ Mf32.signBit (isect.material k) = true) :
    (continuePath R scene ray isect g).1.2.x k = 1 ∧
    (continuePath R scene ray isect g).1.2.y k = 1 ∧
    (continuePath R scene ray isect g).1.2.z k = 1 ∧
    Mf32.signBit ((continuePath R scene ray isect g).1.1.active k) = true := by
  have hact : Mf32.signBit ((ray.active.lor isect.material) k) = true := by
    have hl : (ray.active.lor isect.material) k = Nat.lor (ray.active k) (isect.material k) := rfl
    rw [hl, signBit_lor]
    rcases h with h1 | h1
    · rw [h1]; rfl
    · rw [h1]; simp
  unfold continuePath
  simp only [MVector3.pick, Mf32.pick, MVector3.smul]
  rw [hact]
  simp [Mf32.one, Mf32.broadcast, hact]

/-- The color of a lane whose ray is inactive is unchanged by any number
of further bounces. -/
theorem iterBounce_inactive (R : RandModel) (scene : Scene) (k : Fin 8) :
    ∀ (n : ℕ) (ray : MRay) (color : MVector3) (g : Rng),
      Mf32.signBit (ray.active k) = true →
      ((iterBounce R scene n (ray, color, g)).2.1).x k = color.x k ∧
      ((iterBounce R scene n (ray, color, g)).2.1).y k = color.y k ∧
      ((iterBounce R scene n (ray, color, g)).2.1).z k = color.z k := by
  intro n
  induction n with
  | zero => intro ray color g _; exact ⟨rfl, rfl, rfl⟩
  | succ m ih =>
    intro ray color g hray
    have hc := continuePath_inactive R scene ray (scene.intersectNearestP ray)
      (g := g) k (Or.inl hray)
    have hact : Mf32.signBit
        (((continuePath R scene ray (scene.intersectNearestP ray) g).1.1).active k) = true :=
      hc.2.2.2
    have hstep := ih ((continuePath R scene ray (scene.intersectNearestP ray) g).1.1)
      (color.mulCoords (continuePath R scene ray (scene.intersectNearestP ray) g).1.2)
      ((continuePath R scene ray (scene.intersectNearestP ray) g).2) hact
    have hx : (color.mulCoords
        (continuePath R scene ray (scene.intersectNearestP ray) g).1.2).x k = color.x k := by
      show color.x k * _ = color.x k
      rw [hc.1, mul_one]
    have hy : (color.mulCoords
        (continuePath R scene ray (scene.intersectNearestP ray) g).1.2).y k = color.y k := by
      show color.y k * _ = color.y k
      rw [hc.2.1, mul_one]
    have hz : (color.mulCoords
        (continuePath R scene ray (scene.intersectNearestP ray) g).1.2).z k = color.z k := by
      show color.z k * _ = color.z k
      rw [hc.2.2.1, mul_one]
    show ((iterBounce R scene (m + 1) (ray, color, g)).2.1).x k = color.x k ∧ _ ∧ _
    unfold iterBounce
    exact ⟨hstep.1.trans hx, hstep.2.1.trans hy, hstep.2.2.trans hz⟩

/-- C10: for every lane that is already inactive when `continue_path` is
called (the incoming ray's active sign bit is set, or the intersected
material is emissive), the color modulation returned for that lane is
exactly (1, 1, 1), the returned ray is still inactive on that lane, and
multiplying the accumulated color by the modulations of every subsequent
bounce leaves that lane's color unchanged. -/
theorem c10_inactive_lane_modulation (R : RandModel) (scene : Scene) (ray : MRay)
    (isect : PathIsect) (g : Rng) (k : Fin 8)
    (h : Mf32.signBit (ray.active k) = true ∨ Mf32.signBit (isect.material k) = true) :
    ((continuePath R scene ray isect g).1.2.x k = 1 ∧
     (continuePath R scene ray isect g).1.2.y k = 1 ∧
     (continuePath R scene ray isect g).1.2.z k = 1) ∧
    Mf32.signBit ((continuePath R scene ray isect g).1.1.active k) = true ∧
    ∀ (n : ℕ) (color : MVector3) (g2 : Rng),
      ((iterBounce R scene n ((continuePath R scene ray isect g).1.1, color, g2)).2.1).x k
        = color.x k ∧
      ((iterBounce R scene n ((continuePath R scene ray isect g).1.1, color, g2)).2.1).y k
        = color.y k ∧
      ((iterBounce R scene n ((continuePath R scene ray isect g).1.1, color, g2)).2.1).z k
        = color.z k := by
  have hc := continuePath_inactive R scene ray isect g k h
  exact ⟨⟨hc.1, hc.2.1, hc.2.2.1⟩, hc.2.2.2,
    fun n color g2 => iterBounce_inactive R scene k n _ color g2 hc.2.2.2⟩

/-- Witness for C10 on a concrete inactive lane. -/
theorem c10_witness :
    Mf32.signBit (rayInactive.active 0) = true ∧
    (continuePath trivialRand trivialScene rayInactive trivialIsectP ⟨0⟩).1.2.x 0 = 1 ∧
    ((iterBounce trivialRand trivialScene 3
      ((continuePath trivialRand trivialScene rayInactive trivialIsectP ⟨0⟩).1.1,
        MVector3.broadcast ⟨3, 4, 5⟩, ⟨7⟩)).2.1).x 0 = 3 := by
  have hsign : Mf32.signBit (rayInactive.active 0) = true := by
    with_unfolding_all decide
  have h := c10_inactive_lane_modulation trivialRand trivialScene rayInactive trivialIsectP
    ⟨0⟩ 0 (Or.inl hsign)
  refine ⟨hsign, h.1.1, ?_⟩
  have h2 := (h.2.2 3 (MVector3.broadcast ⟨3, 4, 5⟩) ⟨7⟩).1
  rw [h2]
  rfl

/-- C3: the split search of bvh.rs computes the right child's cost with
the left side's triangle count (`right_count` sums over `left_bins`).  At
the three-triangle node `nodeC3` the embedded source code returns the best
cost 152, while the search described by the spec (right count from the
right bins) returns 208 at the same boundary. -/
theorem c3_right_count_from_left_bins :
    InterimNode.findCheapestSplit nodeC3 sahStd binsC3 = (7, 152) ∧
    InterimNode.findCheapestSplitSpec nodeC3 sahStd binsC3 = (7, 208) ∧
    (152 : ℚ) ≠ 208 := by
  refine ⟨?_, ?_, by norm_num⟩
  · with_unfolding_all rfl
  · with_unfolding_all rfl

/-- C4 counterexample: at the node `rootC4` the best split cost over all
three axes is exactly the no-split cost (both 240), and `split` does not
emit a leaf: the node gains two children. -/
theorem c4_counterexample :
    InterimNode.splitChoice rootC4 sahStd = some (Axis.X, 23 / 48, 240) ∧
    sahStd.trisCost rootC4.triangles.length = 240 ∧
    (InterimNode.split rootC4 sahStd).toOption.map (fun t => t.children.length) = some 2 := by
  refine ⟨?_, ?_, ?_⟩
  · with_unfolding_all rfl
  · with_unfolding_all rfl
  · with_unfolding_all rfl

/-- C4 (amended): `split` emits a leaf (returns the node unchanged, with
no children added) when the best split cost found over the three axes is
strictly greater than the no-split cost; when the two costs are equal the
node is split. -/
theorem c4_split_leaf_when_strictly_worse (h : Heuristic) (t : InterimNode)
    (axis : Axis) (sAt c : ℚ)
    (hn : 1 < t.triangles.length)
    (hc : InterimNode.splitChoice t h = some (axis, sAt, c))
    (hlt : h.trisCost t.triangles.length < c) :
    InterimNode.split t h = Except.ok t := by
  unfold InterimNode.split
  rw [if_neg (by omega), hc]
  simp only
  rw [if_pos hlt]

/-- Witness for C4: the overlapping-triangle node splits at cost 880,
strictly above the no-split cost 240, so `split` leaves it unchanged. -/
theorem c4_witness :
    1 < nodeOv.triangles.length ∧
    InterimNode.splitChoice nodeOv sahStd = some (Axis.X, 1 / 192, 880) ∧
    sahStd.trisCost nodeOv.triangles.length < 880 ∧
    InterimNode.split nodeOv sahStd = Except.ok nodeOv := by
  have h1 : 1 < nodeOv.triangles.length := by with_unfolding_all decide
  have h2 : InterimNode.splitChoice nodeOv sahStd = some (Axis.X, 1 / 192, 880) := by
    with_unfolding_all rfl
  have h3 : sahStd.trisCost nodeOv.triangles.length < 880 := by
    with_unfolding_all decide
  exact ⟨h1, h2, h3, c4_split_leaf_when_strictly_worse sahStd nodeOv Axis.X (1 / 192) 880
    h1 h2 h3⟩

/-- C5 counterexample: building a BVH from two identical triangles (all
barycenters coincide on every axis) does not log-and-proceed: it hits the
`assert!(!is_first)` assertion in `InterimNode::split` and aborts. -/
theorem c5_counterexample :
    Bvh.build [t1c4, t1c4] = Except.error "assertion failed: !is_first" := by
  with_unfolding_all rfl

/-- Setting slot zero leaves the tail of a list unchanged. -/
theorem drop_one_set_zero {α : Type} (bs : List α) (x : α) :
    (bs.set 0 x).drop 1 = bs.drop 1 := by
  cases bs <;> rfl

/-- The bin index of a degenerate (zero-sized) inner box at its own
origin coordinate is zero: in exact arithmetic 0/0 = 0, matching the f32
NaN-to-zero conversion. -/
theorem binIndex_degenerate (n : ℕ) (mn : ℚ) (hn : 0 < n) :
    InterimNode.binIndex n mn 0 mn = 0 := by
  unfold InterimNode.binIndex
  norm_num
  omega

/-- Folding the binning step over refs whose barycenter coordinate equals
the degenerate origin touches only bin zero. -/
theorem binFold_degenerate (pA : ℚ) (axis : Axis) :
    ∀ (refs : List TriangleRef),
      (∀ ref ∈ refs, ref.barycenter.getCoord axis = pA) →
      ∀ bins : List Bin, 0 < bins.length →
        (refs.foldl (fun bs tri =>
            bs.set (InterimNode.binIndex bs.length pA 0 (tri.barycenter.getCoord axis))
              ((bs.getD (InterimNode.binIndex bs.length pA 0 (tri.barycenter.getCoord axis))
                Bin.new).push tri)) bins).drop 1 = bins.drop 1 ∧
        (refs.foldl (fun bs tri =>
            bs.set (InterimNode.binIndex bs.length pA 0 (tri.barycenter.getCoord axis))
              ((bs.getD (InterimNode.binIndex bs.length pA 0 (tri.barycenter.getCoord axis))
                Bin.new).push tri)) bins).length = bins.length := by
  intro refs
  induction refs with
  | nil => intro _ bins _; exact ⟨rfl, rfl⟩
  | cons ref rs ih =>
    intro hbary bins hlen
    have hcoord : ref.barycenter.getCoord axis = pA := hbary ref (by simp)
    have hidx : InterimNode.binIndex bins.length pA 0 (ref.barycenter.getCoord axis) = 0 := by
      rw [hcoord]; exact binIndex_degenerate bins.length pA hlen
    simp only [List.foldl_cons, hidx]
    have hlen2 : 0 < (bins.set 0 ((bins.getD 0 Bin.new).push ref)).length := by
      rw [List.length_set]; exact hlen
    have hrec := ih (fun r hr => hbary r (by simp [hr]))
      (bins.set 0 ((bins.getD 0 Bin.new).push ref)) hlen2
    refine ⟨?_, ?_⟩
    · rw [hrec.1, drop_one_set_zero]
    · rw [hrec.2, List.length_set]

/-- When every bin after the first is empty, the bins are not valid for a
split. -/
theorem areBinsValid_false_of_tail_empty (bins : List Bin)
    (h : ∀ b ∈ bins.drop 1, b.triangles = []) :
    InterimNode.areBinsValid bins = false := by
  cases bins with
  | nil => rfl
  | cons b bs =>
    have htail : bs.filter (fun b2 => !b2.triangles.isEmpty) = [] := by
      rw [List.filter_eq_nil_iff]
      intro b2 hb2
      have he : b2.triangles = [] := h b2 (by simpa using hb2)
      simp [he]
    unfold InterimNode.areBinsValid
    rw [List.filter_cons]
    cases hb : !b.triangles.isEmpty <;> simp [htail, hb]

/-- Componentwise minimum of a vector with itself. -/
theorem minv_self (p : SVector3) : p.minv p = p := by
  simp [SVector3.minv]

/-- Componentwise maximum of a vector with itself. -/
theorem maxv_self (p : SVector3) : p.maxv p = p := by
  simp [SVector3.maxv]

/-- Folding an idempotent-at-p operation over copies of p stays at p. -/
theorem foldl_const_fix {α : Type} (f : α → α → α) (p : α) (hf : f p p = p) :
    ∀ l : List α, (∀ q ∈ l, q = p) → l.foldl f p = p := by
  intro l
  induction l with
  | nil => intro _; rfl
  | cons r rs ih =>
    intro hall
    have hr : r = p := hall r (by simp)
    subst hr
    simp only [List.foldl_cons, hf]
    exact ih (fun s hs => hall s (by simp [hs]))

/-- Enclosing a nonempty list of copies of one point gives the degenerate
box at that point. -/
theorem enclosePoints_const (p : SVector3) :
    ∀ (l : List SVector3), l ≠ [] → (∀ q ∈ l, q = p) →
      Aabb.enclosePoints l = Aabb.ofCorners p p := by
  intro l hne hall
  cases l with
  | nil => exact absurd rfl hne
  | cons q rest =>
    have hq : q = p := hall q (by simp)
    subst hq
    simp only [Aabb.enclosePoints]
    have hrest : ∀ s ∈ rest, s = q := fun s hs => hall s (by simp [hs])
    rw [foldl_const_fix (fun a b => a.minv b) q (minv_self q) rest hrest,
      foldl_const_fix (fun a b => a.maxv b) q (maxv_self q) rest hrest]

/-- The inner origin and size of a node whose inner box is degenerate. -/
theorem innerOriginAndSize_degenerate (o i2 : Aabb) (cs : List InterimNode)
    (tris : List TriangleRef) (p : SVector3) (axis : Axis)
    (hin : i2 = Aabb.ofCorners p p) :
    (InterimNode.mk o i2 cs tris).innerOriginAndSize axis = (p.getCoord axis, 0) := by
  subst hin
  unfold InterimNode.innerOriginAndSize
  cases axis <;>
    simp [InterimNode.innerAabb, Aabb.ofCorners, Aabb.far, SVector3.add, SVector3.sub,
      SVector3.getCoord]

/-- The degenerate binning leaves every bin after the first empty, so no
axis yields a valid split. -/
theorem areBinsValid_degenerate (t : InterimNode) (axis : Axis) (pA : ℚ)
    (hsize : t.innerOriginAndSize axis = (pA, 0))
    (hbary : ∀ ref ∈ t.triangles, ref.barycenter.getCoord axis = pA) :
    InterimNode.areBinsValid
      (InterimNode.binTriangles t ((List.range 64).map (fun _ => Bin.new)) axis) = false := by
  have hlen : 0 < ((List.range 64).map (fun _ => Bin.new) : List Bin).length := by simp
  have hfold := binFold_degenerate pA axis t.triangles hbary
    ((List.range 64).map (fun _ => Bin.new)) hlen
  apply areBinsValid_false_of_tail_empty
  intro b hb
  have hdrop : (InterimNode.binTriangles t ((List.range 64).map (fun _ => Bin.new)) axis).drop 1
      = ((List.range 64).map (fun _ => Bin.new) : List Bin).drop 1 := by
    unfold InterimNode.binTriangles
    rw [hsize]
    exact hfold.1
  rw [hdrop] at hb
  have hmem : b ∈ ((List.range 64).map (fun _ => Bin.new) : List Bin) :=
    List.mem_of_mem_drop hb
  have : b = Bin.new := by
    rcases List.mem_map.mp hmem with ⟨_, _, h⟩
    exact h.symm
  rw [this]
  rfl

/-- When no axis yields a valid binning, the axis sweep returns nothing. -/
theorem splitChoice_none_of_invalid (t : InterimNode) (h : Heuristic)
    (hX : InterimNode.areBinsValid
      (InterimNode.binTriangles t ((List.range 64).map (fun _ => Bin.new)) Axis.X) = false)
    (hY : InterimNode.areBinsValid
      (InterimNode.binTriangles t ((List.range 64).map (fun _ => Bin.new)) Axis.Y) = false)
    (hZ : InterimNode.areBinsValid
      (InterimNode.binTriangles t ((List.range 64).map (fun _ => Bin.new)) Axis.Z) = false) :
    InterimNode.splitChoice t h = none := by
  unfold InterimNode.splitChoice
  simp only [List.foldl_cons, List.foldl_nil]
  rw [hX, hY, hZ]
  simp

/-- A node with at least two triangles and no valid binning axis makes
`split` fail its assertion. -/
theorem split_error_of_invalid (t : InterimNode) (h : Heuristic)
    (hn : 1 < t.triangles.length)
    (hc : InterimNode.splitChoice t h = none) :
    InterimNode.split t h = Except.error "assertion failed: !is_first" := by
  unfold InterimNode.split
  rw [if_neg (by omega), hc]

/-- Projection of `from_triangle_refs`: the stored triangle refs. -/
theorem fromTriangleRefs_triangles (refs : List TriangleRef) :
    (InterimNode.fromTriangleRefs refs).triangles = refs := rfl

/-- Projection of `from_triangle_refs`: the inner box. -/
theorem fromTriangleRefs_inner (refs : List TriangleRef) :
    (InterimNode.fromTriangleRefs refs).innerAabb =
      Aabb.enclosePoints (refs.map TriangleRef.barycenter) := rfl

/-- The inner origin and size along any axis of a node with a degenerate
inner box. -/
theorem innerOriginAndSize_of_inner (t : InterimNode) (p : SVector3) (axis : Axis)
    (hin : t.innerAabb = Aabb.ofCorners p p) :
    t.innerOriginAndSize axis = (p.getCoord axis, 0) := by
  unfold InterimNode.innerOriginAndSize
  rw [hin]
  cases axis <;>
    simp [Aabb.ofCorners, Aabb.far, SVector3.add, SVector3.sub, SVector3.getCoord]

/-- A failing split at the root fails `split_recursive`. -/
theorem splitRecursive_error (h : Heuristic) (fuel : ℕ) (t : InterimNode) (e : String)
    (hs : InterimNode.split t h = Except.error e) :
    InterimNode.splitRecursive h (fuel + 1) t = Except.error e := by
  unfold InterimNode.splitRecursive
  rw [hs]
  rfl

/-- A failing recursive split fails `buildI`. -/
theorem buildI_error_of_splitRec (ts : List Triangle) (e : String)
    (h : InterimNode.splitRecursive (treeSah 40 120 (1 / 10)) (ts.length + 1)
      (InterimNode.fromTriangleRefs (((List.range ts.length).zip ts).map
        (fun p => TriangleRef.fromTriangle p.1 p.2))) = Except.error e) :
    Bvh.buildI ts = Except.error e := by
  simp only [Bvh.buildI]
  rw [h]
  rfl

/-- C5 (amended): on a nonempty triangle list whose barycenters all
coincide, `Bvh::build` does not log a warning and proceed: it panics.
With a single triangle the root cannot split and the
`assert_eq!(2, root.children.len())` of `build` fails; with two or more
triangles the degenerate binning leaves every axis invalid and the
`assert!(!is_first)` of `split` fails. -/
theorem c5_build_panics_on_coincident_barycenters (t : Triangle) (rest : List Triangle)
    (hbary : ∀ u ∈ rest, u.barycenter = t.barycenter) :
    ∃ e, Bvh.build (t :: rest) = Except.error e := by
  cases rest with
  | nil => exact ⟨"assertion failed: 2 == root.children.len()", rfl⟩
  | cons r rs =>
    set ts := t :: r :: rs with hts
    set refs := ((List.range ts.length).zip ts).map
      (fun p => TriangleRef.fromTriangle p.1 p.2) with hrefs
    have hmem : ∀ ref ∈ refs, ref.barycenter = t.barycenter := by
      intro ref href
      rw [hrefs] at href
      rcases List.mem_map.mp href with ⟨p, hp, hback⟩
      have hp2 : p.2 ∈ ts := (List.of_mem_zip hp).2
      have hbar : p.2.barycenter = t.barycenter := by
        have hp3 : p.2 = t ∨ p.2 ∈ r :: rs := by
          rw [hts] at hp2
          exact List.mem_cons.mp hp2
        rcases hp3 with h | h
        · rw [h]
        · exact hbary _ h
      rw [← hback]
      exact hbar
    have hlenrefs : refs.length = ts.length := by
      rw [hrefs]
      simp
    have hlents : 2 ≤ ts.length := by rw [hts]; simp
    have hne : refs ≠ [] := by
      intro hc
      rw [hc] at hlenrefs
      simp at hlenrefs
      omega
    set root := InterimNode.fromTriangleRefs refs with hroot
    have hinner : root.innerAabb = Aabb.ofCorners t.barycenter t.barycenter := by
      rw [hroot, fromTriangleRefs_inner]
      apply enclosePoints_const
      · simp [hne]
      · intro q hq
        rcases List.mem_map.mp hq with ⟨ref, href, hback⟩
        rw [← hback]
        exact hmem ref href
    have hios : ∀ axis, root.innerOriginAndSize axis = (t.barycenter.getCoord axis, 0) :=
      fun axis => innerOriginAndSize_of_inner root t.barycenter axis hinner
    have hcoords : ∀ axis : Axis, ∀ ref ∈ root.triangles,
        ref.barycenter.getCoord axis = t.barycenter.getCoord axis := by
      intro axis ref href
      rw [hroot, fromTriangleRefs_triangles] at href
      rw [hmem ref href]
    have hX := areBinsValid_degenerate root Axis.X (t.barycenter.getCoord Axis.X)
      (hios Axis.X) (hcoords Axis.X)
    have hY := areBinsValid_degenerate root Axis.Y (t.barycenter.getCoord Axis.Y)
      (hios Axis.Y) (hcoords Axis.Y)
    have hZ := areBinsValid_degenerate root Axis.Z (t.barycenter.getCoord Axis.Z)
      (hios Axis.Z) (hcoords Axis.Z)
    have hchoice := splitChoice_none_of_invalid root (treeSah 40 120 (1 / 10)) hX hY hZ
    have hn : 1 < root.triangles.length := by
      rw [hroot, fromTriangleRefs_triangles, hlenrefs]
      omega
    have hsplit := split_error_of_invalid root (treeSah 40 120 (1 / 10)) hn hchoice
    have hrec := splitRecursive_error (treeSah 40 120 (1 / 10)) ts.length root _ hsplit
    refine ⟨"assertion failed: !is_first", ?_⟩
    have hbi := buildI_error_of_splitRec ts "assertion failed: !is_first" (by
      rw [← hrefs, ← hroot]
      exact hrec)
    unfold Bvh.build
    rw [hbi]
    rfl

/-- Witness for C5 on the two-identical-triangle list. -/
theorem c5_witness :
    (∀ u ∈ [t1c4], u.barycenter = t1c4.barycenter) ∧
    (∃ e, Bvh.build (t1c4 :: [t1c4]) = Except.error e) :=
  ⟨by intro u hu; simp at hu; rw [hu],
   c5_build_panics_on_coincident_barycenters t1c4 [t1c4]
     (by intro u hu; simp at hu; rw [hu])⟩

/-- Negative infinity is below every extended rational. -/
theorem eqBot_le (x : EQ) : eqBot ≤ x := bot_le

/-- Every extended rational is below positive infinity. -/
theorem le_eqTop (x : EQ) : x ≤ eqTop := by
  unfold eqTop
  cases x with
  | none => exact bot_le
  | some a => exact WithBot.coe_le_coe.mpr le_top

/-- Order embedding of the rationals into the extended rationals. -/
theorem qe_le_qe {a b : ℚ} : qe a ≤ qe b ↔ a ≤ b := by
  unfold qe
  rw [WithBot.coe_le_coe, WithTop.coe_le_coe]

/-- Strict order embedding of the rationals into the extended rationals. -/
theorem qe_lt_qe {a b : ℚ} : qe a < qe b ↔ a < b := by
  rw [lt_iff_le_not_le, lt_iff_le_not_le, qe_le_qe, qe_le_qe]

/-- Box inclusion preserves point membership. -/
theorem sub_containsPoint {a b : Aabb} {p : SVector3} (hs : a.sub b)
    (hp : a.containsPoint p) : b.containsPoint p := by
  obtain ⟨h1, h2, h3, h4, h5, h6⟩ := hs
  obtain ⟨g1, g2, g3, g4, g5, g6⟩ := hp
  exact ⟨le_trans h1 g1, le_trans g2 h2, le_trans h3 g3, le_trans g4 h4,
    le_trans h5 g5, le_trans g6 h6⟩

/-- The min corner of a box built from two corners is the first corner. -/
theorem origin_ofCorners (lo hi : SVector3) : (Aabb.ofCorners lo hi).origin = lo := rfl

/-- The far corner of a box built from two corners is the second corner. -/
theorem far_ofCorners (lo hi : SVector3) : (Aabb.ofCorners lo hi).far = hi := by
  simp [Aabb.ofCorners, Aabb.far, SVector3.add, SVector3.sub]

/-- Box inclusion is reflexive. -/
theorem aabbSub_refl (a : Aabb) : a.sub a :=
  ⟨le_refl _, le_refl _, le_refl _, le_refl _, le_refl _, le_refl _⟩

/-- Box inclusion is transitive. -/
theorem aabbSub_trans {a b c : Aabb} (h1 : a.sub b) (h2 : b.sub c) : a.sub c := by
  obtain ⟨p1, p2, p3, p4, p5, p6⟩ := h1
  obtain ⟨q1, q2, q3, q4, q5, q6⟩ := h2
  exact ⟨le_trans q1 p1, le_trans p2 q2, le_trans q3 p3, le_trans p4 q4,
    le_trans q5 p5, le_trans p6 q6⟩

/-- The first argument is contained in its enclosing box. -/
theorem sub_enclose2_left (a b : Aabb) : a.sub (Aabb.enclose2 a b) := by
  unfold Aabb.enclose2 Aabb.sub
  simp only [origin_ofCorners, far_ofCorners, SVector3.minv, SVector3.maxv]
  exact ⟨min_le_left _ _, le_max_left _ _, min_le_left _ _, le_max_left _ _,
    min_le_left _ _, le_max_left _ _⟩

/-- The second argument is contained in its enclosing box. -/
theorem sub_enclose2_right (a b : Aabb) : b.sub (Aabb.enclose2 a b) := by
  unfold Aabb.enclose2 Aabb.sub
  simp only [origin_ofCorners, far_ofCorners, SVector3.minv, SVector3.maxv]
  exact ⟨min_le_right _ _, le_max_right _ _, min_le_right _ _, le_max_right _ _,
    min_le_right _ _, le_max_right _ _⟩

/-- The enclosing box of two boxes inside a big box is inside it. -/
theorem enclose2_sub {a b big : Aabb} (ha : a.sub big) (hb : b.sub big) :
    (Aabb.enclose2 a b).sub big := by
  obtain ⟨p1, p2, p3, p4, p5, p6⟩ := ha
  obtain ⟨q1, q2, q3, q4, q5, q6⟩ := hb
  unfold Aabb.enclose2 Aabb.sub
  simp only [origin_ofCorners, far_ofCorners, SVector3.minv, SVector3.maxv]
  exact ⟨le_min p1 q1, max_le p2 q2, le_min p3 q3, max_le p4 q4, le_min p5 q5, max_le p6 q6⟩

/-- The accumulator is contained in the enclosing fold. -/
theorem sub_foldl_enclose2 (acc : Aabb) :
    ∀ rest : List Aabb, acc.sub (rest.foldl Aabb.enclose2 acc) := by
  intro rest
  induction rest generalizing acc with
  | nil => exact aabbSub_refl acc
  | cons b bs ih =>
    exact aabbSub_trans (sub_enclose2_left acc b) (ih (Aabb.enclose2 acc b))

/-- Every member of the list is contained in the enclosing fold. -/
theorem mem_sub_foldl_enclose2 (acc : Aabb) :
    ∀ (rest : List Aabb) (b : Aabb), b ∈ rest → b.sub (rest.foldl Aabb.enclose2 acc) := by
  intro rest
  induction rest generalizing acc with
  | nil => intro b hb; cases hb
  | cons c cs ih =>
    intro b hb
    rcases List.mem_cons.mp hb with h | h
    · subst h
      exact aabbSub_trans (sub_enclose2_right acc b) (sub_foldl_enclose2 _ cs)
    · exact ih (Aabb.enclose2 acc c) b h

/-- Every member box is contained in `enclose_aabbs`. -/
theorem mem_sub_encloseAabbs {bs : List Aabb} {b : Aabb} (hb : b ∈ bs) :
    b.sub (Aabb.encloseAabbs bs) := by
  cases bs with
  | nil => cases hb
  | cons c cs =>
    unfold Aabb.encloseAabbs
    rcases List.mem_cons.mp hb with h | h
    · subst h; exact sub_foldl_enclose2 b cs
    · exact mem_sub_foldl_enclose2 c cs b h

/-- The enclosure of a nonempty family of boxes inside a big box is
inside it. -/
theorem encloseAabbs_sub {bs : List Aabb} {big : Aabb} (hne : bs ≠ [])
    (hall : ∀ b ∈ bs, b.sub big) : (Aabb.encloseAabbs bs).sub big := by
  cases bs with
  | nil => exact absurd rfl hne
  | cons c cs =>
    unfold Aabb.encloseAabbs
    have hstep : ∀ (l : List Aabb) (acc : Aabb), acc.sub big → (∀ b ∈ l, b.sub big) →
        (l.foldl Aabb.enclose2 acc).sub big := by
      intro l
      induction l with
      | nil => intro acc ha _; exact ha
      | cons d ds ih =>
        intro acc ha hl
        exact ih (Aabb.enclose2 acc d) (enclose2_sub ha (hl d (by simp)))
          (fun b hb => hl b (by simp [hb]))
    exact hstep cs c (hall c (by simp)) (fun b hb => hall b (by simp [hb]))

/-- The box enclosing three points contains each of them. -/
theorem enclosePoints3_contains (a b c : SVector3) :
    (Aabb.enclosePoints [a, b, c]).containsPoint a ∧
    (Aabb.enclosePoints [a, b, c]).containsPoint b ∧
    (Aabb.enclosePoints [a, b, c]).containsPoint c := by
  simp only [Aabb.enclosePoints, List.foldl_cons, List.foldl_nil, Aabb.containsPoint]
  simp only [origin_ofCorners, far_ofCorners, SVector3.minv, SVector3.maxv]
  refine ⟨⟨?_, ?_, ?_, ?_, ?_, ?_⟩, ⟨?_, ?_, ?_, ?_, ?_, ?_⟩, ⟨?_, ?_, ?_, ?_, ?_, ?_⟩⟩ <;>
    simp [min_le_iff, le_max_iff]

/-- One axis of the slab test brackets the parameter of any point of the
ray inside the slab. -/
theorem axisSlab_bounds (lo hi oc dc t : ℚ)
    (h1 : lo ≤ oc + t * dc) (h2 : oc + t * dc ≤ hi) :
    (axisSlab lo hi oc dc).1 ≤ qe t ∧ qe t ≤ (axisSlab lo hi oc dc).2 := by
  unfold axisSlab
  rcases eq_or_ne dc 0 with hz | hz
  · subst hz
    rw [if_pos rfl]
    have hin : lo ≤ oc ∧ oc ≤ hi := by constructor <;> nlinarith
    rw [if_pos hin]
    exact ⟨eqBot_le _, le_eqTop _⟩
  · rw [if_neg hz]
    rcases lt_or_gt_of_ne hz with hneg | hpos
    · have ha : (hi - oc) / dc ≤ t := by
        rw [div_le_iff_of_neg hneg]
        nlinarith
      have hb : t ≤ (lo - oc) / dc := by
        rw [le_div_iff_of_neg hneg]
        nlinarith
      constructor
      · exact qe_le_qe.mpr (le_trans (min_le_right _ _) ha)
      · exact qe_le_qe.mpr (le_trans hb (le_max_left _ _))
    · have ha : (lo - oc) / dc ≤ t := by
        rw [div_le_iff₀ hpos]
        nlinarith
      have hb : t ≤ (hi - oc) / dc := by
        rw [le_div_iff₀ hpos]
        nlinarith
      constructor
      · exact qe_le_qe.mpr (le_trans (min_le_left _ _) ha)
      · exact qe_le_qe.mpr (le_trans hb (le_max_right _ _))

/-- Slab soundness: a point of the ray inside the box at a nonnegative
parameter makes the slab test hit, with a near distance at most that
parameter. -/
theorem slabLane_sound (B : Aabb) (o d : SVector3) (t : ℚ) (ht : 0 ≤ t)
    (hp : B.containsPoint (o.add (SVector3.smul t d))) :
    (slabLane B o d).1 ≤ qe t ∧ (slabLane B o d).2 = true := by
  obtain ⟨g1, g2, g3, g4, g5, g6⟩ := hp
  simp only [SVector3.add, SVector3.smul] at g1 g2 g3 g4 g5 g6
  have hx := axisSlab_bounds B.origin.x B.far.x o.x d.x t (by nlinarith) (by nlinarith)
  have hy := axisSlab_bounds B.origin.y B.far.y o.y d.y t (by nlinarith) (by nlinarith)
  have hz := axisSlab_bounds B.origin.z B.far.z o.z d.z t (by nlinarith) (by nlinarith)
  unfold slabLane
  simp only
  have hnear : max (axisSlab B.origin.x B.far.x o.x d.x).1
      (max (axisSlab B.origin.y B.far.y o.y d.y).1
        (axisSlab B.origin.z B.far.z o.z d.z).1) ≤ qe t :=
    max_le hx.1 (max_le hy.1 hz.1)
  have hfar : qe t ≤ min (axisSlab B.origin.x B.far.x o.x d.x).2
      (min (axisSlab B.origin.y B.far.y o.y d.y).2
        (axisSlab B.origin.z B.far.z o.z d.z).2) :=
    le_min hx.2 (le_min hy.2 hz.2)
  refine ⟨hnear, ?_⟩
  rw [decide_eq_true_iff]
  exact ⟨le_trans hnear hfar, le_trans (qe_le_qe.mpr ht) hfar⟩

/-- The Moller-Trumbore solution satisfies the ray-plane equation: the
candidate point on the ray is the barycentric combination of the
vertices (Cramer's rule, exact arithmetic). -/
theorem mt_identity (T : Triangle) (o d : SVector3)
    (hdet : (T.v1.sub T.v0).dot (d.cross (T.v2.sub T.v0)) ≠ 0) :
    (o.x + (((T.v2.sub T.v0).dot ((o.sub T.v0).cross (T.v1.sub T.v0))) /
        ((T.v1.sub T.v0).dot (d.cross (T.v2.sub T.v0)))) * d.x =
      (1 - ((o.sub T.v0).dot (d.cross (T.v2.sub T.v0))) /
          ((T.v1.sub T.v0).dot (d.cross (T.v2.sub T.v0))) -
        (d.dot ((o.sub T.v0).cross (T.v1.sub T.v0))) /
          ((T.v1.sub T.v0).dot (d.cross (T.v2.sub T.v0)))) * T.v0.x +
      (((o.sub T.v0).dot (d.cross (T.v2.sub T.v0))) /
          ((T.v1.sub T.v0).dot (d.cross (T.v2.sub T.v0)))) * T.v1.x +
      ((d.dot ((o.sub T.v0).cross (T.v1.sub T.v0))) /
          ((T.v1.sub T.v0).dot (d.cross (T.v2.sub T.v0)))) * T.v2.x) ∧
    (o.y + (((T.v2.sub T.v0).dot ((o.sub T.v0).cross (T.v1.sub T.v0))) /
        ((T.v1.sub T.v0).dot (d.cross (T.v2.sub T.v0)))) * d.y =
      (1 - ((o.sub T.v0).dot (d.cross (T.v2.sub T.v0))) /
          ((T.v1.sub T.v0).dot (d.cross (T.v2.sub T.v0))) -
        (d.dot ((o.sub T.v0).cross (T.v1.sub T.v0))) /
          ((T.v1.sub T.v0).dot (d.cross (T.v2.sub T.v0)))) * T.v0.y +
      (((o.sub T.v0).dot (d.cross (T.v2.sub T.v0))) /
          ((T.v1.sub T.v0).dot (d.cross (T.v2.sub T.v0)))) * T.v1.y +
      ((d.dot ((o.sub T.v0).cross (T.v1.sub T.v0))) /
          ((T.v1.sub T.v0).dot (d.cross (T.v2.sub T.v0)))) * T.v2.y) ∧
    (o.z + (((T.v2.sub T.v0).dot ((o.sub T.v0).cross (T.v1.sub T.v0))) /
        ((T.v1.sub T.v0).dot (d.cross (T.v2.sub T.v0)))) * d.z =
      (1 - ((o.sub T.v0).dot (d.cross (T.v2.sub T.v0))) /
          ((T.v1.sub T.v0).dot (d.cross (T.v2.sub T.v0))) -
        (d.dot ((o.sub T.v0).cross (T.v1.sub T.v0))) /
          ((T.v1.sub T.v0).dot (d.cross (T.v2.sub T.v0)))) * T.v0.z +
      (((o.sub T.v0).dot (d.cross (T.v2.sub T.v0))) /
          ((T.v1.sub T.v0).dot (d.cross (T.v2.sub T.v0)))) * T.v1.z +
      ((d.dot ((o.sub T.v0).cross (T.v1.sub T.v0))) /
          ((T.v1.sub T.v0).dot (d.cross (T.v2.sub T.v0)))) * T.v2.z) := by
  simp only [SVector3.dot, SVector3.cross, SVector3.sub] at hdet ⊢
  refine ⟨?_, ?_, ?_⟩ <;> (field_simp; ring)

/-- A convex combination of three values between two bounds stays between
them. -/
theorem convex_bound (u v a0 a1 a2 lo hi : ℚ)
    (hu : 0 ≤ u) (hv : 0 ≤ v) (huv : u + v ≤ 1)
    (h0 : lo ≤ a0) (h0h : a0 ≤ hi) (h1 : lo ≤ a1) (h1h : a1 ≤ hi)
    (h2 : lo ≤ a2) (h2h : a2 ≤ hi) :
    lo ≤ (1 - u - v) * a0 + u * a1 + v * a2 ∧ (1 - u - v) * a0 + u * a1 + v * a2 ≤ hi := by
  have hw : (0 : ℚ) ≤ 1 - u - v := by linarith
  constructor
  · nlinarith [mul_nonneg hw (sub_nonneg.mpr h0), mul_nonneg hu (sub_nonneg.mpr h1),
      mul_nonneg hv (sub_nonneg.mpr h2)]
  · nlinarith [mul_nonneg hw (sub_nonneg.mpr h0h), mul_nonneg hu (sub_nonneg.mpr h1h),
      mul_nonneg hv (sub_nonneg.mpr h2h)]

/-- A successful Moller-Trumbore candidate lies inside every box containing
the three triangle vertices: the distance is strictly positive, the hit
point `o + t d` is in the box, and the record stores exactly that point,
the face normal and the distance. -/
theorem candidate_mem_box (T : Triangle) (o d : SVector3) (tq : ℚ) (rec : LaneRec) (B : Aabb)
    (hc : T.candidate o d = some (tq, rec))
    (h0 : B.containsPoint T.v0) (h1 : B.containsPoint T.v1) (h2 : B.containsPoint T.v2) :
    0 < tq ∧ B.containsPoint (o.add (SVector3.smul tq d)) ∧
      rec = ⟨o.add (SVector3.smul tq d), T.normalOf, tq⟩ := by
  simp only [Triangle.candidate] at hc
  split_ifs at hc with hdet hcond
  · obtain ⟨hu, hv, huv, ht⟩ := hcond
    rw [Option.some.injEq, Prod.mk.injEq] at hc
    obtain ⟨htq, hrec⟩ := hc
    subst htq
    refine ⟨ht, ?_, hrec.symm⟩
    obtain ⟨hidx, hidy, hidz⟩ := mt_identity T o d hdet
    obtain ⟨b0x, b0xh, b0y, b0yh, b0z, b0zh⟩ := h0
    obtain ⟨b1x, b1xh, b1y, b1yh, b1z, b1zh⟩ := h1
    obtain ⟨b2x, b2xh, b2y, b2yh, b2z, b2zh⟩ := h2
    simp only [Aabb.containsPoint, SVector3.add, SVector3.smul]
    refine ⟨?_, ?_, ?_, ?_, ?_, ?_⟩
    · rw [hidx]
      exact (convex_bound _ _ _ _ _ _ _ hu hv huv b0x b0xh b1x b1xh b2x b2xh).1
    · rw [hidx]
      exact (convex_bound _ _ _ _ _ _ _ hu hv huv b0x b0xh b1x b1xh b2x b2xh).2
    · rw [hidy]
      exact (convex_bound _ _ _ _ _ _ _ hu hv huv b0y b0yh b1y b1yh b2y b2yh).1
    · rw [hidy]
      exact (convex_bound _ _ _ _ _ _ _ hu hv huv b0y b0yh b1y b1yh b2y b2yh).2
    · rw [hidz]
      exact (convex_bound _ _ _ _ _ _ _ hu hv huv b0z b0zh b1z b1zh b2z b2zh).1
    · rw [hidz]
      exact (convex_bound _ _ _ _ _ _ _ hu hv huv b0z b0zh b1z b1zh b2z b2zh).2

/-- The record inside a successful candidate is determined by the distance:
hit point on the ray, face normal, and the distance itself. -/
theorem candidate_record (t : Triangle) (o d : SVector3) (c : ℚ × LaneRec)
    (hc : t.candidate o d = some c) :
    c.2 = ⟨o.add (SVector3.smul c.1 d), t.normalOf, c.1⟩ := by
  simp only [Triangle.candidate] at hc
  split_ifs at hc
  rw [Option.some.injEq] at hc
  subst hc
  rfl

/-- A successful candidate has a strictly positive distance. -/
theorem candidate_pos (t : Triangle) (o d : SVector3) (c : ℚ × LaneRec)
    (hc : t.candidate o d = some c) : 0 < c.1 := by
  simp only [Triangle.candidate] at hc
  split_ifs at hc with h1 h2
  rw [Option.some.injEq] at hc
  subst hc
  exact h2.2.2.2

/-- The distance component of one lane update is `distUpd`. -/
theorem intersectLane_dist (t : Triangle) (o d : SVector3) (rec : LaneRec) :
    (t.intersectLane o d rec).dist = distUpd t o d rec.dist := by
  cases hc : t.candidate o d with
  | none => simp only [Triangle.intersectLane, distUpd, hc]
  | some c =>
    obtain ⟨cd, crec⟩ := c
    have h2 : crec = ⟨o.add (SVector3.smul cd d), t.normalOf, cd⟩ :=
      candidate_record t o d (cd, crec) hc
    simp only [Triangle.intersectLane, distUpd, hc]
    split_ifs with hlt
    · rw [h2]
    · rfl

/-- Lane projection of the packet triangle intersection. -/
theorem intersect_lane (t : Triangle) (ray : MRay) (isect : MIntersection) (k : Fin 8) :
    (t.intersect ray isect).lane k =
      t.intersectLane (ray.origin.lane k) (ray.direction.lane k) (isect.lane k) := rfl

/-- Lane projection of the brute-force fold. -/
theorem bruteForce_lane (tris : List Triangle) (ray : MRay) (isect : MIntersection) (k : Fin 8) :
    (bruteForce tris ray isect).lane k =
      laneFold tris (ray.origin.lane k) (ray.direction.lane k) (isect.lane k) := by
  induction tris generalizing isect with
  | nil => rfl
  | cons t ts ih =>
    show (bruteForce ts ray (t.intersect ray isect)).lane k = _
    rw [ih (t.intersect ray isect), intersect_lane]
    rfl

/-- The distance component of the per-lane fold is `laneDist`. -/
theorem laneFold_dist (L : List Triangle) (o d : SVector3) (rec : LaneRec) :
    (laneFold L o d rec).dist = laneDist L o d rec.dist := by
  induction L generalizing rec with
  | nil => rfl
  | cons t ts ih =>
    show (laneFold ts o d (t.intersectLane o d rec)).dist = laneDist ts o d (distUpd t o d rec.dist)
    rw [ih, intersectLane_dist]

/-- `distUpd` is the minimum of the candidate distance and the accumulator. -/
theorem distUpd_min (t : Triangle) (o d : SVector3) (a : ℚ) :
    distUpd t o d a = match t.candidate o d with | some c => min c.1 a | none => a := by
  unfold distUpd
  cases hc : t.candidate o d with
  | none => rfl
  | some c =>
    simp only
    rcases lt_trichotomy c.1 a with h | h | h
    · rw [if_pos h, min_eq_left h.le]
    · rw [h, if_neg (lt_irrefl _), min_self]
    · rw [if_neg (not_lt.mpr h.le), min_eq_right h.le]

/-- Two lane updates commute. -/
theorem distUpd_comm (t1 t2 : Triangle) (o d : SVector3) (a : ℚ) :
    distUpd t2 o d (distUpd t1 o d a) = distUpd t1 o d (distUpd t2 o d a) := by
  rw [distUpd_min t1, distUpd_min t2, distUpd_min t2, distUpd_min t1]
  cases h1 : t1.candidate o d <;> cases h2 : t2.candidate o d <;>
    simp only [min_left_comm]

/-- A lane update never increases the accumulator. -/
theorem distUpd_le (t : Triangle) (o d : SVector3) (a : ℚ) : distUpd t o d a ≤ a := by
  rw [distUpd_min]
  cases hc : t.candidate o d with
  | none => exact le_refl a
  | some c => exact min_le_right _ _

/-- A lane update keeps the accumulator when every candidate is at least as
far. -/
theorem distUpd_id_of (t : Triangle) (o d : SVector3) (a : ℚ)
    (h : ∀ c, t.candidate o d = some c → a ≤ c.1) : distUpd t o d a = a := by
  rw [distUpd_min]
  cases hc : t.candidate o d with
  | none => rfl
  | some c => exact min_eq_right (h c hc)

/-- `laneDist` over an appended list is composition. -/
theorem laneDist_append (L1 L2 : List Triangle) (o d : SVector3) (a : ℚ) :
    laneDist (L1 ++ L2) o d a = laneDist L2 o d (laneDist L1 o d a) :=
  List.foldl_append _ _ _ _

/-- A lane update commutes with a whole lane-distance fold. -/
theorem laneDist_distUpd_comm (L : List Triangle) (t : Triangle) (o d : SVector3) (a : ℚ) :
    laneDist L o d (distUpd t o d a) = distUpd t o d (laneDist L o d a) := by
  induction L generalizing a with
  | nil => rfl
  | cons s ss ih =>
    show laneDist ss o d (distUpd s o d (distUpd t o d a)) = _
    rw [distUpd_comm t s, ih]
    rfl

/-- Two lane-distance folds commute. -/
theorem laneDist_swap (L1 L2 : List Triangle) (o d : SVector3) (a : ℚ) :
    laneDist L2 o d (laneDist L1 o d a) = laneDist L1 o d (laneDist L2 o d a) := by
  induction L1 generalizing a with
  | nil => rfl
  | cons t ts ih =>
    show laneDist L2 o d (laneDist ts o d (distUpd t o d a)) = laneDist ts o d (distUpd t o d (laneDist L2 o d a))
    rw [ih, laneDist_distUpd_comm]

/-- A lane-distance fold keeps the accumulator when every list member's
candidate is at least as far. -/
theorem laneDist_id_of (L : List Triangle) (o d : SVector3) (a : ℚ)
    (h : ∀ t ∈ L, ∀ c, t.candidate o d = some c → a ≤ c.1) : laneDist L o d a = a := by
  induction L with
  | nil => rfl
  | cons t ts ih =>
    show laneDist ts o d (distUpd t o d a) = a
    rw [distUpd_id_of t o d a (h t (by simp))]
    exact ih (fun s hs => h s (by simp [hs]))

/-- Splitting a range of the triangle buffer at an interior point. -/
theorem rangeTriangles_split (tris : List Triangle) (lo mid hi : ℕ)
    (h1 : lo ≤ mid) (h2 : mid ≤ hi) :
    rangeTriangles tris lo hi = rangeTriangles tris lo mid ++ rangeTriangles tris mid hi := by
  unfold rangeTriangles
  rw [← List.map_append]
  congr 1
  have h3 : mid = lo + 1 * (mid - lo) := by omega
  have h5 := List.range'_append lo (mid - lo) (hi - mid) 1
  rw [← h3] at h5
  have h4 : hi - lo = (hi - mid) + (mid - lo) := by omega
  rw [h4]
  exact h5.symm

/-- Membership in a buffer range. -/
theorem mem_rangeTriangles (tris : List Triangle) (lo hi : ℕ) (t : Triangle) :
    t ∈ rangeTriangles tris lo hi ↔ ∃ j, lo ≤ j ∧ j < hi ∧ t = tris.getD j dummyTri := by
  unfold rangeTriangles
  rw [List.mem_map]
  constructor
  · rintro ⟨j, hj, rfl⟩
    rw [List.mem_range'_1] at hj
    exact ⟨j, by omega, by omega, rfl⟩
  · rintro ⟨j, hj1, hj2, rfl⟩
    exact ⟨j, List.mem_range'_1.mpr ⟨by omega, by omega⟩, rfl⟩

/-- The whole buffer as a range. -/
theorem rangeTriangles_all (tris : List Triangle) :
    rangeTriangles tris 0 tris.length = tris := by
  unfold rangeTriangles
  apply List.ext_getElem
  · simp
  · intro j h1 h2
    simp only [List.getElem_map, List.getElem_range', Nat.zero_add, Nat.one_mul]
    rw [List.getD_eq_getElem]

/-- The leaf loop is the brute-force fold over the leaf's buffer range. -/
theorem leafFold_eq_bruteForce (tris : List Triangle) (ray : MRay) (i len : ℕ)
    (isect : MIntersection) :
    leafFold tris ray i len isect = bruteForce (rangeTriangles tris i (i + len)) ray isect := by
  unfold leafFold bruteForce rangeTriangles
  rw [Nat.add_sub_cancel_left, List.foldl_map]
  rfl

/-- Dropping a stack range whose lane-distance fold is the identity. -/
theorem stackFoldDist_cons_id (tris : List Triangle) (g : ℕ × ℕ) (gs : List (ℕ × ℕ))
    (o d : SVector3) (a : ℚ)
    (h : ∀ b, laneDist (rangeTriangles tris g.1 g.2) o d b = b) :
    stackFoldDist tris (g :: gs) o d a = stackFoldDist tris gs o d a := by
  show stackFoldDist tris gs o d (laneDist (rangeTriangles tris g.1 g.2) o d a) = _
  rw [h a]

/-- The record after a per-lane fold: either untouched, or the candidate
record of some list member, strictly closer than the start. -/
theorem laneFold_cases (L : List Triangle) (o d : SVector3) (rec : LaneRec) :
    laneFold L o d rec = rec ∨
      ((laneFold L o d rec).dist < rec.dist ∧
        ∃ t ∈ L, ∃ c, t.candidate o d = some c ∧ laneFold L o d rec = c.2) := by
  induction L generalizing rec with
  | nil => left; rfl
  | cons t ts ih =>
    have hstep : laneFold (t :: ts) o d rec = laneFold ts o d (t.intersectLane o d rec) := rfl
    cases hc : t.candidate o d with
    | none =>
      have hrec : t.intersectLane o d rec = rec := by
        simp only [Triangle.intersectLane, hc]
      rw [hstep, hrec]
      rcases ih rec with h | ⟨hlt, s, hs, c, hsc, heq⟩
      · exact Or.inl h
      · exact Or.inr ⟨hlt, s, by simp [hs], c, hsc, heq⟩
    | some c =>
      obtain ⟨cd, crec⟩ := c
      by_cases hlt : cd < rec.dist
      · have hrec : t.intersectLane o d rec = crec := by
          simp only [Triangle.intersectLane, hc, if_pos hlt]
        have hcd : crec.dist = cd := by
          have h2 : crec = ⟨o.add (SVector3.smul cd d), t.normalOf, cd⟩ :=
            candidate_record t o d (cd, crec) hc
          rw [h2]
        rw [hstep, hrec]
        rcases ih crec with h | ⟨hlt2, s, hs, c2, hsc, heq⟩
        · right
          refine ⟨?_, t, by simp, (cd, crec), hc, h⟩
          rw [h, hcd]
          exact hlt
        · right
          refine ⟨?_, s, by simp [hs], c2, hsc, heq⟩
          calc (laneFold ts o d crec).dist < crec.dist := hlt2
            _ = cd := hcd
            _ < rec.dist := hlt
      · have hrec : t.intersectLane o d rec = rec := by
          simp only [Triangle.intersectLane, hc, if_neg hlt]
        rw [hstep, hrec]
        rcases ih rec with h | ⟨hlt2, s, hs, c2, hsc, heq⟩
        · exact Or.inl h
        · exact Or.inr ⟨hlt2, s, by simp [hs], c2, hsc, heq⟩

/-- An indexed read through `getD` agrees with a successful `get?`. -/
theorem getD_of_get? {α : Type} (l : List α) (i : ℕ) (x d : α)
    (h : l.get? i = some x) : l.getD i d = x := by
  induction l generalizing i with
  | nil => cases h
  | cons a as ih =>
    cases i with
    | zero => exact Option.some.inj h
    | succ n => exact ih n h

/-- A successful `get?` witnesses that the index is in range. -/
theorem get?_some_lt {α : Type} {l : List α} {n : ℕ} {x : α}
    (h : l.get? n = some x) : n < l.length := by
  by_contra hge
  rw [List.get?_eq_none.mpr (by omega)] at h
  cases h

/-- A crystallized subtree's buffer range is nonempty. -/
theorem crys_lo_lt_hi {t : InterimNode} {nodes : List BvhNode} {tris : List Triangle}
    {S : Set ℕ} {sz i lo hi : ℕ} (h : Crys t nodes tris S sz i lo hi) : lo < hi := by
  induction h with
  | leaf t nodes tris i lo h1 h2 h3 h4 =>
    have hlen : t.triangles.length ≠ 0 := fun h0 => h2 (List.length_eq_zero.mp h0)
    omega
  | node t l r nodes tris Sl Sr szl szr i c lo mid hi h1 h2 h3 h4 h5 h6 h7 ih1 ih2 => omega

/-- A crystallized subtree holds at least one node. -/
theorem crys_sz_pos {t : InterimNode} {nodes : List BvhNode} {tris : List Triangle}
    {S : Set ℕ} {sz i lo hi : ℕ} (h : Crys t nodes tris S sz i lo hi) : 1 ≤ sz := by
  induction h with
  | leaf t nodes tris i lo h1 h2 h3 h4 => exact le_refl 1
  | node t l r nodes tris Sl Sr szl szr i c lo mid hi h1 h2 h3 h4 h5 h6 h7 ih1 ih2 => omega

/-- A crystallized subtree over a range of n triangles holds fewer than 2n
nodes. -/
theorem crys_sz_le {t : InterimNode} {nodes : List BvhNode} {tris : List Triangle}
    {S : Set ℕ} {sz i lo hi : ℕ} (h : Crys t nodes tris S sz i lo hi) :
    sz + 1 ≤ 2 * (hi - lo) := by
  induction h with
  | leaf t nodes tris i lo h1 h2 h3 h4 =>
    have hlen : t.triangles.length ≠ 0 := fun h0 => h2 (List.length_eq_zero.mp h0)
    omega
  | node t l r nodes tris Sl Sr szl szr i c lo mid hi h1 h2 h3 h4 h5 h6 h7 ih1 ih2 =>
    have g1 := crys_lo_lt_hi h6
    have g2 := crys_lo_lt_hi h7
    omega

/-- The root slot of a crystallized subtree stores a node. -/
theorem crys_get {t : InterimNode} {nodes : List BvhNode} {tris : List Triangle}
    {S : Set ℕ} {sz i lo hi : ℕ} (h : Crys t nodes tris S sz i lo hi) :
    ∃ bn, nodes.get? i = some bn ∧ bn.aabb = t.outerAabb := by
  induction h with
  | leaf t nodes tris i lo h1 h2 h3 h4 => exact ⟨_, h3, rfl⟩
  | node t l r nodes tris Sl Sr szl szr i c lo mid hi h1 h2 h3 h4 h5 h6 h7 ih1 ih2 =>
    exact ⟨_, h2, rfl⟩

/-- Every triangle in a crystallized subtree's range lies in the subtree's
outer box. -/
theorem crys_verts {t : InterimNode} {nodes : List BvhNode} {tris : List Triangle}
    {S : Set ℕ} {sz i lo hi : ℕ} (h : Crys t nodes tris S sz i lo hi) :
    ∀ j, lo ≤ j → j < hi →
      ∃ tri, tris.get? j = some tri ∧ t.outerAabb.containsPoint tri.v0 ∧
        t.outerAabb.containsPoint tri.v1 ∧ t.outerAabb.containsPoint tri.v2 := by
  induction h with
  | leaf t nodes tris i lo h1 h2 h3 h4 => exact h4
  | node t l r nodes tris Sl Sr szl szr i c lo mid hi h1 h2 h3 h4 h5 h6 h7 ih1 ih2 =>
    intro j hj1 hj2
    rcases lt_or_ge j mid with hm | hm
    · obtain ⟨tri, hget, hv0, hv1, hv2⟩ := ih1 j hj1 hm
      exact ⟨tri, hget, sub_containsPoint h4 hv0, sub_containsPoint h4 hv1,
        sub_containsPoint h4 hv2⟩
    · obtain ⟨tri, hget, hv0, hv1, hv2⟩ := ih2 j hm hj2
      exact ⟨tri, hget, sub_containsPoint h5 hv0, sub_containsPoint h5 hv1,
        sub_containsPoint h5 hv2⟩

/-- Every slot of a crystallized subtree roots a crystallized subtree of
its own. -/
theorem crys_slots {t : InterimNode} {nodes : List BvhNode} {tris : List Triangle}
    {S : Set ℕ} {sz i lo hi : ℕ} (h : Crys t nodes tris S sz i lo hi) :
    ∀ j ∈ S, ∃ t' S' sz' lo' hi', Crys t' nodes tris S' sz' j lo' hi' := by
  induction h with
  | leaf t nodes tris i lo h1 h2 h3 h4 =>
    intro j hj
    rw [Set.mem_singleton_iff] at hj
    subst hj
    exact ⟨t, _, _, _, _, Crys.leaf t nodes tris j lo h1 h2 h3 h4⟩
  | node t l r nodes tris Sl Sr szl szr i c lo mid hi h1 h2 h3 h4 h5 h6 h7 ih1 ih2 =>
    intro j hj
    rcases hj with (hj | hj) | hj
    · rw [Set.mem_singleton_iff] at hj
      subst hj
      exact ⟨t, _, _, _, _, Crys.node t l r nodes tris Sl Sr szl szr j c lo mid hi
        h1 h2 h3 h4 h5 h6 h7⟩
    · exact ih1 j hj
    · exact ih2 j hj

/-- Every internal node of a crystallized subtree stores an even child
index with both child slots in range. -/
theorem crys_internal_pairs {t : InterimNode} {nodes : List BvhNode} {tris : List Triangle}
    {S : Set ℕ} {sz i lo hi : ℕ} (h : Crys t nodes tris S sz i lo hi) :
    ∀ j ∈ S, ∀ bn, nodes.get? j = some bn → bn.len = 0 →
      Even bn.index ∧ bn.index + 1 < nodes.length := by
  induction h with
  | leaf t nodes tris i lo h1 h2 h3 h4 =>
    intro j hj bn hbn hlen
    rw [Set.mem_singleton_iff] at hj
    subst hj
    have hb := Option.some.inj (h3.symm.trans hbn)
    subst hb
    have hlen' : t.triangles.length = 0 := hlen
    exact absurd (List.length_eq_zero.mp hlen') h2
  | node t l r nodes tris Sl Sr szl szr i c lo mid hi h1 h2 h3 h4 h5 h6 h7 ih1 ih2 =>
    intro j hj bn hbn hlen
    rcases hj with (hj | hj) | hj
    · rw [Set.mem_singleton_iff] at hj
      subst hj
      have hb := Option.some.inj (h2.symm.trans hbn)
      subst hb
      obtain ⟨bnr, hbnr, _⟩ := crys_get h7
      exact ⟨h3, get?_some_lt hbnr⟩
    · exact ih1 j hj bn hbn hlen
    · exact ih2 j hj bn hbn hlen

/-- Crystallization facts survive array changes outside the subtree's
slots and range. -/
theorem crys_mono {t : InterimNode} {nodes : List BvhNode} {tris : List Triangle}
    {S : Set ℕ} {sz i lo hi : ℕ} (h : Crys t nodes tris S sz i lo hi) :
    ∀ (nodes' : List BvhNode) (tris' : List Triangle),
      (∀ j ∈ S, nodes'.get? j = nodes.get? j) →
      (∀ j, lo ≤ j → j < hi → tris'.get? j = tris.get? j) →
      Crys t nodes' tris' S sz i lo hi := by
  induction h with
  | leaf t nodes tris i lo h1 h2 h3 h4 =>
    intro nodes' tris' hn ht
    refine Crys.leaf t nodes' tris' i lo h1 h2 ?_ ?_
    · rw [hn i (Set.mem_singleton i)]
      exact h3
    · intro j hj1 hj2
      obtain ⟨tri, hget, hv⟩ := h4 j hj1 hj2
      exact ⟨tri, (ht j hj1 hj2).trans hget, hv⟩
  | node t l r nodes tris Sl Sr szl szr i c lo mid hi h1 h2 h3 h4 h5 h6 h7 ih1 ih2 =>
    intro nodes' tris' hn ht
    have hmid1 := crys_lo_lt_hi h6
    have hmid2 := crys_lo_lt_hi h7
    refine Crys.node t l r nodes' tris' Sl Sr szl szr i c lo mid hi h1 ?_ h3 h4 h5 ?_ ?_
    · rw [hn i (Set.mem_union_left _ (Set.mem_union_left _ (Set.mem_singleton i)))]
      exact h2
    · exact ih1 nodes' tris'
        (fun j hj => hn j (Set.mem_union_left _ (Set.mem_union_right _ hj)))
        (fun j hj1 hj2 => ht j hj1 (by omega))
    · exact ih2 nodes' tris'
        (fun j hj => hn j (Set.mem_union_right _ hj))
        (fun j hj1 hj2 => ht j (by omega) hj2)

/-- A lane-distance fold never increases the accumulator. -/
theorem laneDist_le (L : List Triangle) (o d : SVector3) (a : ℚ) :
    laneDist L o d a ≤ a := by
  induction L generalizing a with
  | nil => exact le_refl a
  | cons t ts ih =>
    show laneDist ts o d (distUpd t o d a) ≤ a
    exact le_trans (ih (distUpd t o d a)) (distUpd_le t o d a)

/-- A ghost-stack fold never increases the accumulator. -/
theorem stackFoldDist_le (tris : List Triangle) (gs : List (ℕ × ℕ)) (o d : SVector3) (a : ℚ) :
    stackFoldDist tris gs o d a ≤ a := by
  induction gs generalizing a with
  | nil => exact le_refl a
  | cons g gs ih =>
    show stackFoldDist tris gs o d (laneDist (rangeTriangles tris g.1 g.2) o d a) ≤ a
    exact le_trans (ih _) (laneDist_le _ o d a)

/-- Ghost fuel of a cons. -/
theorem ghostFuel_cons (g : (ℕ × ℕ) × ℕ) (gs : List ((ℕ × ℕ) × ℕ)) :
    ghostFuel (g :: gs) = g.2 + ghostFuel gs := rfl

/-- The skip step of the traversal loop. -/
theorem bvhGo_skip (bvh : Bvh) (ray : MRay) (fuel : ℕ) (ai : AabbIsect) (node : BvhNode)
    (rest : List (AabbIsect × BvhNode)) (isect : MIntersection)
    (h : ai.isFurtherAwayThan isect.distance = true) :
    bvhGo bvh ray (fuel + 1) ((ai, node) :: rest) isect = bvhGo bvh ray fuel rest isect := by
  unfold bvhGo
  rw [if_pos h]
  exact bvhGo.eq_def bvh ray fuel rest isect

/-- The leaf step of the traversal loop. -/
theorem bvhGo_leaf (bvh : Bvh) (ray : MRay) (fuel : ℕ) (ai : AabbIsect) (node : BvhNode)
    (rest : List (AabbIsect × BvhNode)) (isect : MIntersection)
    (h : ai.isFurtherAwayThan isect.distance = false) (hlen : node.len ≠ 0) :
    bvhGo bvh ray (fuel + 1) ((ai, node) :: rest) isect =
      bvhGo bvh ray fuel rest (leafFold bvh.triangles ray node.index node.len isect) := by
  unfold bvhGo
  rw [if_neg (by simp [h]), if_neg hlen]
  exact bvhGo.eq_def bvh ray fuel rest (leafFold bvh.triangles ray node.index node.len isect)

/-- The interior step of the traversal loop: push the hit children, second
child on top. -/
theorem bvhGo_node (bvh : Bvh) (ray : MRay) (fuel : ℕ) (ai : AabbIsect) (node : BvhNode)
    (rest : List (AabbIsect × BvhNode)) (isect : MIntersection)
    (h : ai.isFurtherAwayThan isect.distance = false) (hlen : node.len = 0) :
    bvhGo bvh ray (fuel + 1) ((ai, node) :: rest) isect =
      bvhGo bvh ray fuel
        (if (((bvh.nodes.getD (node.index + 1) BvhNode.new).aabb.intersect ray).anyHit : Bool)
          then (((bvh.nodes.getD (node.index + 1) BvhNode.new).aabb.intersect ray),
                bvh.nodes.getD (node.index + 1) BvhNode.new) ::
            (if (((bvh.nodes.getD node.index BvhNode.new).aabb.intersect ray).anyHit : Bool)
              then (((bvh.nodes.getD node.index BvhNode.new).aabb.intersect ray),
                    bvh.nodes.getD node.index BvhNode.new) :: rest
              else rest)
          else
            (if (((bvh.nodes.getD node.index BvhNode.new).aabb.intersect ray).anyHit : Bool)
              then (((bvh.nodes.getD node.index BvhNode.new).aabb.intersect ray),
                    bvh.nodes.getD node.index BvhNode.new) :: rest
              else rest)) isect := by
  unfold bvhGo
  rw [if_neg (by simp [h]), if_pos hlen]
  exact bvhGo.eq_def bvh ray fuel _ isect

/-- Unfolding of the ghost-stack fold on a cons. -/
theorem stackFoldDist_cons (tris : List Triangle) (g : ℕ × ℕ) (gs : List (ℕ × ℕ))
    (o d : SVector3) (a : ℚ) :
    stackFoldDist tris (g :: gs) o d a =
      stackFoldDist tris gs o d (laneDist (rangeTriangles tris g.1 g.2) o d a) := rfl

/-- A buffer range whose triangles sit inside a crystallized subtree's box:
if every candidate the lane ray finds in that box is no closer than `a`,
the range's lane-distance fold keeps `a`. -/
theorem laneDist_id_of_box (tris : List Triangle) (B : Aabb) (lo hi : ℕ)
    (o d : SVector3) (a : ℚ)
    (hv : ∀ j, lo ≤ j → j < hi → ∃ tri, tris.get? j = some tri ∧
      B.containsPoint tri.v0 ∧ B.containsPoint tri.v1 ∧ B.containsPoint tri.v2)
    (hcond : ∀ tq : ℚ, 0 < tq → (slabLane B o d).1 ≤ qe tq →
      (slabLane B o d).2 = true → a ≤ tq) :
    laneDist (rangeTriangles tris lo hi) o d a = a := by
  apply laneDist_id_of
  intro t' ht' c hc
  obtain ⟨j, hj1, hj2, hjt⟩ := (mem_rangeTriangles tris lo hi t').mp ht'
  obtain ⟨tri, hget, hv0, hv1, hv2⟩ := hv j hj1 hj2
  have htri : t' = tri := by rw [hjt, getD_of_get? tris j tri dummyTri hget]
  subst htri
  obtain ⟨hpos, hmem, _⟩ := candidate_mem_box t' o d c.1 c.2 B (by rw [← hc]) hv0 hv1 hv2
  obtain ⟨hnear, hhit⟩ := slabLane_sound B o d c.1 hpos.le hmem
  exact hcond c.1 hpos hnear hhit

/-- Every triangle of a covered buffer range is a member of the buffer. -/
theorem range_mem_buffer (tris : List Triangle) (lo hi : ℕ) (t' : Triangle)
    (hv : ∀ j, lo ≤ j → j < hi → ∃ tri, tris.get? j = some tri ∧
      True ∧ True ∧ True)
    (ht' : t' ∈ rangeTriangles tris lo hi) : t' ∈ tris := by
  obtain ⟨j, hj1, hj2, hjt⟩ := (mem_rangeTriangles tris lo hi t').mp ht'
  obtain ⟨tri, hget, _⟩ := hv j hj1 hj2
  rw [hjt, getD_of_get? tris j tri dummyTri hget]
  exact List.get?_mem hget

/-- The traversal loop invariant: with every stack entry rooted in a
crystallized subtree (ghost-described) and enough fuel, the loop's
per-lane distance equals the ghost-ordered fold of the subtree ranges, and
the per-lane record is either untouched or the candidate record of a
strictly closer buffer triangle. -/
theorem bvhGo_master (bvh : Bvh) (ray : MRay) :
    ∀ (fuel : ℕ) (stack : List (AabbIsect × BvhNode)) (ghost : List ((ℕ × ℕ) × ℕ))
      (isect : MIntersection),
      List.Forall₂ (EntryOk bvh ray) stack ghost →
      ghostFuel ghost ≤ fuel →
      ∀ k : Fin 8,
        (bvhGo bvh ray fuel stack isect).distance k =
          stackFoldDist bvh.triangles (ghost.map Prod.fst)
            (ray.origin.lane k) (ray.direction.lane k) (isect.distance k) ∧
        ((bvhGo bvh ray fuel stack isect).lane k = isect.lane k ∨
          ∃ t' ∈ bvh.triangles, ∃ c,
            t'.candidate (ray.origin.lane k) (ray.direction.lane k) = some c ∧
            (bvhGo bvh ray fuel stack isect).lane k = c.2 ∧ c.1 < isect.distance k) := by
  intro fuel
  induction fuel with
  | zero =>
    intro stack ghost isect hf hfuel k
    cases stack with
    | nil =>
      cases hf
      exact ⟨rfl, Or.inl rfl⟩
    | cons e rest =>
      cases ghost with
      | nil => cases hf
      | cons g gs =>
        exfalso
        cases hf with
        | cons he hrest =>
          obtain ⟨t, S, i, hcrys, -, -⟩ := he
          have h1 := crys_sz_pos hcrys
          rw [ghostFuel_cons] at hfuel
          omega
  | succ fuel ih =>
    intro stack ghost isect hf hfuel k
    cases stack with
    | nil =>
      cases hf
      exact ⟨rfl, Or.inl rfl⟩
    | cons e rest =>
      cases ghost with
      | nil => cases hf
      | cons g gs =>
        obtain ⟨ai, node⟩ := e
        obtain ⟨⟨glo, ghi⟩, gsz⟩ := g
        cases hf with
        | cons he hrest =>
          obtain ⟨t, S, i, hcrys0, hget0, hai0⟩ := he
          have hcrys : Crys t bvh.nodes bvh.triangles S gsz i glo ghi := hcrys0
          have hget : bvh.nodes.get? i = some node := hget0
          have hai : ai = node.aabb.intersect ray := hai0
          clear hcrys0 hget0 hai0
          rw [ghostFuel_cons] at hfuel
          have hfuel2 : gsz + ghostFuel gs ≤ fuel + 1 := hfuel
          clear hfuel
          rcases (Bool.eq_false_or_eq_true (ai.isFurtherAwayThan isect.distance)).symm with hskip | hskip
          · -- the entry is processed
            cases hcrys with
            | leaf _ _ _ _ _ h1 h2 h3 h4 =>
              have hnode : node = ⟨t.outerAabb, glo, t.triangles.length⟩ :=
                Option.some.inj (hget.symm.trans h3)
              have hidx : node.index = glo := by rw [hnode]
              have hlen2 : node.len = t.triangles.length := by rw [hnode]
              have hlen0 : node.len ≠ 0 := by
                rw [hlen2]
                exact fun h0 => h2 (List.length_eq_zero.mp h0)
              have hstep := bvhGo_leaf bvh ray fuel ai node rest isect hskip hlen0
              have hlane : (leafFold bvh.triangles ray node.index node.len isect).lane k =
                  laneFold (rangeTriangles bvh.triangles glo (glo + t.triangles.length))
                    (ray.origin.lane k) (ray.direction.lane k) (isect.lane k) := by
                rw [hidx, hlen2, leafFold_eq_bruteForce, bruteForce_lane]
              have hdist : (leafFold bvh.triangles ray node.index node.len isect).distance k =
                  laneDist (rangeTriangles bvh.triangles glo (glo + t.triangles.length))
                    (ray.origin.lane k) (ray.direction.lane k) (isect.distance k) := by
                have h5 := congrArg LaneRec.dist hlane
                rw [laneFold_dist] at h5
                exact h5
              have hres := ih rest gs (leafFold bvh.triangles ray node.index node.len isect)
                hrest (by omega) k
              constructor
              · rw [hstep, hres.1, hdist]
                rfl
              · rcases hres.2 with hA | ⟨t', ht', c, hc, heq, hlt⟩
                · rw [hstep, hA, hlane]
                  rcases laneFold_cases
                      (rangeTriangles bvh.triangles glo (glo + t.triangles.length))
                      (ray.origin.lane k) (ray.direction.lane k) (isect.lane k) with
                    hB | ⟨hlt2, t', ht', c, hc, heq2⟩
                  · exact Or.inl hB
                  · right
                    refine ⟨t', ?_, c, hc, heq2, ?_⟩
                    · exact range_mem_buffer _ _ _ t'
                        (fun j hj1 hj2 => by
                          obtain ⟨tri, hg, -⟩ := h4 j hj1 hj2
                          exact ⟨tri, hg, trivial, trivial, trivial⟩) ht'
                    · have hcd : c.2.dist = c.1 := by
                        have h6 : c.2 = ⟨(ray.origin.lane k).add
                            (SVector3.smul c.1 (ray.direction.lane k)), t'.normalOf, c.1⟩ :=
                          candidate_record t' (ray.origin.lane k) (ray.direction.lane k) c hc
                        rw [h6]
                      calc c.1 = c.2.dist := hcd.symm
                        _ = (laneFold (rangeTriangles bvh.triangles glo (glo + t.triangles.length))
                            (ray.origin.lane k) (ray.direction.lane k) (isect.lane k)).dist := by
                          rw [heq2]
                        _ < (isect.lane k).dist := hlt2
                        _ = isect.distance k := rfl
                · right
                  refine ⟨t', ht', c, hc, by rw [hstep]; exact heq, ?_⟩
                  calc c.1 < (leafFold bvh.triangles ray node.index node.len isect).distance k := hlt
                    _ = laneDist (rangeTriangles bvh.triangles glo (glo + t.triangles.length))
                        (ray.origin.lane k) (ray.direction.lane k) (isect.distance k) := hdist
                    _ ≤ isect.distance k := laneDist_le _ _ _ _
            | node _ l r _ _ Sl Sr szl szr _ cidx _ mid _ h1 h2 h3 h4 h5 h6 h7 =>
              have hnode : node = ⟨t.outerAabb, cidx, 0⟩ :=
                Option.some.inj (hget.symm.trans h2)
              have hidx : node.index = cidx := by rw [hnode]
              have hlen0 : node.len = 0 := by rw [hnode]
              have hstep := bvhGo_node bvh ray fuel ai node rest isect hskip hlen0
              rw [hidx] at hstep
              obtain ⟨bnl, hbnl, hbnlA⟩ := crys_get h6
              obtain ⟨bnr, hbnr, hbnrA⟩ := crys_get h7
              have hgl : bvh.nodes.getD cidx BvhNode.new = bnl := getD_of_get? _ _ _ _ hbnl
              have hgr : bvh.nodes.getD (cidx + 1) BvhNode.new = bnr := getD_of_get? _ _ _ _ hbnr
              rw [hgl, hgr] at hstep
              have hlm := crys_lo_lt_hi h6
              have hmh := crys_lo_lt_hi h7
              have hsplitacc : ∀ b : ℚ,
                  laneDist (rangeTriangles bvh.triangles glo ghi)
                    (ray.origin.lane k) (ray.direction.lane k) b =
                  laneDist (rangeTriangles bvh.triangles glo mid)
                    (ray.origin.lane k) (ray.direction.lane k)
                    (laneDist (rangeTriangles bvh.triangles mid ghi)
                      (ray.origin.lane k) (ray.direction.lane k) b) := by
                intro b
                rw [rangeTriangles_split bvh.triangles glo mid ghi hlm.le hmh.le,
                  laneDist_append, laneDist_swap]
              have hidL : (bnl.aabb.intersect ray).anyHit = false →
                  ∀ b : ℚ, laneDist (rangeTriangles bvh.triangles glo mid)
                    (ray.origin.lane k) (ray.direction.lane k) b = b := by
                intro hmiss b
                apply laneDist_id_of_box bvh.triangles l.outerAabb glo mid _ _ b (crys_verts h6)
                intro tq hpos hnear hhit
                exfalso
                simp only [AabbIsect.anyHit, decide_eq_false_iff_not] at hmiss
                apply hmiss
                refine ⟨k, ?_⟩
                show (slabLane bnl.aabb (ray.origin.lane k) (ray.direction.lane k)).2 = true
                rw [hbnlA]
                exact hhit
              have hidR : (bnr.aabb.intersect ray).anyHit = false →
                  ∀ b : ℚ, laneDist (rangeTriangles bvh.triangles mid ghi)
                    (ray.origin.lane k) (ray.direction.lane k) b = b := by
                intro hmiss b
                apply laneDist_id_of_box bvh.triangles r.outerAabb mid ghi _ _ b (crys_verts h7)
                intro tq hpos hnear hhit
                exfalso
                simp only [AabbIsect.anyHit, decide_eq_false_iff_not] at hmiss
                apply hmiss
                refine ⟨k, ?_⟩
                show (slabLane bnr.aabb (ray.origin.lane k) (ray.direction.lane k)).2 = true
                rw [hbnrA]
                exact hhit
              have heL : EntryOk bvh ray (bnl.aabb.intersect ray, bnl) ((glo, mid), szl) :=
                ⟨l, Sl, cidx, h6, hbnl, rfl⟩
              have heR : EntryOk bvh ray (bnr.aabb.intersect ray, bnr) ((mid, ghi), szr) :=
                ⟨r, Sr, cidx + 1, h7, hbnr, rfl⟩
              rcases (Bool.eq_false_or_eq_true ((bnr.aabb.intersect ray).anyHit)).symm with hA1 | hA1 <;>
                rcases (Bool.eq_false_or_eq_true ((bnl.aabb.intersect ray).anyHit)).symm with hA0 | hA0
              · -- both children missed
                rw [if_neg (by simp [hA1]), if_neg (by simp [hA0])] at hstep
                have hres := ih rest gs isect hrest (by omega) k
                constructor
                · rw [hstep, hres.1]
                  have hacc : laneDist (rangeTriangles bvh.triangles glo ghi)
                      (ray.origin.lane k) (ray.direction.lane k) (isect.distance k) =
                      isect.distance k := by
                    rw [hsplitacc, hidR hA1, hidL hA0]
                  exact (congrArg (stackFoldDist bvh.triangles (gs.map Prod.fst)
                    (ray.origin.lane k) (ray.direction.lane k)) hacc.symm)
                · rcases hres.2 with hA | ⟨t', ht', c, hc, heq, hlt⟩
                  · exact Or.inl (by rw [hstep]; exact hA)
                  · exact Or.inr ⟨t', ht', c, hc, by rw [hstep]; exact heq, hlt⟩
              · -- only the first child hit
                rw [if_neg (by simp [hA1]), if_pos hA0] at hstep
                have hres := ih ((bnl.aabb.intersect ray, bnl) :: rest)
                  (((glo, mid), szl) :: gs) isect (List.Forall₂.cons heL hrest)
                  (by rw [ghostFuel_cons]; omega) k
                constructor
                · rw [hstep, hres.1]
                  have hacc : laneDist (rangeTriangles bvh.triangles glo ghi)
                      (ray.origin.lane k) (ray.direction.lane k) (isect.distance k) =
                      laneDist (rangeTriangles bvh.triangles glo mid)
                        (ray.origin.lane k) (ray.direction.lane k) (isect.distance k) := by
                    rw [hsplitacc, hidR hA1]
                  exact (congrArg (stackFoldDist bvh.triangles (gs.map Prod.fst)
                    (ray.origin.lane k) (ray.direction.lane k)) hacc.symm)
                · rcases hres.2 with hA | ⟨t', ht', c, hc, heq, hlt⟩
                  · exact Or.inl (by rw [hstep]; exact hA)
                  · exact Or.inr ⟨t', ht', c, hc, by rw [hstep]; exact heq, hlt⟩
              · -- only the second child hit
                rw [if_pos hA1, if_neg (by simp [hA0])] at hstep
                have hres := ih ((bnr.aabb.intersect ray, bnr) :: rest)
                  (((mid, ghi), szr) :: gs) isect (List.Forall₂.cons heR hrest)
                  (by rw [ghostFuel_cons]; omega) k
                constructor
                · rw [hstep, hres.1]
                  have hacc : laneDist (rangeTriangles bvh.triangles glo ghi)
                      (ray.origin.lane k) (ray.direction.lane k) (isect.distance k) =
                      laneDist (rangeTriangles bvh.triangles mid ghi)
                        (ray.origin.lane k) (ray.direction.lane k) (isect.distance k) := by
                    rw [hsplitacc, hidL hA0]
                  exact (congrArg (stackFoldDist bvh.triangles (gs.map Prod.fst)
                    (ray.origin.lane k) (ray.direction.lane k)) hacc.symm)
                · rcases hres.2 with hA | ⟨t', ht', c, hc, heq, hlt⟩
                  · exact Or.inl (by rw [hstep]; exact hA)
                  · exact Or.inr ⟨t', ht', c, hc, by rw [hstep]; exact heq, hlt⟩
              · -- both children hit
                rw [if_pos hA1, if_pos hA0] at hstep
                have hres := ih
                  ((bnr.aabb.intersect ray, bnr) :: (bnl.aabb.intersect ray, bnl) :: rest)
                  (((mid, ghi), szr) :: ((glo, mid), szl) :: gs) isect
                  (List.Forall₂.cons heR (List.Forall₂.cons heL hrest))
                  (by rw [ghostFuel_cons, ghostFuel_cons]; omega) k
                constructor
                · rw [hstep, hres.1]
                  exact (congrArg (stackFoldDist bvh.triangles (gs.map Prod.fst)
                    (ray.origin.lane k) (ray.direction.lane k))
                    (hsplitacc (isect.distance k)).symm)
                · rcases hres.2 with hA | ⟨t', ht', c, hc, heq, hlt⟩
                  · exact Or.inl (by rw [hstep]; exact hA)
                  · exact Or.inr ⟨t', ht', c, hc, by rw [hstep]; exact heq, hlt⟩
          · -- the entry is skipped
            have hmeta : ∀ k' : Fin 8, qe (isect.distance k') < ai.tnear k' := by
              simp only [AabbIsect.isFurtherAwayThan, decide_eq_true_eq] at hskip
              exact hskip
            have hstep := bvhGo_skip bvh ray fuel ai node rest isect hskip
            obtain ⟨bn, hbn, hbnA⟩ := crys_get hcrys
            have hnode : node = bn := Option.some.inj (hget.symm.trans hbn)
            have hnA : node.aabb = t.outerAabb := by rw [hnode]; exact hbnA
            have hid0 : laneDist (rangeTriangles bvh.triangles glo ghi)
                (ray.origin.lane k) (ray.direction.lane k) (isect.distance k) =
                isect.distance k := by
              apply laneDist_id_of_box bvh.triangles t.outerAabb glo ghi _ _ _
                (crys_verts hcrys)
              intro tq hpos hnear hhit
              have h5 : ai.tnear k = (slabLane t.outerAabb
                  (ray.origin.lane k) (ray.direction.lane k)).1 := by
                rw [hai]
                show (slabLane node.aabb (ray.origin.lane k) (ray.direction.lane k)).1 = _
                rw [hnA]
              have h6 : qe (isect.distance k) < qe tq := by
                refine lt_of_lt_of_le ?_ hnear
                rw [← h5]
                exact hmeta k
              exact (qe_lt_qe.mp h6).le
            have hres := ih rest gs isect hrest
              (by have := crys_sz_pos hcrys; omega) k
            constructor
            · rw [hstep, hres.1]
              exact (congrArg (stackFoldDist bvh.triangles (gs.map Prod.fst)
                (ray.origin.lane k) (ray.direction.lane k)) hid0.symm)
            · rcases hres.2 with hA | ⟨t', ht', c, hc, heq, hlt⟩
              · exact Or.inl (by rw [hstep]; exact hA)
              · exact Or.inr ⟨t', ht', c, hc, by rw [hstep]; exact heq, hlt⟩

/-- Two members of a pairwise-related list are equal or related. -/
theorem pairwise_mem_ne {α : Type} (R : α → α → Prop) (hsym : ∀ a b, R a b → R b a) :
    ∀ (L : List α), List.Pairwise R L → ∀ a ∈ L, ∀ b ∈ L, a = b ∨ R a b := by
  intro L
  induction L with
  | nil =>
    intro _ a ha
    cases ha
  | cons x xs ih =>
    intro hp a ha b hb
    have hp' := List.pairwise_cons.mp hp
    rcases List.mem_cons.mp ha with ha1 | ha1 <;> rcases List.mem_cons.mp hb with hb1 | hb1
    · left
      rw [ha1, hb1]
    · right
      rw [ha1]
      exact hp'.1 b hb1
    · right
      rw [hb1]
      exact hsym _ _ (hp'.1 a ha1)
    · exact ih hp'.2 a ha1 b hb1

/-- `candNeB` is symmetric. -/
theorem candNeB_symm (o d : SVector3) (a b : Triangle)
    (h : candNeB o d a b = true) : candNeB o d b a = true := by
  unfold candNeB at h ⊢
  cases ha : a.candidate o d <;> cases hb : b.candidate o d <;>
    simp only [ha, hb, decide_eq_true_eq] at h ⊢
  exact fun he => h he.symm

/-- Lane records characterized as untouched-or-candidate agree when their
distances agree and the lane hits are pairwise distinct. -/
theorem record_unique (L : List Triangle) (o d : SVector3) (rec X Y : LaneRec)
    (hdist : X.dist = Y.dist)
    (hX : X = rec ∨ ∃ t ∈ L, ∃ c, t.candidate o d = some c ∧ X = c.2 ∧ c.1 < rec.dist)
    (hY : Y = rec ∨ ∃ t ∈ L, ∃ c, t.candidate o d = some c ∧ Y = c.2 ∧ c.1 < rec.dist)
    (hD : DistinctHits L o d) : X = Y := by
  rcases hX with rfl | ⟨t1, ht1, c1, hc1, hX1, hlt1⟩ <;>
    rcases hY with rfl | ⟨t2, ht2, c2, hc2, hY2, hlt2⟩
  · rfl
  · exfalso
    have h2 : Y.dist = c2.1 := by
      rw [hY2, candidate_record t2 o d c2 hc2]
    rw [← hdist] at h2
    exact absurd (h2 ▸ hlt2) (lt_irrefl X.dist)
  · exfalso
    have h1 : X.dist = c1.1 := by
      rw [hX1, candidate_record t1 o d c1 hc1]
    rw [hdist] at h1
    exact absurd (h1 ▸ hlt1) (lt_irrefl Y.dist)
  · have h1 : X.dist = c1.1 := by
      rw [hX1, candidate_record t1 o d c1 hc1]
    have h2 : Y.dist = c2.1 := by
      rw [hY2, candidate_record t2 o d c2 hc2]
    have hcc : c1.1 = c2.1 := by rw [← h1, ← h2, hdist]
    rcases pairwise_mem_ne _ (candNeB_symm o d) L hD t1 ht1 t2 ht2 with rfl | hR
    · have : c1 = c2 := Option.some.inj (hc1.symm.trans hc2)
      rw [hX1, hY2, this]
    · exfalso
      unfold candNeB at hR
      simp only [hc1, hc2, decide_eq_true_eq] at hR
      exact hR hcc

/-- `Bvh::intersect_nearest` against a crystallized pair of roots: per lane
the distance equals the brute-force distance over the triangle buffer, and
under pairwise-distinct hit distances the full lane record matches the
brute-force record. -/
theorem intersectNearest_spec (bvh : Bvh) (l r : InterimNode) (Sl Sr : Set ℕ)
    (szl szr mid : ℕ)
    (hl : Crys l bvh.nodes bvh.triangles Sl szl 0 0 mid)
    (hr : Crys r bvh.nodes bvh.triangles Sr szr 1 mid bvh.triangles.length)
    (ray : MRay) (isect : MIntersection) (k : Fin 8) :
    (bvh.intersectNearest ray isect).distance k =
      (bruteForce bvh.triangles ray isect).distance k ∧
    (DistinctHits bvh.triangles (ray.origin.lane k) (ray.direction.lane k) →
      (bvh.intersectNearest ray isect).lane k = (bruteForce bvh.triangles ray isect).lane k) := by
  obtain ⟨bn0, hbn0, hbn0A⟩ := crys_get hl
  obtain ⟨bn1, hbn1, hbn1A⟩ := crys_get hr
  have hg0 : bvh.nodes.getD 0 BvhNode.new = bn0 := getD_of_get? _ _ _ _ hbn0
  have hg1 : bvh.nodes.getD 1 BvhNode.new = bn1 := getD_of_get? _ _ _ _ hbn1
  have hmid0 := crys_lo_lt_hi hl
  have hmidn := crys_lo_lt_hi hr
  have hszl := crys_sz_le hl
  have hszr := crys_sz_le hr
  have hbuf : bvh.triangles =
      rangeTriangles bvh.triangles 0 mid ++
        rangeTriangles bvh.triangles mid bvh.triangles.length := by
    calc bvh.triangles = rangeTriangles bvh.triangles 0 bvh.triangles.length :=
        (rangeTriangles_all _).symm
      _ = _ := rangeTriangles_split _ 0 mid _ (by omega) (by omega)
  have hIN : bvh.intersectNearest ray isect =
      bvhGo bvh ray (2 * bvh.triangles.length + 2)
        (if (bn1.aabb.intersect ray).anyHit = true
          then (bn1.aabb.intersect ray, bn1) ::
            (if (bn0.aabb.intersect ray).anyHit = true
              then [(bn0.aabb.intersect ray, bn0)] else [])
          else (if (bn0.aabb.intersect ray).anyHit = true
              then [(bn0.aabb.intersect ray, bn0)] else [])) isect := by
    unfold Bvh.intersectNearest
    rw [hg0, hg1]
  have heL : EntryOk bvh ray (bn0.aabb.intersect ray, bn0) ((0, mid), szl) :=
    ⟨l, Sl, 0, hl, hbn0, rfl⟩
  have heR : EntryOk bvh ray (bn1.aabb.intersect ray, bn1) ((mid, bvh.triangles.length), szr) :=
    ⟨r, Sr, 1, hr, hbn1, rfl⟩
  have hidL : (bn0.aabb.intersect ray).anyHit = false →
      ∀ b : ℚ, laneDist (rangeTriangles bvh.triangles 0 mid)
        (ray.origin.lane k) (ray.direction.lane k) b = b := by
    intro hmiss b
    apply laneDist_id_of_box bvh.triangles l.outerAabb 0 mid _ _ b (crys_verts hl)
    intro tq hpos hnear hhit
    exfalso
    simp only [AabbIsect.anyHit, decide_eq_false_iff_not] at hmiss
    apply hmiss
    refine ⟨k, ?_⟩
    show (slabLane bn0.aabb (ray.origin.lane k) (ray.direction.lane k)).2 = true
    rw [hbn0A]
    exact hhit
  have hidR : (bn1.aabb.intersect ray).anyHit = false →
      ∀ b : ℚ, laneDist (rangeTriangles bvh.triangles mid bvh.triangles.length)
        (ray.origin.lane k) (ray.direction.lane k) b = b := by
    intro hmiss b
    apply laneDist_id_of_box bvh.triangles r.outerAabb mid bvh.triangles.length _ _ b
      (crys_verts hr)
    intro tq hpos hnear hhit
    exfalso
    simp only [AabbIsect.anyHit, decide_eq_false_iff_not] at hmiss
    apply hmiss
    refine ⟨k, ?_⟩
    show (slabLane bn1.aabb (ray.origin.lane k) (ray.direction.lane k)).2 = true
    rw [hbn1A]
    exact hhit
  have hbl : (bruteForce bvh.triangles ray isect).lane k =
      laneFold bvh.triangles (ray.origin.lane k) (ray.direction.lane k) (isect.lane k) :=
    bruteForce_lane _ _ _ _
  have hbd : (bruteForce bvh.triangles ray isect).distance k =
      laneDist bvh.triangles (ray.origin.lane k) (ray.direction.lane k) (isect.distance k) := by
    have h5 := congrArg LaneRec.dist hbl
    rw [laneFold_dist] at h5
    exact h5
  have hkey : (bvh.intersectNearest ray isect).distance k =
      laneDist bvh.triangles (ray.origin.lane k) (ray.direction.lane k) (isect.distance k) ∧
      ((bvh.intersectNearest ray isect).lane k = isect.lane k ∨
        ∃ t' ∈ bvh.triangles, ∃ c,
          t'.candidate (ray.origin.lane k) (ray.direction.lane k) = some c ∧
          (bvh.intersectNearest ray isect).lane k = c.2 ∧ c.1 < isect.distance k) := by
    rcases (Bool.eq_false_or_eq_true ((bn1.aabb.intersect ray).anyHit)).symm with hA1 | hA1 <;>
      rcases (Bool.eq_false_or_eq_true ((bn0.aabb.intersect ray).anyHit)).symm with hA0 | hA0
    · rw [if_neg (by simp [hA1]), if_neg (by simp [hA0])] at hIN
      have hres := bvhGo_master bvh ray (2 * bvh.triangles.length + 2) [] [] isect
        List.Forall₂.nil (by simp [ghostFuel]) k
      constructor
      · rw [hIN, hres.1]
        have hid : laneDist bvh.triangles (ray.origin.lane k) (ray.direction.lane k)
            (isect.distance k) = isect.distance k := by
          nth_rewrite 1 [hbuf]
          rw [laneDist_append, hidR hA1, hidL hA0]
        exact hid.symm
      · rw [hIN]
        exact hres.2
    · rw [if_neg (by simp [hA1]), if_pos hA0] at hIN
      have hres := bvhGo_master bvh ray (2 * bvh.triangles.length + 2)
        [(bn0.aabb.intersect ray, bn0)] [((0, mid), szl)] isect
        (List.Forall₂.cons heL List.Forall₂.nil)
        (by show szl + 0 ≤ 2 * bvh.triangles.length + 2; omega) k
      constructor
      · rw [hIN, hres.1]
        have hid : laneDist bvh.triangles (ray.origin.lane k) (ray.direction.lane k)
            (isect.distance k) =
            laneDist (rangeTriangles bvh.triangles 0 mid)
              (ray.origin.lane k) (ray.direction.lane k) (isect.distance k) := by
          nth_rewrite 1 [hbuf]
          rw [laneDist_append, hidR hA1]
        exact hid.symm
      · rw [hIN]
        exact hres.2
    · rw [if_pos hA1, if_neg (by simp [hA0])] at hIN
      have hres := bvhGo_master bvh ray (2 * bvh.triangles.length + 2)
        [(bn1.aabb.intersect ray, bn1)] [((mid, bvh.triangles.length), szr)] isect
        (List.Forall₂.cons heR List.Forall₂.nil)
        (by show szr + 0 ≤ 2 * bvh.triangles.length + 2; omega) k
      constructor
      · rw [hIN, hres.1]
        have hid : laneDist bvh.triangles (ray.origin.lane k) (ray.direction.lane k)
            (isect.distance k) =
            laneDist (rangeTriangles bvh.triangles mid bvh.triangles.length)
              (ray.origin.lane k) (ray.direction.lane k) (isect.distance k) := by
          nth_rewrite 1 [hbuf]
          rw [laneDist_append, hidL hA0]
        exact hid.symm
      · rw [hIN]
        exact hres.2
    · rw [if_pos hA1, if_pos hA0] at hIN
      have hres := bvhGo_master bvh ray (2 * bvh.triangles.length + 2)
        [(bn1.aabb.intersect ray, bn1), (bn0.aabb.intersect ray, bn0)]
        [((mid, bvh.triangles.length), szr), ((0, mid), szl)] isect
        (List.Forall₂.cons heR (List.Forall₂.cons heL List.Forall₂.nil))
        (by show szr + (szl + 0) ≤ 2 * bvh.triangles.length + 2; omega) k
      constructor
      · rw [hIN, hres.1]
        have hid : laneDist bvh.triangles (ray.origin.lane k) (ray.direction.lane k)
            (isect.distance k) =
            laneDist (rangeTriangles bvh.triangles 0 mid)
              (ray.origin.lane k) (ray.direction.lane k)
              (laneDist (rangeTriangles bvh.triangles mid bvh.triangles.length)
                (ray.origin.lane k) (ray.direction.lane k) (isect.distance k)) := by
          nth_rewrite 1 [hbuf]
          rw [laneDist_append, laneDist_swap]
        exact hid.symm
      · rw [hIN]
        exact hres.2
  constructor
  · rw [hkey.1, hbd]
  · intro hD
    have hY : (bruteForce bvh.triangles ray isect).lane k = isect.lane k ∨
        ∃ t ∈ bvh.triangles, ∃ c,
          t.candidate (ray.origin.lane k) (ray.direction.lane k) = some c ∧
          (bruteForce bvh.triangles ray isect).lane k = c.2 ∧
          c.1 < (isect.lane k).dist := by
      rcases laneFold_cases bvh.triangles (ray.origin.lane k) (ray.direction.lane k)
          (isect.lane k) with hB | ⟨hlt2, t2, ht2, c2, hc2, heq2⟩
      · exact Or.inl (hbl.trans hB)
      · right
        refine ⟨t2, ht2, c2, hc2, hbl.trans heq2, ?_⟩
        have hcd : c2.2.dist = c2.1 := by
          rw [candidate_record t2 (ray.origin.lane k) (ray.direction.lane k) c2 hc2]
        calc c2.1 = c2.2.dist := hcd.symm
          _ = (laneFold bvh.triangles (ray.origin.lane k) (ray.direction.lane k)
              (isect.lane k)).dist := by rw [heq2]
          _ < (isect.lane k).dist := hlt2
    exact record_unique bvh.triangles (ray.origin.lane k) (ray.direction.lane k)
      (isect.lane k) _ _ (hkey.1.trans hbd.symm) hkey.2 hY hD

/-- Reading back the slot just written. -/
theorem get?_set_self {α : Type} (l : List α) (i : ℕ) (x : α) (h : i < l.length) :
    (l.set i x).get? i = some x := by
  induction l generalizing i with
  | nil => cases h
  | cons a as ih =>
    cases i with
    | zero => rfl
    | succ m => exact ih m (by simpa using h)

/-- Writing one slot leaves the other slots unchanged. -/
theorem get?_set_ne {α : Type} (l : List α) (i j : ℕ) (x : α) (h : i ≠ j) :
    (l.set i x).get? j = l.get? j := by
  induction l generalizing i j with
  | nil => rfl
  | cons a as ih =>
    cases i with
    | zero =>
      cases j with
      | zero => exact absurd rfl h
      | succ m => rfl
    | succ m =>
      cases j with
      | zero => rfl
      | succ p => exact ih m p (by omega)

/-- `crystallize` rejects the degenerate empty leaf. -/
theorem crystallize_ok_not_empty (src : List Triangle) (t : InterimNode)
    (nodes : List BvhNode) (sorted : List Triangle) (into : ℕ)
    (res : List BvhNode × List Triangle)
    (hok : InterimNode.crystallize src t nodes sorted into = Except.ok res) :
    ¬ t.emptyLeaf := by
  rintro ⟨htr, hch⟩
  obtain ⟨outer, inner, cs, tris⟩ := t
  have htr' : tris = [] := htr
  have hch' : cs = [] := hch
  subst htr'
  subst hch'
  simp only [InterimNode.crystallize] at hok
  by_cases hpar : nodes.length % 2 ≠ 0
  · rw [if_pos hpar] at hok
    cases hok
  · rw [if_neg hpar] at hok
    rw [if_pos (by rfl)] at hok
    cases hok

/-- Splitting a successful monadic bind. -/
theorem except_bind_ok {ε α β : Type} (x : Except ε α) (f : α → Except ε β) (res : β)
    (h : (x >>= f) = Except.ok res) : ∃ a, x = Except.ok a ∧ f a = Except.ok res := by
  cases x with
  | error e => exact Except.noConfusion (show Except.error e = Except.ok res from h)
  | ok a => exact ⟨a, rfl, h⟩

/-- Specification of `InterimNode::crystallize` on a well-formed interim
tree: the filled slots are the target slot plus the freshly appended ones,
they crystallize the subtree over the appended buffer range, previously
filled slots survive, parity of the node count is preserved, and the
triangle buffer grows by exactly the subtree's triangles in depth-first
order. -/
theorem crystallize_spec :
    ∀ (n : ℕ) (t : InterimNode), sizeOf t ≤ n →
    ∀ (src : List Triangle) (nodes : List BvhNode) (sorted : List Triangle) (into : ℕ)
      (res : List BvhNode × List Triangle),
      ITInv src t →
      into < nodes.length →
      InterimNode.crystallize src t nodes sorted into = Except.ok res →
      (∃ sz, Crys t res.1 res.2
          ({into} ∪ {j | nodes.length ≤ j ∧ j < res.1.length}) sz into
          sorted.length res.2.length) ∧
      nodes.length ≤ res.1.length ∧
      res.1.length % 2 = nodes.length % 2 ∧
      (∀ j, j < nodes.length → j ≠ into → res.1.get? j = nodes.get? j) ∧
      res.2 = sorted ++ (subtreeRefs t).map (fun ref => src.getD ref.index dummyTri) := by
  intro n
  induction n with
  | zero =>
    intro t hsz
    exfalso
    obtain ⟨outer, inner, cs, tris⟩ := t
    simp [InterimNode.mk.sizeOf_spec] at hsz
  | succ n ih =>
    intro t hsz src nodes sorted into res hinv hlt hok
    obtain ⟨outer, inner, cs, tris⟩ := t
    simp only [InterimNode.crystallize] at hok
    by_cases hpar : nodes.length % 2 ≠ 0
    · rw [if_pos hpar] at hok
      cases hok
    · rw [if_neg hpar] at hok
      have hpar2 : nodes.length % 2 = 0 := by omega
      by_cases htris : tris.isEmpty = true
      · -- interior node: two children required
        rw [if_pos htris] at hok
        have htris' : tris = [] := List.isEmpty_iff.mp htris
        subst htris'
        cases cs with
        | nil => cases hok
        | cons l cs2 =>
          cases cs2 with
          | nil => cases hok
          | cons r cs3 =>
            cases cs3 with
            | cons c cs4 => cases hok
            | nil =>
              simp only [List.length_set] at hok
              obtain ⟨s1, hs1, hok⟩ := except_bind_ok _ _ _ hok
              obtain ⟨s2, hs2, hok⟩ := except_bind_ok _ _ _ hok
              injection hok with hok
              subst hok
              -- invariant inversion
              have hinv2 : ITInv src l ∧ ITInv src r ∧
                  (l.emptyLeaf ∨ l.outerAabb.sub outer) ∧
                  (r.emptyLeaf ∨ r.outerAabb.sub outer) := by
                cases hinv with
                | leaf _ hch hall => cases hch
                | node _ l' r' hch htr hil hir hel her =>
                  have hch' : l :: r :: [] = [l', r'] := hch
                  injection hch' with h1 h2
                  injection h2 with h2 h3
                  subst h1
                  subst h2
                  exact ⟨hil, hir, hel, her⟩
              obtain ⟨hil, hir, hel, her⟩ := hinv2
              -- size bookkeeping for the induction
              have hsl : sizeOf l ≤ n ∧ sizeOf r ≤ n := by
                simp only [InterimNode.mk.sizeOf_spec, List.cons.sizeOf_spec,
                  List.nil.sizeOf_spec] at hsz
                omega
              -- the two recursive calls
              have hresl := ih l hsl.1 src
                ((nodes.set into ⟨outer, (nodes.getD into BvhNode.new).index,
                  (nodes.getD into BvhNode.new).len⟩) ++ [BvhNode.new, BvhNode.new])
                sorted nodes.length s1 hil
                (by simp [List.length_append, List.length_set]) hs1
              obtain ⟨⟨szl, hcl⟩, hlen1, hpar1, hun1, hdl⟩ := hresl
              simp only [List.length_append, List.length_set, List.length_cons,
                List.length_nil] at hcl hlen1 hpar1 hun1
              have hresr := ih r hsl.2 src s1.1 s1.2 (nodes.length + 1) s2 hir
                (by omega) hs2
              obtain ⟨⟨szr, hcr⟩, hlen2, hpar2b, hun2, hdr⟩ := hresr
              -- child boxes
              have hsubl : l.outerAabb.sub outer := by
                rcases hel with hfe | hs
                · exact absurd hfe (crystallize_ok_not_empty _ _ _ _ _ _ hs1)
                · exact hs
              have hsubr : r.outerAabb.sub outer := by
                rcases her with hfe | hs
                · exact absurd hfe (crystallize_ok_not_empty _ _ _ _ _ _ hs2)
                · exact hs
              -- the stored root node
              have hget2 : (nodes.set into ⟨outer, (nodes.getD into BvhNode.new).index,
                    (nodes.getD into BvhNode.new).len⟩ ++
                  [BvhNode.new, BvhNode.new]).get? into =
                  some ⟨outer, (nodes.getD into BvhNode.new).index,
                    (nodes.getD into BvhNode.new).len⟩ := by
                rw [List.get?_append (by simp [List.length_set]; omega)]
                exact get?_set_self _ _ _ hlt
              have hs1into : s1.1.get? into =
                  some ⟨outer, (nodes.getD into BvhNode.new).index,
                    (nodes.getD into BvhNode.new).len⟩ := by
                rw [hun1 into (by simp [List.length_set]; omega) (by omega)]
                exact hget2
              have hs2into : s2.1.get? into =
                  some ⟨outer, (nodes.getD into BvhNode.new).index,
                    (nodes.getD into BvhNode.new).len⟩ := by
                rw [hun2 into (by omega) (by omega)]
                exact hs1into
              have hcuraabb : (s2.1.getD into BvhNode.new).aabb = outer := by
                rw [getD_of_get? _ _ _ _ hs2into]
              have hfinget : (s2.1.set into
                    ⟨(s2.1.getD into BvhNode.new).aabb, nodes.length, 0⟩).get? into =
                  some ⟨outer, nodes.length, 0⟩ := by
                rw [get?_set_self _ _ _ (by omega), hcuraabb]
              refine ⟨⟨szl + szr + 1, ?_⟩, ?_, ?_, ?_, ?_⟩
              · -- the Crys fact
                have hS : ({into} : Set ℕ) ∪
                    ({nodes.length} ∪ {j | nodes.length + 2 ≤ j ∧ j < s1.1.length}) ∪
                    ({nodes.length + 1} ∪ {j | s1.1.length ≤ j ∧ j < s2.1.length}) =
                    {into} ∪ {j | nodes.length ≤ j ∧ j <
                      (s2.1.set into
                        ⟨(s2.1.getD into BvhNode.new).aabb, nodes.length, 0⟩).length} := by
                  ext j
                  simp only [Set.mem_union, Set.mem_singleton_iff, Set.mem_setOf_eq,
                    List.length_set]
                  omega
                rw [← hS]
                refine Crys.node _ l r _ _ _ _ szl szr into nodes.length
                  sorted.length s1.2.length s2.2.length rfl hfinget
                  (Nat.even_iff.mpr hpar2) hsubl hsubr ?_ ?_
                · -- transported left child
                  refine crys_mono hcl _ _ ?_ ?_
                  · intro j hj
                    rcases hj with hj | hj
                    · rw [Set.mem_singleton_iff] at hj
                      subst hj
                      rw [get?_set_ne _ _ _ _ (by omega)]
                      exact hun2 _ (by omega) (by omega)
                    · rw [Set.mem_setOf_eq] at hj
                      rw [get?_set_ne _ _ _ _ (by omega)]
                      exact hun2 _ (by omega) (by omega)
                  · intro j hj1 hj2
                    rw [hdr, List.get?_append hj2]
                · -- transported right child
                  refine crys_mono hcr _ _ ?_ ?_
                  · intro j hj
                    rcases hj with hj | hj
                    · rw [Set.mem_singleton_iff] at hj
                      subst hj
                      rw [get?_set_ne _ _ _ _ (by omega)]
                    · rw [Set.mem_setOf_eq] at hj
                      rw [get?_set_ne _ _ _ _ (by omega)]
                  · intro j hj1 hj2
                    rfl
              · simp only [List.length_set]
                omega
              · simp only [List.length_set]
                omega
              · intro j hj hne
                rw [get?_set_ne _ _ _ _ (Ne.symm hne)]
                rw [hun2 j (by omega) (by omega)]
                rw [hun1 j (by simp [List.length_set]; omega) (by omega)]
                rw [List.get?_append (by simp [List.length_set]; omega)]
                exact get?_set_ne _ _ _ _ (Ne.symm hne)
              · show s2.2 = sorted ++ _
                rw [hdr, hdl, List.append_assoc]
                congr 1
                show _ = List.map _ (subtreeRefs (InterimNode.mk outer inner [l, r] []))
                rw [subtreeRefs]
                show _ = List.map _ ([] ++ subtreeRefsL [l, r])
                rw [List.nil_append, subtreeRefsL, subtreeRefsL, subtreeRefsL,
                  List.append_nil, List.map_append]
      · -- leaf node: write the triangles
        rw [if_neg htris] at hok
        by_cases hcs : cs.length ≠ 0
        · rw [if_pos hcs] at hok
          cases hok
        · rw [if_neg hcs] at hok
          have hcs' : cs = [] := List.length_eq_zero.mp (by omega)
          subst hcs'
          injection hok with hok
          subst hok
          have htrisne : tris ≠ [] := by
            intro h0
            rw [h0] at htris
            exact htris rfl
          have hall : ∀ ref ∈ tris, RefWf src ref ∧ ref.aabb.sub outer := by
            cases hinv with
            | leaf _ hch hall => exact hall
            | node _ l' r' hch htr hil hir hel her => cases hch
          have hcur : (nodes.set into ⟨outer, (nodes.getD into BvhNode.new).index,
                (nodes.getD into BvhNode.new).len⟩).getD into BvhNode.new =
              ⟨outer, (nodes.getD into BvhNode.new).index,
                (nodes.getD into BvhNode.new).len⟩ :=
            getD_of_get? _ _ _ _ (get?_set_self _ _ _ hlt)
          refine ⟨⟨1, ?_⟩, ?_, ?_, ?_, ?_⟩
          · have hS : ({into} : Set ℕ) =
                {into} ∪ {j | nodes.length ≤ j ∧ j <
                  ((nodes.set into ⟨outer, (nodes.getD into BvhNode.new).index,
                      (nodes.getD into BvhNode.new).len⟩).set into
                    ⟨((nodes.set into ⟨outer, (nodes.getD into BvhNode.new).index,
                        (nodes.getD into BvhNode.new).len⟩).getD into BvhNode.new).aabb,
                      sorted.length, tris.length⟩).length} := by
              ext j
              simp only [Set.mem_union, Set.mem_singleton_iff, Set.mem_setOf_eq,
                List.length_set]
              omega
            rw [← hS]
            have hhi : (sorted ++ List.map
                (fun ref => src.getD ref.index ⟨⟨0,0,0⟩, ⟨0,0,0⟩, ⟨0,0,0⟩⟩) tris).length =
                sorted.length + tris.length := by
              simp [List.length_append, List.length_map]
            rw [show (sorted ++ List.map
                (fun ref => src.getD ref.index ⟨⟨0,0,0⟩, ⟨0,0,0⟩, ⟨0,0,0⟩⟩) tris).length =
                sorted.length + tris.length from hhi]
            refine Crys.leaf _ _ _ into sorted.length rfl htrisne ?_ ?_
            · rw [get?_set_self _ _ _ (by simp [List.length_set]; omega), hcur]
              rfl
            · intro j hj1 hj2
              have hj2b : j < sorted.length + tris.length := hj2
              have hj3 : j - sorted.length < tris.length := by omega
              cases hr : tris.get? (j - sorted.length) with
              | none =>
                exfalso
                have h9 := List.get?_eq_none.mp hr
                omega
              | some ref =>
                refine ⟨src.getD ref.index dummyTri, ?_, ?_⟩
                · rw [List.get?_append_right (by omega), List.get?_map, hr]
                  rfl
                · obtain ⟨hwf, hsub⟩ := hall ref (List.get?_mem hr)
                  obtain ⟨hw0, hw1, hw2⟩ := hwf
                  exact ⟨sub_containsPoint hsub hw0, sub_containsPoint hsub hw1,
                    sub_containsPoint hsub hw2⟩
          · simp [List.length_set]
          · simp [List.length_set]
          · intro j hj hne
            rw [get?_set_ne _ _ _ _ (Ne.symm hne)]
            exact get?_set_ne _ _ _ _ (Ne.symm hne)
          · show sorted ++ _ = sorted ++ _
            congr 1
            show _ = List.map _ (subtreeRefs (InterimNode.mk outer inner [] tris))
            rw [subtreeRefs, subtreeRefsL, List.append_nil]
            rfl

/-- Members of the builder's initial reference list index their own source
triangle. -/
theorem trirefs_mem (src : List Triangle) (ref : TriangleRef)
    (h : ref ∈ ((List.range src.length).zip src).map
      (fun p => TriangleRef.fromTriangle p.1 p.2)) :
    ∃ j tri, src.get? j = some tri ∧ ref = TriangleRef.fromTriangle j tri := by
  obtain ⟨p, hp, href⟩ := List.mem_map.mp h
  have he : (List.range src.length).zip src = src.enum := (List.enum_eq_zip_range src).symm
  rw [he] at hp
  exact ⟨p.1, p.2, List.mem_enum_iff_get?.mp hp, href.symm⟩

/-- The builder's initial interim node satisfies the construction
invariant. -/
theorem ITInv_fromTriangleRefs (src : List Triangle) :
    ITInv src (InterimNode.fromTriangleRefs (((List.range src.length).zip src).map
      (fun p => TriangleRef.fromTriangle p.1 p.2))) := by
  refine ITInv.leaf _ ?_ ?_
  · rfl
  · intro ref hmem
    obtain ⟨j, tri, hget, href⟩ := trirefs_mem src ref hmem
    constructor
    · subst href
      have hd : src.getD (TriangleRef.fromTriangle j tri).index dummyTri = tri :=
        getD_of_get? _ _ _ _ hget
      unfold RefWf
      rw [hd]
      exact enclosePoints3_contains tri.v0 tri.v1 tri.v2
    · exact mem_sub_encloseAabbs (List.mem_map_of_mem _ hmem)

/-- One split step preserves the construction invariant: the result has
the same outer box, its children are childless, and an empty leaf passes
through unchanged. -/
theorem split_ITInv (src : List Triangle) (t : InterimNode) (h : Heuristic)
    (t' : InterimNode) (hinv : ITInv src t) (hch : t.children = [])
    (hs : InterimNode.split t h = Except.ok t') :
    ITInv src t' ∧ t'.outerAabb = t.outerAabb ∧
      (∀ c ∈ t'.children, c.children = []) ∧ (t.emptyLeaf → t' = t) := by
  have hall : ∀ ref ∈ t.triangles, RefWf src ref ∧ ref.aabb.sub t.outerAabb := by
    cases hinv with
    | leaf _ hch2 hall => exact hall
    | node _ l' r' hch2 htr hil hir hel her =>
      rw [hch] at hch2
      cases hch2
  unfold InterimNode.split at hs
  by_cases hle : t.triangles.length ≤ 1
  · rw [if_pos hle] at hs
    injection hs with hs
    subst hs
    refine ⟨hinv, rfl, ?_, fun _ => rfl⟩
    rw [hch]
    intro c hc
    cases hc
  · rw [if_neg hle] at hs
    cases hsc : InterimNode.splitChoice t h with
    | none =>
      rw [hsc] at hs
      cases hs
    | some v =>
      rw [hsc] at hs
      obtain ⟨axis, splitAt, best⟩ := v
      have hs2 : (if h.trisCost t.triangles.length < best then Except.ok t
          else Except.ok (InterimNode.mk t.outerAabb t.innerAabb
            [InterimNode.fromTriangleRefs (t.triangles.filter (fun tri =>
                decide (tri.barycenter.getCoord axis ≤ splitAt))),
             InterimNode.fromTriangleRefs (t.triangles.filter (fun tri =>
                !decide (tri.barycenter.getCoord axis ≤ splitAt)))] [])) =
          Except.ok t' := hs
      clear hs
      rename' hs2 => hs
      by_cases hns : h.trisCost t.triangles.length < best
      · rw [if_pos hns] at hs
        injection hs with hs
        subst hs
        refine ⟨hinv, rfl, ?_, fun _ => rfl⟩
        rw [hch]
        intro c hc
        cases hc
      · rw [if_neg hns] at hs
        injection hs with hs
        subst hs
        refine ⟨?_, rfl, ?_, ?_⟩
        · refine ITInv.node _ (InterimNode.fromTriangleRefs
              (t.triangles.filter (fun tri =>
                decide (tri.barycenter.getCoord axis ≤ splitAt))))
            (InterimNode.fromTriangleRefs
              (t.triangles.filter (fun tri =>
                !decide (tri.barycenter.getCoord axis ≤ splitAt)))) rfl rfl ?_ ?_ ?_ ?_
          · refine ITInv.leaf _ ?_ ?_
            · rfl
            · intro ref hmem
              have hsub : ref ∈ t.triangles := (List.mem_filter.mp hmem).1
              exact ⟨(hall ref hsub).1, mem_sub_encloseAabbs (List.mem_map_of_mem _ hmem)⟩
          · refine ITInv.leaf _ ?_ ?_
            · rfl
            · intro ref hmem
              have hsub : ref ∈ t.triangles := (List.mem_filter.mp hmem).1
              exact ⟨(hall ref hsub).1, mem_sub_encloseAabbs (List.mem_map_of_mem _ hmem)⟩
          · by_cases hni : t.triangles.filter (fun tri =>
                decide (tri.barycenter.getCoord axis ≤ splitAt)) = []
            · left
              rw [InterimNode.emptyLeaf, InterimNode.fromTriangleRefs, hni]
              exact ⟨rfl, rfl⟩
            · right
              show (Aabb.encloseAabbs _).sub _
              apply encloseAabbs_sub
              · intro h0
                exact hni (List.map_eq_nil.mp h0)
              · intro b hb
                obtain ⟨ref, hrm, hrb⟩ := List.mem_map.mp hb
                rw [← hrb]
                exact (hall ref (List.mem_filter.mp hrm).1).2
          · by_cases hni : t.triangles.filter (fun tri =>
                !decide (tri.barycenter.getCoord axis ≤ splitAt)) = []
            · left
              rw [InterimNode.emptyLeaf, InterimNode.fromTriangleRefs, hni]
              exact ⟨rfl, rfl⟩
            · right
              show (Aabb.encloseAabbs _).sub _
              apply encloseAabbs_sub
              · intro h0
                exact hni (List.map_eq_nil.mp h0)
              · intro b hb
                obtain ⟨ref, hrm, hrb⟩ := List.mem_map.mp hb
                rw [← hrb]
                exact (hall ref (List.mem_filter.mp hrm).1).2
        · intro c hc
          rcases List.mem_cons.mp hc with rfl | hc
          · rfl
          · rcases List.mem_cons.mp hc with rfl | hc
            · rfl
            · cases hc
        · intro hfe
          exfalso
          have h0 : t.triangles = [] := hfe.1
          rw [h0] at hle
          exact hle (by simp)

/-- A successful `mapM` over the empty list returns the empty list. -/
theorem mapM_nil_ok {ε α β : Type} (f : α → Except ε β) (cs : List β)
    (h : List.mapM f ([] : List α) = Except.ok cs) : cs = [] := by
  simp only [List.mapM, List.mapM.loop] at h
  injection h with h
  exact h.symm

/-- A successful `mapM` over a two-element list splits into two successful
calls. -/
theorem mapM_two_ok {ε α β : Type} (f : α → Except ε β) (a b : α) (cs : List β)
    (h : List.mapM f [a, b] = Except.ok cs) :
    ∃ x y, f a = Except.ok x ∧ f b = Except.ok y ∧ cs = [x, y] := by
  simp only [List.mapM, List.mapM.loop] at h
  obtain ⟨x, hx, h⟩ := except_bind_ok _ _ _ h
  obtain ⟨y, hy, h⟩ := except_bind_ok _ _ _ h
  injection h with h
  refine ⟨x, y, hx, hy, ?_⟩
  rw [← h]
  rfl

/-- The recursive splitter preserves the construction invariant, the outer
box, and emptiness. -/
theorem splitRec_ITInv (src : List Triangle) (h : Heuristic) :
    ∀ (fuel : ℕ) (t t' : InterimNode),
      ITInv src t → t.children = [] →
      InterimNode.splitRecursive h fuel t = Except.ok t' →
      ITInv src t' ∧ t'.outerAabb = t.outerAabb ∧ (t.emptyLeaf → t'.emptyLeaf) := by
  intro fuel
  induction fuel with
  | zero =>
    intro t t' _ _ hsr
    simp only [InterimNode.splitRecursive] at hsr
    cases hsr
  | succ fuel ih =>
    intro t t' hinv hch hsr
    simp only [InterimNode.splitRecursive] at hsr
    obtain ⟨t1, hs1, hsr⟩ := except_bind_ok _ _ _ hsr
    obtain ⟨hinv1, houter1, hcc1, hemp1⟩ := split_ITInv src t h t1 hinv hch hs1
    obtain ⟨cs, hcs, hsr⟩ := except_bind_ok _ _ _ hsr
    injection hsr with hsr
    subst hsr
    cases hinv1 with
    | leaf _ hch1 hall1 =>
      rw [hch1] at hcs
      have hcs' : cs = [] := mapM_nil_ok _ _ hcs
      subst hcs'
      refine ⟨?_, houter1, ?_⟩
      · refine ITInv.leaf _ rfl ?_
        exact fun ref hr => hall1 ref hr
      · intro he
        have ht1 : t1 = t := hemp1 he
        subst ht1
        exact ⟨he.1, rfl⟩
    | node _ l r hch1 htr1 hil hir hel her =>
      rw [hch1] at hcs
      obtain ⟨l', r', hlok, hrok, hcse⟩ := mapM_two_ok _ _ _ _ hcs
      subst hcse
      have hlc : l.children = [] := hcc1 l (by rw [hch1]; exact List.mem_cons_self _ _)
      have hrc : r.children = [] := hcc1 r (by rw [hch1]; simp)
      obtain ⟨hinvl, houtl, hempl⟩ := ih l l' hil hlc hlok
      obtain ⟨hinvr, houtr, hempr⟩ := ih r r' hir hrc hrok
      refine ⟨?_, houter1, ?_⟩
      · refine ITInv.node _ l' r' rfl htr1 hinvl hinvr ?_ ?_
        · rcases hel with he | hsub
          · exact Or.inl (hempl he)
          · right
            rw [houtl]
            exact hsub
        · rcases her with he | hsub
          · exact Or.inl (hempr he)
          · right
            rw [houtr]
            exact hsub
      · intro he
        exfalso
        have ht1 : t1 = t := hemp1 he
        rw [ht1, hch] at hch1
        cases hch1

/-- `Bvh::buildI` produces a node array crystallizing the interim root's
two children at slots 0 and 1, with the appended slots split between the
two subtrees and an even node count. -/
theorem buildI_crys (src : List Triangle) (root : InterimNode) (bvh : Bvh)
    (hok : Bvh.buildI src = Except.ok (root, bvh)) :
    ∃ l r mid szl szr K,
      root.children = [l, r] ∧
      Crys l bvh.nodes bvh.triangles ({0} ∪ {j | 2 ≤ j ∧ j < K}) szl 0 0 mid ∧
      Crys r bvh.nodes bvh.triangles ({1} ∪ {j | K ≤ j ∧ j < bvh.nodes.length}) szr 1
        mid bvh.triangles.length ∧
      2 ≤ K ∧ K ≤ bvh.nodes.length ∧ bvh.nodes.length % 2 = 0 := by
  simp only [Bvh.buildI] at hok
  obtain ⟨root1, hsr, hok⟩ := except_bind_ok _ _ _ hok
  obtain ⟨hinv1, houter1, hempty1⟩ := splitRec_ITInv src (treeSah 40 120 (1 / 10))
    (src.length + 1) _ root1 (ITInv_fromTriangleRefs src) rfl hsr
  cases hcs : root1.children with
  | nil =>
    rw [hcs] at hok
    cases hok
  | cons l cs2 =>
    cases cs2 with
    | nil =>
      rw [hcs] at hok
      cases hok
    | cons r cs3 =>
      cases cs3 with
      | cons x cs4 =>
        rw [hcs] at hok
        cases hok
      | nil =>
        rw [hcs] at hok
        obtain ⟨s1, hs1, hok⟩ := except_bind_ok _ _ _ hok
        obtain ⟨s2, hs2, hok⟩ := except_bind_ok _ _ _ hok
        injection hok with hok
        injection hok with h1 h2
        subst h1
        subst h2
        have hlr : ITInv src l ∧ ITInv src r := by
          cases hinv1 with
          | leaf _ hch hall =>
            rw [hcs] at hch
            cases hch
          | node _ l2 r2 hch htr hil hir hel her =>
            rw [hcs] at hch
            injection hch with g1 g2
            injection g2 with g2 g3
            subst g1
            subst g2
            exact ⟨hil, hir⟩
        obtain ⟨⟨szl, hcl⟩, hlen1, hpar1, hun1, hdl⟩ :=
          crystallize_spec (sizeOf l) l (le_refl _) src [BvhNode.new, BvhNode.new] [] 0 s1
            hlr.1 (by simp) hs1
        simp only [List.length_cons, List.length_nil] at hcl hlen1 hpar1 hun1
        obtain ⟨⟨szr, hcr⟩, hlen2, hpar2, hun2, hdr⟩ :=
          crystallize_spec (sizeOf r) r (le_refl _) src s1.1 s1.2 1 s2
            hlr.2 (by omega) hs2
        have hclF : Crys l s2.1 s2.2 ({0} ∪ {j | 0 + 1 + 1 ≤ j ∧ j < s1.1.length}) szl 0
            0 s1.2.length := by
          refine crys_mono hcl s2.1 s2.2 ?_ ?_
          · intro j hj
            rcases hj with hj | hj
            · rw [Set.mem_singleton_iff] at hj
              subst hj
              exact hun2 0 (by omega) (by omega)
            · rw [Set.mem_setOf_eq] at hj
              exact hun2 j (by omega) (by omega)
          · intro j hj1 hj2
            rw [hdr, List.get?_append hj2]
        refine ⟨l, r, s1.2.length, szl, szr, s1.1.length, hcs, ?_, ?_, by omega, hlen2,
          by show s2.1.length % 2 = 0; omega⟩
        · exact hclF
        · exact hcr

/-- Lane distances are invariant under permutation of the triangle list. -/
theorem laneDist_perm (o d : SVector3) {L1 L2 : List Triangle} (hp : L1.Perm L2) :
    ∀ a : ℚ, laneDist L1 o d a = laneDist L2 o d a := by
  induction hp with
  | nil => intro a; rfl
  | cons t hp ih =>
    intro a
    show laneDist _ o d (distUpd t o d a) = laneDist _ o d (distUpd t o d a)
    exact ih _
  | swap t1 t2 l =>
    intro a
    show laneDist l o d (distUpd t1 o d (distUpd t2 o d a)) =
      laneDist l o d (distUpd t2 o d (distUpd t1 o d a))
    rw [distUpd_comm]
  | trans h1 h2 ih1 ih2 =>
    intro a
    exact (ih1 a).trans (ih2 a)

/-- One split step permutes, never loses, the triangle references. -/
theorem split_refs_perm (t : InterimNode) (h : Heuristic) (t' : InterimNode)
    (hch : t.children = []) (hs : InterimNode.split t h = Except.ok t') :
    (subtreeRefs t').Perm (subtreeRefs t) := by
  obtain ⟨outer, inner, cs, tris⟩ := t
  have hcs : cs = [] := hch
  subst hcs
  unfold InterimNode.split at hs
  by_cases hle : tris.length ≤ 1
  · rw [if_pos (by exact hle)] at hs
    injection hs with hs
    subst hs
    exact List.Perm.refl _
  · rw [if_neg (by exact hle)] at hs
    cases hsc : InterimNode.splitChoice (InterimNode.mk outer inner [] tris) h with
    | none =>
      rw [hsc] at hs
      cases hs
    | some v =>
      rw [hsc] at hs
      obtain ⟨axis, splitAt, best⟩ := v
      have hs2 : (if h.trisCost tris.length < best then
          Except.ok (InterimNode.mk outer inner [] tris)
          else Except.ok (InterimNode.mk outer inner
            [InterimNode.fromTriangleRefs (tris.filter (fun tri =>
                decide (tri.barycenter.getCoord axis ≤ splitAt))),
             InterimNode.fromTriangleRefs (tris.filter (fun tri =>
                !decide (tri.barycenter.getCoord axis ≤ splitAt)))] [])) =
          Except.ok t' := hs
      clear hs
      by_cases hns : h.trisCost tris.length < best
      · rw [if_pos hns] at hs2
        injection hs2 with hs2
        subst hs2
        exact List.Perm.refl _
      · rw [if_neg hns] at hs2
        injection hs2 with hs2
        subst hs2
        have e1 : subtreeRefs (InterimNode.mk outer inner
            [InterimNode.fromTriangleRefs (tris.filter (fun tri =>
                decide (tri.barycenter.getCoord axis ≤ splitAt))),
             InterimNode.fromTriangleRefs (tris.filter (fun tri =>
                !decide (tri.barycenter.getCoord axis ≤ splitAt)))] []) =
            tris.filter (fun tri => decide (tri.barycenter.getCoord axis ≤ splitAt)) ++
            tris.filter (fun tri => !decide (tri.barycenter.getCoord axis ≤ splitAt)) := by
          simp only [subtreeRefs, subtreeRefsL, InterimNode.fromTriangleRefs,
            List.append_nil, List.nil_append]
        rw [e1]
        have e2 : subtreeRefs (InterimNode.mk outer inner [] tris) = tris := by
          simp only [subtreeRefs, subtreeRefsL, List.append_nil]
        rw [e2]
        exact List.filter_append_perm _ tris

/-- The recursive splitter permutes, never loses, the triangle
references. -/
theorem splitRec_refs_perm (src : List Triangle) (h : Heuristic) :
    ∀ (fuel : ℕ) (t t' : InterimNode),
      ITInv src t → t.children = [] →
      InterimNode.splitRecursive h fuel t = Except.ok t' →
      (subtreeRefs t').Perm (subtreeRefs t) := by
  intro fuel
  induction fuel with
  | zero =>
    intro t t' _ _ hsr
    simp only [InterimNode.splitRecursive] at hsr
    cases hsr
  | succ fuel ih =>
    intro t t' hinv hch hsr
    simp only [InterimNode.splitRecursive] at hsr
    obtain ⟨t1, hs1, hsr⟩ := except_bind_ok _ _ _ hsr
    have hperm1 : (subtreeRefs t1).Perm (subtreeRefs t) := split_refs_perm t h t1 hch hs1
    obtain ⟨hinv1, houter1, hcc1, hemp1⟩ := split_ITInv src t h t1 hinv hch hs1
    obtain ⟨cs, hcs, hsr⟩ := except_bind_ok _ _ _ hsr
    injection hsr with hsr
    subst hsr
    obtain ⟨o1, i1, cs1, tr1⟩ := t1
    cases hinv1 with
    | leaf _ hch1 hall1 =>
      have hcs1 : cs1 = [] := hch1
      subst hcs1
      have hcs' : cs = [] := mapM_nil_ok _ _ hcs
      subst hcs'
      exact hperm1
    | node _ l2 r2 hch1 htr1 hil hir hel her =>
      have hcs1 : cs1 = [l2, r2] := hch1
      subst hcs1
      obtain ⟨l', r', hlok, hrok, hcse⟩ := mapM_two_ok _ _ _ _ hcs
      subst hcse
      have hlc : l2.children = [] := hcc1 l2 (List.mem_cons_self _ _)
      have hrc : r2.children = [] :=
        hcc1 r2 (List.mem_cons_of_mem _ (List.mem_cons_self _ _))
      have hpl := ih l2 l' hil hlc hlok
      have hpr := ih r2 r' hir hrc hrok
      have e1 : subtreeRefs (InterimNode.mk o1 i1 [l', r'] tr1) =
          tr1 ++ (subtreeRefs l' ++ (subtreeRefs r' ++ [])) := by
        simp only [subtreeRefs, subtreeRefsL]
      have e2 : subtreeRefs (InterimNode.mk o1 i1 [l2, r2] tr1) =
          tr1 ++ (subtreeRefs l2 ++ (subtreeRefs r2 ++ [])) := by
        simp only [subtreeRefs, subtreeRefsL]
      simp only [InterimNode.outerAabb, InterimNode.innerAabb, InterimNode.triangles]
      rw [e1]
      refine List.Perm.trans ?_ hperm1
      rw [e2]
      exact ((List.Perm.refl tr1).append ((hpl.append (hpr.append (List.Perm.refl [])))))

/-- Mapping the builder's initial references back through the source list
recovers the source list. -/
theorem trirefs_map_back (src : List Triangle) :
    (((List.range src.length).zip src).map
      (fun p => TriangleRef.fromTriangle p.1 p.2)).map
        (fun ref => src.getD ref.index dummyTri) = src := by
  rw [List.map_map]
  apply List.ext_getElem
  · simp [List.length_zip, List.length_range]
  · intro j h1 h2
    simp only [List.getElem_map, List.getElem_zip, List.getElem_range, Function.comp]
    show src.getD j dummyTri = src[j]
    exact List.getD_eq_getElem src dummyTri h2

/-- The crystallized triangle buffer is a permutation of the source
triangle list. -/
theorem buildI_perm (src : List Triangle) (root : InterimNode) (bvh : Bvh)
    (hok : Bvh.buildI src = Except.ok (root, bvh)) :
    bvh.triangles.Perm src := by
  simp only [Bvh.buildI] at hok
  obtain ⟨root1, hsr, hok⟩ := except_bind_ok _ _ _ hok
  have hperm := splitRec_refs_perm src (treeSah 40 120 (1 / 10))
    (src.length + 1) _ root1 (ITInv_fromTriangleRefs src) rfl hsr
  rw [show subtreeRefs (InterimNode.fromTriangleRefs (((List.range src.length).zip src).map
      (fun p => TriangleRef.fromTriangle p.1 p.2))) = ((List.range src.length).zip src).map
      (fun p => TriangleRef.fromTriangle p.1 p.2) from by
    simp only [InterimNode.fromTriangleRefs, subtreeRefs, subtreeRefsL,
      List.append_nil]] at hperm
  obtain ⟨hinv1, houter1, hempty1⟩ := splitRec_ITInv src (treeSah 40 120 (1 / 10))
    (src.length + 1) _ root1 (ITInv_fromTriangleRefs src) rfl hsr
  cases hcs : root1.children with
  | nil =>
    rw [hcs] at hok
    cases hok
  | cons l cs2 =>
    cases cs2 with
    | nil =>
      rw [hcs] at hok
      cases hok
    | cons r cs3 =>
      cases cs3 with
      | cons x cs4 =>
        rw [hcs] at hok
        cases hok
      | nil =>
        rw [hcs] at hok
        obtain ⟨s1, hs1, hok⟩ := except_bind_ok _ _ _ hok
        obtain ⟨s2, hs2, hok⟩ := except_bind_ok _ _ _ hok
        injection hok with hok
        injection hok with h1 h2
        subst h1
        subst h2
        have hlr : ITInv src l ∧ ITInv src r ∧ root1.triangles = [] := by
          cases hinv1 with
          | leaf _ hch hall =>
            rw [hcs] at hch
            cases hch
          | node _ l2 r2 hch htr hil hir hel her =>
            rw [hcs] at hch
            injection hch with g1 g2
            injection g2 with g2 g3
            subst g1
            subst g2
            exact ⟨hil, hir, htr⟩
        obtain ⟨⟨szl, hcl⟩, hlen1, hpar1, hun1, hdl⟩ :=
          crystallize_spec (sizeOf l) l (le_refl _) src [BvhNode.new, BvhNode.new] [] 0 s1
            hlr.1 (by simp) hs1
        obtain ⟨⟨szr, hcr⟩, hlen2, hpar2, hun2, hdr⟩ :=
          crystallize_spec (sizeOf r) r (le_refl _) src s1.1 s1.2 1 s2
            hlr.2.1 (by simp only [List.length_cons, List.length_nil] at hlen1; omega) hs2
        show s2.2.Perm src
        rw [hdr, hdl, List.nil_append, ← List.map_append]
        have hrefs : (subtreeRefs l ++ subtreeRefs r).Perm
            (((List.range src.length).zip src).map
              (fun p => TriangleRef.fromTriangle p.1 p.2)) := by
          refine List.Perm.trans ?_ hperm
          obtain ⟨o1, i1, cs1, tr1⟩ := root1
          have hcs1 : cs1 = [l, r] := hcs
          subst hcs1
          have htr1 : tr1 = [] := hlr.2.2
          subst htr1
          have e2 : subtreeRefs (InterimNode.mk o1 i1 [l, r] []) =
              [] ++ (subtreeRefs l ++ (subtreeRefs r ++ [])) := by
            simp only [subtreeRefs, subtreeRefsL]
          rw [e2]
          simp only [List.nil_append, List.append_nil]
          exact List.Perm.refl _
        have := hrefs.map (fun ref => src.getD ref.index dummyTri)
        rw [trirefs_map_back] at this
        exact this

/-- The brute-force record per lane: untouched or the candidate record of
some strictly closer list member. -/
theorem bruteForce_cases (L : List Triangle) (ray : MRay) (isect : MIntersection) (k : Fin 8) :
    (bruteForce L ray isect).lane k = isect.lane k ∨
      ∃ t ∈ L, ∃ c, t.candidate (ray.origin.lane k) (ray.direction.lane k) = some c ∧
        (bruteForce L ray isect).lane k = c.2 ∧ c.1 < (isect.lane k).dist := by
  have hbl := bruteForce_lane L ray isect k
  rcases laneFold_cases L (ray.origin.lane k) (ray.direction.lane k) (isect.lane k) with
    hB | ⟨hlt2, t2, ht2, c2, hc2, heq2⟩
  · exact Or.inl (hbl.trans hB)
  · right
    refine ⟨t2, ht2, c2, hc2, hbl.trans heq2, ?_⟩
    have hcd : c2.2.dist = c2.1 := by
      rw [candidate_record t2 (ray.origin.lane k) (ray.direction.lane k) c2 hc2]
    calc c2.1 = c2.2.dist := hcd.symm
      _ = (laneFold L (ray.origin.lane k) (ray.direction.lane k) (isect.lane k)).dist := by
        rw [heq2]
      _ < (isect.lane k).dist := hlt2

/-- Brute force over permuted triangle lists: equal distances always,
equal records under pairwise-distinct hit distances. -/
theorem bruteForce_perm (L1 L2 : List Triangle) (hp : L1.Perm L2)
    (ray : MRay) (isect : MIntersection) (k : Fin 8) :
    (bruteForce L1 ray isect).distance k = (bruteForce L2 ray isect).distance k ∧
    (DistinctHits L2 (ray.origin.lane k) (ray.direction.lane k) →
      (bruteForce L1 ray isect).lane k = (bruteForce L2 ray isect).lane k) := by
  have hd1 : (bruteForce L1 ray isect).distance k =
      laneDist L1 (ray.origin.lane k) (ray.direction.lane k) (isect.distance k) := by
    have h5 := congrArg LaneRec.dist (bruteForce_lane L1 ray isect k)
    rw [laneFold_dist] at h5
    exact h5
  have hd2 : (bruteForce L2 ray isect).distance k =
      laneDist L2 (ray.origin.lane k) (ray.direction.lane k) (isect.distance k) := by
    have h5 := congrArg LaneRec.dist (bruteForce_lane L2 ray isect k)
    rw [laneFold_dist] at h5
    exact h5
  have hdist : (bruteForce L1 ray isect).distance k = (bruteForce L2 ray isect).distance k := by
    rw [hd1, hd2, laneDist_perm (ray.origin.lane k) (ray.direction.lane k) hp]
  refine ⟨hdist, ?_⟩
  intro hD
  have hX := bruteForce_cases L1 ray isect k
  have hY := bruteForce_cases L2 ray isect k
  have hX2 : (bruteForce L1 ray isect).lane k = isect.lane k ∨
      ∃ t ∈ L2, ∃ c, t.candidate (ray.origin.lane k) (ray.direction.lane k) = some c ∧
        (bruteForce L1 ray isect).lane k = c.2 ∧ c.1 < (isect.lane k).dist := by
    rcases hX with hX | ⟨t, ht, c, hc, heq, hlt⟩
    · exact Or.inl hX
    · exact Or.inr ⟨t, hp.subset ht, c, hc, heq, hlt⟩
  exact record_unique L2 (ray.origin.lane k) (ray.direction.lane k) (isect.lane k) _ _
    hdist hX2 hY hD

/-- Every internal slot of a crystallized subtree stores the slot pair of
its two children, each of which roots a crystallized subtree. -/
theorem crys_internal_children {t : InterimNode} {nodes : List BvhNode} {tris : List Triangle}
    {S : Set ℕ} {sz i lo hi : ℕ} (h : Crys t nodes tris S sz i lo hi) :
    ∀ j ∈ S, ∀ bn, nodes.get? j = some bn → bn.len = 0 →
      ∃ (tj lj rj : InterimNode) (Slj Srj : Set ℕ) (szlj szrj loj midj hij : ℕ),
        tj.children = [lj, rj] ∧
        nodes.get? j = some ⟨tj.outerAabb, bn.index, 0⟩ ∧
        Crys lj nodes tris Slj szlj bn.index loj midj ∧
        Crys rj nodes tris Srj szrj (bn.index + 1) midj hij := by
  induction h with
  | leaf t nodes tris i lo h1 h2 h3 h4 =>
    intro j hj bn hbn hlen
    rw [Set.mem_singleton_iff] at hj
    subst hj
    have hb := Option.some.inj (h3.symm.trans hbn)
    subst hb
    have hlen' : t.triangles.length = 0 := hlen
    exact absurd (List.length_eq_zero.mp hlen') h2
  | node t l r nodes tris Sl Sr szl szr i c lo mid hi h1 h2 h3 h4 h5 h6 h7 ih1 ih2 =>
    intro j hj bn hbn hlen
    rcases hj with (hj | hj) | hj
    · rw [Set.mem_singleton_iff] at hj
      subst hj
      have hb := Option.some.inj (h2.symm.trans hbn)
      subst hb
      exact ⟨t, l, r, Sl, Sr, szl, szr, lo, mid, hi, h1, h2, h6, h7⟩
    · exact ih1 j hj bn hbn hlen
    · exact ih2 j hj bn hbn hlen

/-- C1 (amended): for every successfully built BVH, every packet ray,
every initial record and every lane, `Bvh::intersect_nearest` returns
exactly the brute-force nearest DISTANCE over all of the scene's
triangles; the full per-lane record (position, normal, distance) also
matches the brute-force fold whenever no two distinct triangles yield
candidate hits at exactly the same distance on that lane.  At an exact
distance tie the records may differ, because the traversal pops the
second root first and so visits the buffer in a different order than the
brute-force scan (see the counterexample). -/
theorem c1_intersect_nearest_vs_brute_force (src : List Triangle) (root : InterimNode)
    (bvh : Bvh) (hok : Bvh.buildI src = Except.ok (root, bvh))
    (ray : MRay) (isect : MIntersection) (k : Fin 8) :
    (bvh.intersectNearest ray isect).distance k =
      (bruteForce src ray isect).distance k ∧
    (DistinctHits src (ray.origin.lane k) (ray.direction.lane k) →
      (bvh.intersectNearest ray isect).lane k = (bruteForce src ray isect).lane k) := by
  obtain ⟨l, r, mid, szl, szr, K, hch, hcl, hcr, h2K, hKN, hN⟩ := buildI_crys src root bvh hok
  have hspec := intersectNearest_spec bvh l r _ _ szl szr mid hcl hcr ray isect k
  have hperm := buildI_perm src root bvh hok
  have hbp := bruteForce_perm bvh.triangles src hperm ray isect k
  constructor
  · exact hspec.1.trans hbp.1
  · intro hD
    have hDbuf : DistinctHits bvh.triangles (ray.origin.lane k) (ray.direction.lane k) :=
      (hperm.pairwise_iff
        (fun hxy => candNeB_symm (ray.origin.lane k) (ray.direction.lane k) _ _ hxy)).mpr hD
    exact (hspec.2 hDbuf).trans (hbp.2 hD)

/-- C6 (confirmed): after a successful build the node array length is
even, the slots are exactly the two crystallized root subtrees (allocated
in adjacent pairs), and every internal node stores an even child index
with both child slots in range, its two slots holding exactly the
crystallizations of its two interim children. -/
theorem c6_crystallize_sibling_pairs (src : List Triangle) (root : InterimNode) (bvh : Bvh)
    (hok : Bvh.buildI src = Except.ok (root, bvh)) :
    Even bvh.nodes.length ∧
    (∃ (l r : InterimNode) (mid : ℕ) (Sl Sr : Set ℕ) (szl szr : ℕ),
      root.children = [l, r] ∧
      Crys l bvh.nodes bvh.triangles Sl szl 0 0 mid ∧
      Crys r bvh.nodes bvh.triangles Sr szr 1 mid bvh.triangles.length ∧
      Sl ∪ Sr = {j | j < bvh.nodes.length}) ∧
    (∀ j bn, bvh.nodes.get? j = some bn → bn.len = 0 →
      Even bn.index ∧ bn.index + 1 < bvh.nodes.length ∧
      ∃ (tj lj rj : InterimNode) (Slj Srj : Set ℕ) (szlj szrj loj midj hij : ℕ),
        tj.children = [lj, rj] ∧
        bvh.nodes.get? j = some ⟨tj.outerAabb, bn.index, 0⟩ ∧
        Crys lj bvh.nodes bvh.triangles Slj szlj bn.index loj midj ∧
        Crys rj bvh.nodes bvh.triangles Srj szrj (bn.index + 1) midj hij) := by
  obtain ⟨l, r, mid, szl, szr, K, hch, hcl, hcr, h2K, hKN, hN⟩ := buildI_crys src root bvh hok
  refine ⟨Nat.even_iff.mpr hN, ⟨l, r, mid, _, _, szl, szr, hch, hcl, hcr, ?_⟩, ?_⟩
  · ext j
    simp only [Set.mem_union, Set.mem_singleton_iff, Set.mem_setOf_eq]
    omega
  · intro j bn hbn hlen
    have hjN : j < bvh.nodes.length := get?_some_lt hbn
    have hj2 : j ∈ ({0} ∪ {j | 2 ≤ j ∧ j < K} : Set ℕ) ∨
        j ∈ ({1} ∪ {j | K ≤ j ∧ j < bvh.nodes.length} : Set ℕ) := by
      simp only [Set.mem_union, Set.mem_singleton_iff, Set.mem_setOf_eq]
      omega
    rcases hj2 with hj2 | hj2
    · obtain ⟨he1, he2⟩ := crys_internal_pairs hcl j hj2 bn hbn hlen
      exact ⟨he1, he2, crys_internal_children hcl j hj2 bn hbn hlen⟩
    · obtain ⟨he1, he2⟩ := crys_internal_pairs hcr j hj2 bn hbn hlen
      exact ⟨he1, he2, crys_internal_children hcr j hj2 bn hbn hlen⟩

/-- C2 (amended): the mask returned by `Bvh::intersect_any(ray, max_dist)`
has the OPPOSITE polarity of the claim: lane k is true exactly when the
lane's nearest distance, starting from an initial record at `max_dist`,
remains at least `max_dist - epsilon` -- that is, true signals a miss and
false signals a hit strictly within the bound (see the counterexample). -/
theorem c2_intersect_any_mask (src : List Triangle) (root : InterimNode) (bvh : Bvh)
    (hok : Bvh.buildI src = Except.ok (root, bvh))
    (ray : MRay) (maxDist : Mf32) (k : Fin 8) :
    bvh.intersectAny ray maxDist k =
      decide (maxDist k - 1 / 100000 ≤
        (bruteForce src ray
          { position := ray.direction.mulAdd maxDist ray.origin,
            normal := ray.direction,
            distance := maxDist }).distance k) := by
  obtain ⟨l, r, mid, szl, szr, K, hch, hcl, hcr, h2K, hKN, hN⟩ := buildI_crys src root bvh hok
  have hspec := (intersectNearest_spec bvh l r _ _ szl szr mid hcl hcr ray
    { position := ray.direction.mulAdd maxDist ray.origin,
      normal := ray.direction,
      distance := maxDist } k).1
  have hbp := (bruteForce_perm bvh.triangles src (buildI_perm src root bvh hok) ray
    { position := ray.direction.mulAdd maxDist ray.origin,
      normal := ray.direction,
      distance := maxDist } k).1
  have hchain := hspec.trans hbp
  show decide ((maxDist.subM Mf32.epsilon) k ≤
      (bvh.intersectNearest ray
        { position := ray.direction.mulAdd maxDist ray.origin,
          normal := ray.direction,
          distance := maxDist }).distance k) = _
  rw [hchain]
  rfl
